import Mathlib

/-!
# PicoSat: a shallow embedding of the DPLL-style solver

Source files embedded here: `solver.h` (the `result` record), `solver.cpp`
(`solver::solver`, `solver::solve`, `solver::atomic_cut`,
`solver::unit_propagation`, `solver::find_most_frequent_variable`) and the test
battery of `PicoSat.cpp`.

Modelling conventions.

* `int` values are `Int`; `std::vector` is `List`; `size_t` values are `Nat`.
* Arithmetic on `int` is 32-bit two's complement: `wrap_int` reduces a result into
  `[-2^31, 2^31)`.  It is applied wherever the reduced and the exact result differ on
  some `int` operands: `std::abs(lit)` in the constructor (`abs_int`, which leaves
  `INT_MIN` as it is) and `frequencies[...]++` in the heuristic.  The index
  `std::abs(x) - 1` and the literal `-unit` are written exactly: on every `int` the
  reduced index is the exact one (`abs_index_wrap`); at `INT_MIN` it is `INT_MAX`,
  outside every vector the constructor can size, so the access is a fault
  (`write_interpretation_int_min`); and the clause loop does the same with `-unit`
  and with its reduced value (`simplify_clauses_wrap_neg`).  The cast of line 279
  keeps its operand, the constructor never counting more than `INT_MAX` variables
  (`solver_num_variables_le`).
* `result_` is threaded explicitly through every member function.
* `operator[]` on `result_.interpretation` and on the frequency table is unchecked
  in the source; an index outside the vector is undefined behaviour and is
  modelled by the fault `Fault.out_of_bounds`.
* `atomic_cut` is recursive; its embedding recurses on a depth budget and answers
  `Fault.out_of_fuel` when the budget is used up.  `solve` starts it with a budget
  of `num_variables + 1`.
* The steady clock is read twice: in the constructor and at the end of `solve`.
  `solve` takes the number of milliseconds between the two readings, as produced
  by `duration_cast<milliseconds>`, as its argument `elapsed`.
-/

namespace PicoSat

/-- A clause: `std::vector<int>`, a disjunction of literals. -/
abbrev Clause := List Int

/-- A clause set: `std::vector<std::vector<int>>`, a conjunction of clauses. -/
abbrev ClauseSet := List (List Int)

/-- The ways a run can leave the defined behaviour of the source. -/
inductive Fault where
  | out_of_bounds : Fault
  | out_of_fuel : Fault
deriving DecidableEq

/-- The record `result` of solver.h, with its default member initialisers. -/
structure result where
  satisfiable : Bool := true
  timed_out : Bool := false
  num_variables : Nat
  interpretation : List Bool
  calculation_time : Int := 0
  clause_set : ClauseSet
deriving DecidableEq

/-- The constant `timeout_secs` of solver.cpp. -/
def timeout_secs : Int := 30

/-- The duration `std::chrono::seconds(timeout_secs)` expressed in milliseconds,
the unit of `calculation_time`. -/
def timeout_ms : Int := timeout_secs * 1000

/-- The value a result of `int` arithmetic has in a 32-bit two's-complement register:
the representative of `x` modulo `2^32` in `[-2^31, 2^31)`. -/
def wrap_int (x : Int) : Int := (x + 2147483648) % 4294967296 - 2147483648

/-- The function `std::abs` on `int`: the magnitude, reduced to 32 bits, so that
`INT_MIN` is mapped to itself. -/
def abs_int (x : Int) : Int := wrap_int |x|

/-- The conversion of an `int` to the 64-bit `size_t`. -/
def to_size_t (x : Int) : Nat := (x % 18446744073709551616).toNat

/-- The constructor `solver::solver`, lines 7-27.  Line 15 takes `std::max` of
`static_cast<int>(result_.num_variables)` and `std::abs(lit)` in `int` and stores it
in the `size_t` field; the interpretation is resized to the final count with `false`. -/
def solver (input_clauses : ClauseSet) : result :=
  let num_variables :=
    input_clauses.foldl (fun n clause =>
      clause.foldl (fun m lit => to_size_t (max (wrap_int (m : Int)) (abs_int lit))) n) 0
  { num_variables := num_variables,
    interpretation := List.replicate num_variables false,
    clause_set := input_clauses }

/-- The assignment `result_.interpretation[index] = value` with `index` computed in
`int` as `std::abs(x) - 1`; outside the vector the write is a fault. -/
def write_interpretation (interpretation : List Bool) (index : Int) (value : Bool) :
    Except Fault (List Bool) :=
  if 0 ≤ index ∧ index < interpretation.length then
    .ok (interpretation.set index.toNat value)
  else .error .out_of_bounds

/-- The clause loop shared by `unit_propagation` (lines 212-239) and both branches of
`atomic_cut` (lines 82-110 and 138-166): clauses containing `satisfied` are skipped,
`falsified` is removed from the others, and `none` reports that a clause became empty. -/
def simplify_clauses (satisfied falsified : Int) : ClauseSet → Option ClauseSet
  | [] => some []
  | c :: rest =>
    if c.contains satisfied then simplify_clauses satisfied falsified rest
    else
      let new_clause := c.filter (fun lit => lit != falsified)
      if new_clause.isEmpty then none
      else
        match simplify_clauses satisfied falsified rest with
        | none => none
        | some new_clauses => some (new_clause :: new_clauses)

/-- The scan `for (clause : clauses) if (clause.size() == 1)` of lines 203-207: the
literal `clause[0]` of the first clause of length one. -/
def first_unit : ClauseSet → Option Int
  | [] => none
  | clause :: rest =>
    match clause with
    | [unit] => some unit
    | _ => first_unit rest

/-- The do-while loop of `unit_propagation`, lines 198-249, with an iteration budget.
The Boolean is the return value, the clause set is the reference argument on exit. -/
def unit_propagation_loop : Nat → ClauseSet → result → Except Fault (Bool × ClauseSet × result)
  | 0, _, _ => .error .out_of_fuel
  | fuel + 1, clauses, r =>
    match first_unit clauses with
    | none => .ok (true, clauses, r)
    | some unit =>
      match write_interpretation r.interpretation (|unit| - 1) (decide (unit > 0)) with
      | .error e => .error e
      | .ok interpretation =>
        match simplify_clauses unit (-unit) clauses with
        | none => .ok (false, clauses, { r with interpretation := interpretation })
        | some new_clauses =>
          unit_propagation_loop fuel new_clauses { r with interpretation := interpretation }

/-- The member `solver::unit_propagation`: every iteration but the last removes a
clause, so `clauses.size() + 1` iterations are enough. -/
def unit_propagation (clauses : ClauseSet) (r : result) :
    Except Fault (Bool × ClauseSet × result) :=
  unit_propagation_loop (clauses.length + 1) clauses r

/-- The update `frequencies[index]++` of an `int` entry on an index inside the table. -/
def increment : List Int → Nat → List Int
  | [], _ => []
  | x :: xs, 0 => wrap_int (x + 1) :: xs
  | x :: xs, i + 1 => x :: increment xs i

/-- The inner loop of lines 271-274 over the literals of one clause. -/
def tally_clause (frequencies : List Int) : Clause → Except Fault (List Int)
  | [] => .ok frequencies
  | lit :: rest =>
    if 0 ≤ |lit| - 1 ∧ |lit| - 1 < frequencies.length then
      tally_clause (increment frequencies (|lit| - 1).toNat) rest
    else .error .out_of_bounds

/-- The outer loop of lines 269-275 over the shortest clauses. -/
def tally_clauses (frequencies : List Int) : ClauseSet → Except Fault (List Int)
  | [] => .ok frequencies
  | clause :: rest =>
    match tally_clause frequencies clause with
    | .error e => .error e
    | .ok frequencies1 => tally_clauses frequencies1 rest

/-- The scan of `std::max_element` after its first element: `best` is the index of the
largest value seen so far, replaced only by a strictly larger value. -/
def max_element_scan : List Int → Nat → Nat → Int → Nat
  | [], _, best, _ => best
  | y :: ys, i, best, largest =>
    if largest < y then max_element_scan ys (i + 1) i y
    else max_element_scan ys (i + 1) best largest

/-- The distance `std::distance(begin, std::max_element(begin, end))`; on an empty
range `max_element` returns `end`, at distance `0`. -/
def max_element_index : List Int → Nat
  | [] => 0
  | x :: xs => max_element_scan xs 1 0 x

/-- The member `solver::find_most_frequent_variable`, lines 252-280; the frequency
table is a `std::vector<int>`. -/
def find_most_frequent_variable (num_variables : Nat) (clause_set : ClauseSet) :
    Except Fault Int :=
  let shortest_length : Nat :=
    clause_set.foldl (fun shortest clause => min shortest clause.length) 2147483647
  let shortest_clauses := clause_set.filter (fun clause => clause.length == shortest_length)
  match tally_clauses (List.replicate num_variables 0) shortest_clauses with
  | .error e => .error e
  | .ok frequencies => .ok ((max_element_index frequencies : Nat) + 1)

/-- Lines 80-132 of `atomic_cut`, the positive branch.  The Boolean tells whether the
member function returned from inside the branch (lines 121 and 129); `self` is the
recursive call. -/
def positive_branch (self : Int → ClauseSet → result → Except Fault result)
    (var : Int) (clause_set : ClauseSet) (r : result) : Except Fault (Bool × result) :=
  let pos_clauses := (simplify_clauses var (-var) clause_set).getD []
  if pos_clauses.isEmpty then .ok (false, r)
  else
    match unit_propagation pos_clauses r with
    | .error e => .error e
    | .ok (false, _, r1) => .ok (false, r1)
    | .ok (true, pos_clauses1, r1) =>
      if pos_clauses1.isEmpty then .ok (true, { r1 with satisfiable := true })
      else
        match find_most_frequent_variable r1.num_variables pos_clauses1 with
        | .error e => .error e
        | .ok next_var =>
          match self next_var pos_clauses1 r1 with
          | .error e => .error e
          | .ok r2 => .ok (r2.satisfiable, r2)

/-- Lines 134-193 of `atomic_cut`, the negative branch. -/
def negative_branch (self : Int → ClauseSet → result → Except Fault result)
    (var : Int) (clause_set : ClauseSet) (r : result) : Except Fault result :=
  match write_interpretation r.interpretation (|var| - 1) false with
  | .error e => .error e
  | .ok interpretation =>
    let r0 := { r with interpretation := interpretation }
    match simplify_clauses (-var) var clause_set with
    | none => .ok { r0 with satisfiable := false }
    | some neg_clauses =>
      if neg_clauses.isEmpty then .ok { r0 with satisfiable := true }
      else
        match unit_propagation neg_clauses r0 with
        | .error e => .error e
        | .ok (false, _, r1) => .ok { r1 with satisfiable := false }
        | .ok (true, neg_clauses1, r1) =>
          if neg_clauses1.isEmpty then .ok { r1 with satisfiable := true }
          else
            match find_most_frequent_variable r1.num_variables neg_clauses1 with
            | .error e => .error e
            | .ok next_var => self next_var neg_clauses1 r1

/-- The body of `solver::atomic_cut`, lines 68-193, with the recursive call `self`. -/
def atomic_cut_body (self : Int → ClauseSet → result → Except Fault result)
    (var : Int) (clause_set : ClauseSet) (r : result) : Except Fault result :=
  if r.calculation_time > timeout_ms then
    .ok { r with satisfiable := false, timed_out := true }
  else
    match write_interpretation r.interpretation (|var| - 1) (decide (var > 0)) with
    | .error e => .error e
    | .ok interpretation =>
      match positive_branch self var clause_set { r with interpretation := interpretation } with
      | .error e => .error e
      | .ok (true, r1) => .ok r1
      | .ok (false, r1) => negative_branch self var clause_set r1

/-- The member `solver::atomic_cut`, recursive to depth `fuel`. -/
def atomic_cut : Nat → Int → ClauseSet → result → Except Fault result
  | 0 => fun _ _ _ => .error .out_of_fuel
  | fuel + 1 => atomic_cut_body (atomic_cut fuel)

/-- Lines 42-51 of `solve`: the case split on the clauses left by the initial
propagation. -/
def branch_search (simplified_clauses : ClauseSet) (r : result) : Except Fault result :=
  if simplified_clauses.isEmpty then .ok r
  else
    match find_most_frequent_variable r.num_variables simplified_clauses with
    | .error e => .error e
    | .ok best_variable => atomic_cut (r.num_variables + 1) best_variable simplified_clauses r

/-- Lines 53-65 of `solve`: the timing update and the timeout check. -/
def final_clamp (r : result) (elapsed : Int) : result :=
  let r1 := { r with calculation_time := elapsed }
  if r1.calculation_time > timeout_ms then { r1 with satisfiable := false, timed_out := true }
  else r1

/-- The member `solver::solve`, lines 29-66, run on the state `result_`; `elapsed` is
the reading `duration_cast<milliseconds>(current_time - start_time_)`. -/
def solve (result_ : result) (elapsed : Int) : Except Fault result :=
  match unit_propagation result_.clause_set result_ with
  | .error e => .error e
  | .ok (false, _, r) => .ok { r with satisfiable := false }
  | .ok (true, simplified_clauses, r) =>
    match branch_search simplified_clauses r with
    | .error e => .error e
    | .ok r1 => .ok (final_clamp r1 elapsed)

/-- The vector `satisfiable_cases` of PicoSat.cpp, lines 7-37. -/
def satisfiable_cases : List ClauseSet :=
  [ [[1]],
    [[1], [2]],
    [[1, 2]],
    [[1, 2], [-1, 2], [1, -2]],
    [[1, 2], [-1, 3], [-2, -3], [1, -3], [-1, 2, 3]] ]

/-- The vector `unsatisfiable_cases` of PicoSat.cpp, lines 39-67. -/
def unsatisfiable_cases : List ClauseSet :=
  [ [[1], [-1]],
    [[1], [-1, 2], [-2]],
    [[1, 2], [-1, 2], [1, -2], [-1, -2]],
    [[1, 2], [3, 4], [5, 6], [-1, -3], [-1, -5], [-3, -5], [-2, -4], [-2, -6], [-4, -6]] ]

/-! ## Semantics of clause sets -/

/-- Truth of a literal under an interpretation: variable `v` is true iff
`interpretation[v - 1]`; a positive literal is true when its variable is, a negative
one when its variable is false. -/
def lit_true (interpretation : List Bool) (lit : Int) : Bool :=
  decide (lit ≠ 0) && (interpretation[lit.natAbs - 1]? == some (decide (0 < lit)))

/-- A clause is true when it contains at least one true literal. -/
def clause_true (interpretation : List Bool) (clause : Clause) : Bool :=
  clause.any (lit_true interpretation)

/-- A clause set is satisfied when every clause is true. -/
def satisfies (interpretation : List Bool) (clause_set : ClauseSet) : Bool :=
  clause_set.all (clause_true interpretation)

/-- All rows of the truth table over `n` variables. -/
def all_assignments : Nat → List (List Bool)
  | 0 => [[]]
  | n + 1 => (all_assignments n).map (fun row => true :: row) ++
      (all_assignments n).map (fun row => false :: row)

/-- The brute-force verdict of the specification: some row of the truth table over
`n` variables satisfies the clause set. -/
def brute_force_satisfiable (n : Nat) (clause_set : ClauseSet) : Bool :=
  (all_assignments n).any (fun row => satisfies row clause_set)

/-- Variable `v` occurs in the clause set, in either polarity. -/
def mentions (clause_set : ClauseSet) (v : Nat) : Prop :=
  ∃ c ∈ clause_set, ∃ lit ∈ c, lit.natAbs = v

instance (clause_set : ClauseSet) (v : Nat) : Decidable (mentions clause_set v) :=
  inferInstanceAs (Decidable (∃ c ∈ clause_set, ∃ lit ∈ c, lit.natAbs = v))

/-- Every literal of the clause set is nonzero. -/
def nonzero_literals (clause_set : ClauseSet) : Prop :=
  ∀ c ∈ clause_set, ∀ lit ∈ c, lit ≠ 0

instance (clause_set : ClauseSet) : Decidable (nonzero_literals clause_set) :=
  inferInstanceAs (Decidable (∀ c ∈ clause_set, ∀ lit ∈ c, lit ≠ 0))

/-- What a returning call `atomic_cut(var, clause_set)` does to the result `r`: the
fields fixed by the constructor are kept, `timed_out` is kept before the deadline, only
entries of `var` and of variables of the clause set are written, and a verdict
`satisfiable` comes with an interpretation that satisfies the clause set. -/
def cut_spec (var : Int) (clause_set : ClauseSet) (r r1 : result) : Prop :=
  r1.num_variables = r.num_variables ∧ r1.calculation_time = r.calculation_time ∧
  r1.clause_set = r.clause_set ∧ r1.interpretation.length = r.interpretation.length ∧
  (r.calculation_time ≤ timeout_ms → r1.timed_out = r.timed_out) ∧
  (∀ i, i + 1 ≠ var.natAbs → ¬ mentions clause_set (i + 1) →
    r1.interpretation[i]? = r.interpretation[i]?) ∧
  (r1.satisfiable = true → satisfies r1.interpretation clause_set = true)

/-- Every literal of the clause set is nonzero with magnitude at most `n`: the indices
`std::abs(lit) - 1` lie inside a vector of size `n`. -/
def literals_within (n : Nat) (clause_set : ClauseSet) : Prop :=
  ∀ c ∈ clause_set, ∀ lit ∈ c, lit ≠ 0 ∧ lit.natAbs ≤ n

instance (n : Nat) (clause_set : ClauseSet) : Decidable (literals_within n clause_set) :=
  inferInstanceAs (Decidable (∀ c ∈ clause_set, ∀ lit ∈ c, lit ≠ 0 ∧ lit.natAbs ≤ n))

/-- No clause is longer than `INT_MAX`, the initial value of `shortest_length`. -/
def lengths_within (clause_set : ClauseSet) : Prop :=
  ∀ c ∈ clause_set, c.length ≤ 2147483647

instance (clause_set : ClauseSet) : Decidable (lengths_within clause_set) :=
  inferInstanceAs (Decidable (∀ c ∈ clause_set, c.length ≤ 2147483647))

/-- The clause set holds at most `INT_MAX` literal occurrences in all: no entry of the
`int` frequency table can overflow, and no clause is longer than `INT_MAX`. -/
def size_within (clause_set : ClauseSet) : Prop :=
  (clause_set.map List.length).sum ≤ 2147483647

instance (clause_set : ClauseSet) : Decidable (size_within clause_set) :=
  inferInstanceAs (Decidable ((clause_set.map List.length).sum ≤ 2147483647))

/-- The set of variables that occur in the clause set. -/
def clause_set_variables (clause_set : ClauseSet) : Finset Nat :=
  (clause_set.flatten.map Int.natAbs).toFinset

/-- The number of distinct variables the clause set mentions. -/
def num_distinct_variables (clause_set : ClauseSet) : Nat :=
  (clause_set_variables clause_set).card

/-- The largest literal magnitude of the input in the words of the specification: the
maximum of `|lit|` over every literal, and `0` when there is no literal. -/
def max_literal_magnitude (input : ClauseSet) : Nat :=
  (input.flatten.map Int.natAbs).foldr max 0

/-- The minimum clause length present in a clause set, in the words of the
specification (`0` for the empty set, which the heuristic is never asked about). -/
def minimum_clause_length : ClauseSet → Nat
  | [] => 0
  | c :: rest =>
    match rest with
    | [] => c.length
    | _ => min c.length (minimum_clause_length rest)

/-- The tally of the specification: the number of literal occurrences of variable `v`,
in either polarity and counting duplicates, inside the clauses of minimum length. -/
def occurrences (clause_set : ClauseSet) (v : Nat) : Nat :=
  ((clause_set.filter (fun c => c.length == minimum_clause_length clause_set)).map
    (fun c => c.countP (fun lit => lit.natAbs == v))).sum

/-- The invariant of a call `atomic_cut(var, clause_set)` made by the search: the
clause set is not empty, holds no empty clause, no unit clause and at most `INT_MAX`
literal occurrences, and `var` is a positive variable id that occurs in it. -/
def call_invariant (var : Int) (clause_set : ClauseSet) : Prop :=
  clause_set ≠ [] ∧ (∀ c ∈ clause_set, c ≠ []) ∧ (∀ c ∈ clause_set, c.length ≠ 1) ∧
    size_within clause_set ∧ 0 < var ∧ mentions clause_set var.natAbs

/-! ## The benchmark generator of clause_set_generator.cpp -/

/-- The value of the `int` expression `1 << num_literals`: the bit pattern of
`2 ^ num_literals` read as a 32-bit two's-complement integer.  For shift counts of 32
and more the C++ expression is undefined; no statement below concerns them. -/
def shift_left_one (num_literals : Nat) : Int :=
  ((2 ^ num_literals + 2 ^ 31) % 2 ^ 32 : Int) - 2 ^ 31

/-- The inner loop of lines 29-32: literal `j` of clause `i` is
`i >> j & 1 ? -(j + 1) : j + 1`. -/
def generate_clause (num_literals i : Nat) : Clause :=
  (List.range num_literals).map
    (fun j => if (i >>> j) &&& 1 ≠ 0 then -((j : Int) + 1) else (j : Int) + 1)

/-- The function `clause_set_generator::generate_clause_set`, lines 5-39; the cache
only memoises the value computed here. -/
def generate_clause_set (num_literals : Nat) : ClauseSet :=
  let num_possible_clauses : Int := shift_left_one num_literals
  (List.range num_possible_clauses.toNat).map (generate_clause num_literals)

/-- The index of the truth-table row of an interpretation: bit `j` is set when
variable `j + 1` is true, bits given least significant first. -/
def row_index : List Bool → Nat
  | [] => 0
  | b :: bs => (if b then 1 else 0) + 2 * row_index bs

/-- The unit literals processed by the loop of `unit_propagation`, in the order they
are processed; the budget counts the iterations as in `unit_propagation_loop`. -/
def propagated_units : Nat → ClauseSet → List Int
  | 0, _ => []
  | fuel + 1, clauses =>
    match first_unit clauses with
    | none => []
    | some unit =>
      match simplify_clauses unit (-unit) clauses with
      | none => [unit]
      | some new_clauses => unit :: propagated_units fuel new_clauses

/-- Unit propagation with a free choice of the unit clause processed at each step, on a
clause set and an interpretation vector.  The outcome is the simplified clause set with
the interpretation when no unit clause is left, and `none` when a step writes outside
the interpretation or empties a clause. -/
inductive propagates : ClauseSet → List Bool → Option (ClauseSet × List Bool) → Prop
  | done (cs : ClauseSet) (I : List Bool) :
      (∀ c ∈ cs, c.length ≠ 1) → propagates cs I (some (cs, I))
  | stop (cs : ClauseSet) (I : List Bool) (u : Int) :
      [u] ∈ cs →
      ((∃ e, write_interpretation I (|u| - 1) (decide (u > 0)) = .error e) ∨
        simplify_clauses u (-u) cs = none) →
      propagates cs I none
  | step (cs : ClauseSet) (I : List Bool) (u : Int) (I1 : List Bool) (cs1 : ClauseSet)
      (out : Option (ClauseSet × List Bool)) :
      [u] ∈ cs →
      write_interpretation I (|u| - 1) (decide (u > 0)) = .ok I1 →
      simplify_clauses u (-u) cs = some cs1 →
      propagates cs1 I1 out → propagates cs I out

/-- The outcome of a run of `unit_propagation`: on success the clause set and the
interpretation it leaves, `none` on a contradiction or a fault. -/
def run_outcome : Except Fault (Bool × ClauseSet × result) → Option (ClauseSet × List Bool)
  | .ok (true, clauses, r) => some (clauses, r.interpretation)
  | _ => none

/-- Two outcomes, of runs on the clause sets `cs` and `cs1`, agree up to the order of the
clauses: both fail, or they leave the same interpretation and clause sets that are the
images of `cs` and `cs1` under one clause-wise map. -/
def same_outcome (cs cs1 : ClauseSet) :
    Option (ClauseSet × List Bool) → Option (ClauseSet × List Bool) → Prop
  | some (a, I), some (b, J) =>
    (∃ g : Clause → Option Clause, a = cs.filterMap g ∧ b = cs1.filterMap g) ∧ I = J
  | none, none => True
  | _, _ => False

/-- The first step of a run of `propagates` that processes the unit literal `u`. -/
def first_step (u : Int) (cs : ClauseSet) (I : List Bool)
    (out : Option (ClauseSet × List Bool)) : Prop :=
  (((∃ e, write_interpretation I (|u| - 1) (decide (u > 0)) = .error e) ∨
      simplify_clauses u (-u) cs = none) ∧ out = none) ∨
  ∃ I1 cs1, write_interpretation I (|u| - 1) (decide (u > 0)) = .ok I1 ∧
    simplify_clauses u (-u) cs = some cs1 ∧ propagates cs1 I1 out

/-! ## The clause loop `simplify_clauses` -/

theorem simplify_clauses_mem {s f : Int} : ∀ {cs cs1 : ClauseSet},
    simplify_clauses s f cs = some cs1 →
    ∀ c1 ∈ cs1, c1 ≠ [] ∧ ∃ c ∈ cs, s ∉ c ∧ c1 = c.filter (fun lit => lit != f) := by
  intro cs
  induction cs with
  | nil =>
    intro cs1 h c1 hc1
    simp [simplify_clauses] at h
    subst h
    simp at hc1
  | cons c rest ih =>
    intro cs1 h c1 hc1
    simp only [simplify_clauses] at h
    split at h
    · obtain ⟨hne, c0, hc0, hs, heq⟩ := ih h c1 hc1
      exact ⟨hne, c0, List.mem_cons_of_mem _ hc0, hs, heq⟩
    · rename_i hs
      split at h
      · exact absurd h (by simp)
      · rename_i hne
        split at h
        · exact absurd h (by simp)
        · rename_i new_clauses hrest
          simp only [Option.some.injEq] at h
          subst h
          rcases List.mem_cons.mp hc1 with h1 | h1
          · subst h1
            refine ⟨?_, c, List.mem_cons_self _ _, ?_, rfl⟩
            · simpa using hne
            · simpa using hs
          · obtain ⟨hne1, c0, hc0, hs0, heq⟩ := ih hrest c1 h1
            exact ⟨hne1, c0, List.mem_cons_of_mem _ hc0, hs0, heq⟩

theorem simplify_clauses_cover {s f : Int} : ∀ {cs cs1 : ClauseSet},
    simplify_clauses s f cs = some cs1 →
    ∀ c ∈ cs, s ∈ c ∨ c.filter (fun lit => lit != f) ∈ cs1 := by
  intro cs
  induction cs with
  | nil => intro cs1 _ c hc; simp at hc
  | cons c0 rest ih =>
    intro cs1 h c hc
    simp only [simplify_clauses] at h
    split at h
    · rename_i hs
      rcases List.mem_cons.mp hc with h1 | h1
      · subst h1; left; simpa using hs
      · exact ih h c h1
    · split at h
      · exact absurd h (by simp)
      · split at h
        · exact absurd h (by simp)
        · rename_i new_clauses hrest
          simp only [Option.some.injEq] at h
          subst h
          rcases List.mem_cons.mp hc with h1 | h1
          · subst h1; right; exact List.mem_cons_self _ _
          · rcases ih hrest c h1 with h2 | h2
            · left; exact h2
            · right; exact List.mem_cons_of_mem _ h2

theorem simplify_clauses_none {s f : Int} : ∀ {cs : ClauseSet},
    simplify_clauses s f cs = none ↔
      ∃ c ∈ cs, s ∉ c ∧ c.filter (fun lit => lit != f) = [] := by
  intro cs
  induction cs with
  | nil => simp [simplify_clauses]
  | cons c0 rest ih =>
    simp only [simplify_clauses]
    split
    · rename_i hs
      have hs1 : s ∈ c0 := by simpa using hs
      rw [ih]
      constructor
      · rintro ⟨c, hc, h1, h2⟩
        exact ⟨c, List.mem_cons_of_mem _ hc, h1, h2⟩
      · rintro ⟨c, hc, h1, h2⟩
        rcases List.mem_cons.mp hc with h3 | h3
        · subst h3; exact absurd hs1 h1
        · exact ⟨c, h3, h1, h2⟩
    · rename_i hs
      have hs1 : s ∉ c0 := by simpa using hs
      split
      · rename_i he
        simp only [true_iff]
        exact ⟨c0, List.mem_cons_self _ _, hs1, List.isEmpty_iff.mp he⟩
      · rename_i he
        have he1 : c0.filter (fun lit => lit != f) ≠ [] := fun h0 => he (List.isEmpty_iff.mpr h0)
        split
        · rename_i hrest
          simp only [true_iff]
          obtain ⟨c, hc, h1, h2⟩ := ih.mp hrest
          exact ⟨c, List.mem_cons_of_mem _ hc, h1, h2⟩
        · rename_i new_clauses hrest
          constructor
          · intro h; exact absurd h (by simp)
          · rintro ⟨c, hc, h1, h2⟩
            rcases List.mem_cons.mp hc with h3 | h3
            · subst h3; exact absurd h2 he1
            · have h4 := ih.mpr ⟨c, h3, h1, h2⟩
              rw [h4] at hrest
              exact absurd hrest (by simp)

theorem simplify_clauses_length {s f : Int} : ∀ {cs cs1 : ClauseSet},
    simplify_clauses s f cs = some cs1 → cs1.length ≤ cs.length := by
  intro cs
  induction cs with
  | nil => intro cs1 h; simp [simplify_clauses] at h; subst h; simp
  | cons c0 rest ih =>
    intro cs1 h
    simp only [simplify_clauses] at h
    split at h
    · have := ih h
      simp only [List.length_cons]; omega
    · split at h
      · exact absurd h (by simp)
      · split at h
        · exact absurd h (by simp)
        · rename_i new_clauses hrest
          simp only [Option.some.injEq] at h
          subst h
          have := ih hrest
          simp only [List.length_cons]; omega

theorem simplify_clauses_length_lt {s f : Int} : ∀ {cs cs1 : ClauseSet},
    simplify_clauses s f cs = some cs1 → (∃ c ∈ cs, s ∈ c) → cs1.length < cs.length := by
  intro cs
  induction cs with
  | nil => intro cs1 _ h; obtain ⟨c, hc, _⟩ := h; simp at hc
  | cons c0 rest ih =>
    intro cs1 h hex
    simp only [simplify_clauses] at h
    split at h
    · have := simplify_clauses_length h
      simp only [List.length_cons]; omega
    · rename_i hs
      have hs1 : s ∉ c0 := by simpa using hs
      split at h
      · exact absurd h (by simp)
      · split at h
        · exact absurd h (by simp)
        · rename_i new_clauses hrest
          simp only [Option.some.injEq] at h
          subst h
          obtain ⟨c, hc, hsc⟩ := hex
          rcases List.mem_cons.mp hc with h3 | h3
          · subst h3; exact absurd hsc hs1
          · have := ih hrest ⟨c, h3, hsc⟩
            simp only [List.length_cons]; omega

/-! ## Writes to the interpretation -/

theorem write_interpretation_ok {I I1 : List Bool} {x : Int} {b : Bool}
    (h : write_interpretation I (|x| - 1) b = .ok I1) :
    x ≠ 0 ∧ x.natAbs ≤ I.length ∧ I1 = I.set (x.natAbs - 1) b := by
  unfold write_interpretation at h
  split at h
  · rename_i hb
    simp only [Except.ok.injEq] at h
    rw [Int.abs_eq_natAbs] at hb h
    have h1 : ((x.natAbs : Int) - 1).toNat = x.natAbs - 1 := by omega
    rw [h1] at h
    exact ⟨by omega, by omega, h.symm⟩
  · exact absurd h (by simp)

theorem write_interpretation_of_le {I : List Bool} {x : Int} (b : Bool)
    (h0 : x ≠ 0) (h1 : x.natAbs ≤ I.length) :
    write_interpretation I (|x| - 1) b = .ok (I.set (x.natAbs - 1) b) := by
  unfold write_interpretation
  rw [Int.abs_eq_natAbs]
  have h2 : ((x.natAbs : Int) - 1).toNat = x.natAbs - 1 := by omega
  rw [h2, if_pos]
  omega

theorem write_interpretation_error {I : List Bool} {i : Int} {b : Bool} {e : Fault}
    (h : write_interpretation I i b = .error e) : e = .out_of_bounds := by
  unfold write_interpretation at h
  split at h
  · exact absurd h (by simp)
  · simp only [Except.error.injEq] at h
    exact h.symm

/-! ## The scan for a unit clause -/

theorem first_unit_some : ∀ {cs : ClauseSet} {unit : Int},
    first_unit cs = some unit → [unit] ∈ cs := by
  intro cs
  induction cs with
  | nil => intro unit h; simp [first_unit] at h
  | cons c rest ih =>
    intro unit h
    unfold first_unit at h
    split at h
    · simp only [Option.some.injEq] at h
      subst h
      exact List.mem_cons_self _ _
    · exact List.mem_cons_of_mem _ (ih h)

theorem first_unit_none : ∀ {cs : ClauseSet},
    first_unit cs = none → ∀ c ∈ cs, c.length ≠ 1 := by
  intro cs
  induction cs with
  | nil => intro _ c hc; simp at hc
  | cons c0 rest ih =>
    intro h c hc
    unfold first_unit at h
    split at h
    · exact absurd h (by simp)
    · rename_i hnot
      rcases List.mem_cons.mp hc with h1 | h1
      · subst h1
        intro hlen
        match c, hlen with
        | [u], _ => exact hnot u rfl
      · exact ih h c h1

theorem first_unit_eq_none_of_no_unit : ∀ {cs : ClauseSet},
    (∀ c ∈ cs, c.length ≠ 1) → first_unit cs = none := by
  intro cs hcs
  cases h : first_unit cs with
  | none => rfl
  | some u => exact absurd rfl (hcs [u] (first_unit_some h))

/-! ## Unit propagation -/

/-- Case analysis along a run of the loop: it stops without a unit clause, it stops on a
contradiction, or it performs one unit step and runs on. -/
theorem unit_propagation_loop_cases
    (P : ClauseSet → result → Bool → ClauseSet → result → Prop)
    (base : ∀ cs r, first_unit cs = none → P cs r true cs r)
    (fail : ∀ cs r u, first_unit cs = some u → u ≠ 0 → u.natAbs ≤ r.interpretation.length →
      simplify_clauses u (-u) cs = none →
      P cs r false cs
        { r with interpretation := r.interpretation.set (u.natAbs - 1) (decide (u > 0)) })
    (step : ∀ fuel cs r u cs1 b cs2 r2, first_unit cs = some u → u ≠ 0 →
      u.natAbs ≤ r.interpretation.length → simplify_clauses u (-u) cs = some cs1 →
      unit_propagation_loop fuel cs1
        { r with interpretation := r.interpretation.set (u.natAbs - 1) (decide (u > 0)) } =
        .ok (b, cs2, r2) →
      P cs1 { r with interpretation := r.interpretation.set (u.natAbs - 1) (decide (u > 0)) }
        b cs2 r2 →
      P cs r b cs2 r2) :
    ∀ (fuel : Nat) (cs : ClauseSet) (r : result) (b : Bool) (cs2 : ClauseSet) (r2 : result),
      unit_propagation_loop fuel cs r = .ok (b, cs2, r2) → P cs r b cs2 r2 := by
  intro fuel
  induction fuel with
  | zero => intro cs r b cs2 r2 h; simp [unit_propagation_loop] at h
  | succ fuel ih =>
    intro cs r b cs2 r2 h
    simp only [unit_propagation_loop] at h
    split at h
    · rename_i hu
      simp only [Except.ok.injEq, Prod.mk.injEq] at h
      obtain ⟨h1, h2, h3⟩ := h
      subst h1 h2 h3
      exact base _ _ hu
    · rename_i u hu
      split at h
      · exact absurd h (by simp)
      · rename_i I1 hw
        obtain ⟨hu0, hule, hI1⟩ := write_interpretation_ok hw
        subst hI1
        split at h
        · rename_i hs
          simp only [Except.ok.injEq, Prod.mk.injEq] at h
          obtain ⟨h1, h2, h3⟩ := h
          subst h1 h2 h3
          exact fail _ _ u hu hu0 hule hs
        · rename_i cs1 hs
          exact step fuel _ _ u cs1 b cs2 r2 hu hu0 hule hs h (ih _ _ _ _ _ h)

/-- Unit propagation touches no field of the result but the interpretation, whose
length it keeps. -/
theorem unit_propagation_loop_fields {fuel : Nat} {cs cs2 : ClauseSet} {r r2 : result} {b : Bool}
    (h : unit_propagation_loop fuel cs r = .ok (b, cs2, r2)) :
    r2.satisfiable = r.satisfiable ∧ r2.timed_out = r.timed_out ∧
      r2.num_variables = r.num_variables ∧ r2.calculation_time = r.calculation_time ∧
      r2.clause_set = r.clause_set ∧ r2.interpretation.length = r.interpretation.length := by
  refine unit_propagation_loop_cases
    (fun _ r _ _ r2 => r2.satisfiable = r.satisfiable ∧ r2.timed_out = r.timed_out ∧
      r2.num_variables = r.num_variables ∧ r2.calculation_time = r.calculation_time ∧
      r2.clause_set = r.clause_set ∧ r2.interpretation.length = r.interpretation.length)
    ?_ ?_ ?_ fuel cs r b cs2 r2 h
  · intro cs r _; simp
  · intro cs r u _ _ _ _; simp
  · intro _ cs r u cs1 b cs2 r2 _ _ _ _ _ ih
    simpa using ih

theorem unit_propagation_loop_error {e : Fault} : ∀ (fuel : Nat) (cs : ClauseSet) (r : result),
    cs.length < fuel → unit_propagation_loop fuel cs r = .error e → e = .out_of_bounds := by
  intro fuel
  induction fuel with
  | zero => intro cs r hlen; omega
  | succ fuel ih =>
    intro cs r hlen h
    simp only [unit_propagation_loop] at h
    split at h
    · exact absurd h (by simp)
    · rename_i u hu
      split at h
      · rename_i e1 hw
        simp only [Except.error.injEq] at h
        subst h
        exact write_interpretation_error hw
      · split at h
        · exact absurd h (by simp)
        · rename_i cs1 hs
          have hlt := simplify_clauses_length_lt hs ⟨[u], first_unit_some hu, by simp⟩
          exact ih _ _ (by omega) h

theorem unit_propagation_error {e : Fault} {cs : ClauseSet} {r : result}
    (h : unit_propagation cs r = .error e) : e = .out_of_bounds :=
  unit_propagation_loop_error _ cs r (Nat.lt_succ_self _) h

/-! ## Semantics: basic facts -/

theorem clause_true_iff {I : List Bool} {c : Clause} :
    clause_true I c = true ↔ ∃ lit ∈ c, lit_true I lit = true := by
  simp [clause_true, List.any_eq_true]

theorem satisfies_iff {I : List Bool} {cs : ClauseSet} :
    satisfies I cs = true ↔ ∀ c ∈ cs, ∃ lit ∈ c, lit_true I lit = true := by
  simp [satisfies, List.all_eq_true, clause_true_iff]

theorem lit_true_congr {I J : List Bool} {lit : Int}
    (h : I[lit.natAbs - 1]? = J[lit.natAbs - 1]?) : lit_true I lit = lit_true J lit := by
  simp [lit_true, h]

theorem lit_true_set {I : List Bool} {u : Int} (h0 : u ≠ 0) (hle : u.natAbs ≤ I.length) :
    lit_true (I.set (u.natAbs - 1) (decide (u > 0))) u = true := by
  have hlt : u.natAbs - 1 < I.length := by omega
  simp [lit_true, h0, List.getElem?_set, hlt]

theorem lit_true_neg_set {I : List Bool} {v : Int} (h0 : 0 < v) (hle : v.natAbs ≤ I.length) :
    lit_true (I.set (v.natAbs - 1) false) (-v) = true := by
  have hlt : v.natAbs - 1 < I.length := by omega
  have h1 : ¬ (0 < -v) := by omega
  have h2 : v ≠ 0 := by omega
  simp [lit_true, h2, List.getElem?_set, hlt, h0.le]

theorem mentions_of_mem {cs : ClauseSet} {c : Clause} {lit : Int}
    (hc : c ∈ cs) (hl : lit ∈ c) : mentions cs lit.natAbs :=
  ⟨c, hc, lit, hl, rfl⟩

/-- An interpretation that makes `s` true and satisfies the simplified clauses
satisfies the clauses they came from. -/
theorem simplify_clauses_sound {s f : Int} {cs cs1 : ClauseSet} {I : List Bool}
    (h : simplify_clauses s f cs = some cs1) (hs : lit_true I s = true)
    (hsat : satisfies I cs1 = true) : satisfies I cs = true := by
  rw [satisfies_iff] at hsat ⊢
  intro c hc
  rcases simplify_clauses_cover h c hc with h1 | h1
  · exact ⟨s, h1, hs⟩
  · obtain ⟨lit, hl, ht⟩ := hsat _ h1
    exact ⟨lit, (List.mem_filter.mp hl).1, ht⟩

theorem simplify_clauses_mentions {s f : Int} {cs cs1 : ClauseSet} {v : Nat}
    (h : simplify_clauses s f cs = some cs1) (hv : mentions cs1 v) : mentions cs v := by
  obtain ⟨c1, hc1, lit, hl, hv⟩ := hv
  obtain ⟨_, c, hc, _, heq⟩ := simplify_clauses_mem h c1 hc1
  subst heq
  exact ⟨c, hc, lit, (List.mem_filter.mp hl).1, hv⟩

/-- The assigned variable does not occur in the simplified clauses. -/
theorem simplify_clauses_eliminates {s f : Int} {cs cs1 : ClauseSet}
    (h : simplify_clauses s f cs = some cs1) (hf : f = -s) : ¬ mentions cs1 s.natAbs := by
  rintro ⟨c1, hc1, lit, hl, hv⟩
  obtain ⟨_, c, hc, hs, heq⟩ := simplify_clauses_mem h c1 hc1
  subst heq
  obtain ⟨hlc, hlf⟩ := List.mem_filter.mp hl
  rcases Int.natAbs_eq_natAbs_iff.mp hv with h1 | h1
  · subst h1; exact hs hlc
  · subst h1; subst hf; simp at hlf

theorem simplify_clauses_nonempty {s f : Int} {cs cs1 : ClauseSet}
    (h : simplify_clauses s f cs = some cs1) : ∀ c ∈ cs1, c ≠ [] :=
  fun c hc => (simplify_clauses_mem h c hc).1

theorem simplify_clauses_nonzero {s f : Int} {cs cs1 : ClauseSet}
    (h : simplify_clauses s f cs = some cs1) (hnz : nonzero_literals cs) :
    nonzero_literals cs1 := by
  intro c1 hc1 lit hl
  obtain ⟨_, c, hc, _, heq⟩ := simplify_clauses_mem h c1 hc1
  subst heq
  exact hnz c hc lit (List.mem_filter.mp hl).1

/-! ## Unit propagation: frame, fixpoint and soundness -/

theorem unit_propagation_loop_mentions {fuel : Nat} {cs cs2 : ClauseSet} {r r2 : result}
    {b : Bool} (h : unit_propagation_loop fuel cs r = .ok (b, cs2, r2)) :
    ∀ v, mentions cs2 v → mentions cs v := by
  refine unit_propagation_loop_cases (fun cs _ _ cs2 _ => ∀ v, mentions cs2 v → mentions cs v)
    ?_ ?_ ?_ fuel cs r b cs2 r2 h
  · intro cs r _ v hv; exact hv
  · intro cs r u _ _ _ _ v hv; exact hv
  · intro _ cs r u cs1 b cs2 r2 _ _ _ hs _ ih v hv
    exact simplify_clauses_mentions hs (ih v hv)

/-- Unit propagation writes only entries of variables that occur in its clause set. -/
theorem unit_propagation_loop_frame {fuel : Nat} {cs cs2 : ClauseSet} {r r2 : result}
    {b : Bool} (h : unit_propagation_loop fuel cs r = .ok (b, cs2, r2)) :
    ∀ i, ¬ mentions cs (i + 1) → r2.interpretation[i]? = r.interpretation[i]? := by
  refine unit_propagation_loop_cases
    (fun cs r _ _ r2 => ∀ i, ¬ mentions cs (i + 1) → r2.interpretation[i]? = r.interpretation[i]?)
    ?_ ?_ ?_ fuel cs r b cs2 r2 h
  · intro cs r _ i _; rfl
  · intro cs r u hu hu0 _ _ i hi
    have hm : mentions cs u.natAbs := mentions_of_mem (first_unit_some hu) (by simp)
    have hne : u.natAbs - 1 ≠ i := by
      intro heq
      apply hi
      have : i + 1 = u.natAbs := by omega
      rw [this]; exact hm
    simp [List.getElem?_set_ne hne]
  · intro _ cs r u cs1 b cs2 r2 hu hu0 _ hs _ ih i hi
    have hm : mentions cs u.natAbs := mentions_of_mem (first_unit_some hu) (by simp)
    have hne : u.natAbs - 1 ≠ i := by
      intro heq
      apply hi
      have : i + 1 = u.natAbs := by omega
      rw [this]; exact hm
    rw [ih i (fun hq => hi (simplify_clauses_mentions hs hq))]
    simp [List.getElem?_set_ne hne]

theorem unit_propagation_loop_no_unit {fuel : Nat} {cs cs2 : ClauseSet} {r r2 : result}
    (h : unit_propagation_loop fuel cs r = .ok (true, cs2, r2)) : first_unit cs2 = none := by
  refine unit_propagation_loop_cases
    (fun _ _ b cs2 _ => b = true → first_unit cs2 = none)
    ?_ ?_ ?_ fuel cs r true cs2 r2 h rfl
  · intro cs r hu _; exact hu
  · intro cs r u _ _ _ _ hb; exact absurd hb (by simp)
  · intro _ cs r u cs1 b cs2 r2 _ _ _ _ _ ih hb; exact ih hb

theorem unit_propagation_loop_nonempty {fuel : Nat} {cs cs2 : ClauseSet} {r r2 : result}
    {b : Bool} (h : unit_propagation_loop fuel cs r = .ok (b, cs2, r2))
    (hne : ∀ c ∈ cs, c ≠ []) : ∀ c ∈ cs2, c ≠ [] := by
  refine unit_propagation_loop_cases
    (fun cs _ _ cs2 _ => (∀ c ∈ cs, c ≠ []) → ∀ c ∈ cs2, c ≠ [])
    ?_ ?_ ?_ fuel cs r b cs2 r2 h hne
  · intro cs r _ h0; exact h0
  · intro cs r u _ _ _ _ h0; exact h0
  · intro _ cs r u cs1 b cs2 r2 _ _ _ hs _ ih _
    exact ih (simplify_clauses_nonempty hs)

/-- Soundness of unit propagation: an interpretation that agrees with the recorded one
outside the variables still occurring, and satisfies the simplified clauses, satisfies
the clauses propagation started from. -/
theorem unit_propagation_loop_sound {fuel : Nat} {cs cs2 : ClauseSet} {r r2 : result}
    (h : unit_propagation_loop fuel cs r = .ok (true, cs2, r2)) (I : List Bool)
    (hI : ∀ i, ¬ mentions cs2 (i + 1) → I[i]? = r2.interpretation[i]?)
    (hsat : satisfies I cs2 = true) : satisfies I cs = true := by
  refine unit_propagation_loop_cases
    (fun cs _ b cs2 r2 => b = true →
      (∀ i, ¬ mentions cs2 (i + 1) → I[i]? = r2.interpretation[i]?) →
      satisfies I cs2 = true → satisfies I cs = true)
    ?_ ?_ ?_ fuel cs r true cs2 r2 h rfl hI hsat
  · intro cs r _ _ _ h0; exact h0
  · intro cs r u _ _ _ _ hb; exact absurd hb (by simp)
  · intro fuel1 cs r u cs1 b cs2 r2 hu hu0 hule hs hrun ih hb hI hsat
    have h1 := ih hb hI hsat
    refine simplify_clauses_sound hs ?_ h1
    have helim : ¬ mentions cs1 u.natAbs := simplify_clauses_eliminates hs rfl
    have hidx : u.natAbs - 1 + 1 = u.natAbs := by omega
    have h2 : ¬ mentions cs2 (u.natAbs - 1 + 1) := by
      rw [hidx]; exact fun hq => helim (unit_propagation_loop_mentions hrun _ hq)
    have h3 := hI _ h2
    have h4 := unit_propagation_loop_frame hrun (u.natAbs - 1) (by rw [hidx]; exact helim)
    rw [lit_true_congr (h3.trans h4)]
    exact lit_true_set hu0 hule

/-! ## Arithmetic in `int` -/

theorem wrap_int_of_range {x : Int} (h1 : -2147483648 ≤ x) (h2 : x ≤ 2147483647) :
    wrap_int x = x := by
  unfold wrap_int
  omega

theorem wrap_int_range (x : Int) : -2147483648 ≤ wrap_int x ∧ wrap_int x ≤ 2147483647 := by
  unfold wrap_int
  omega

theorem wrap_int_add_wrap (a b : Int) : wrap_int (wrap_int a + b) = wrap_int (a + b) := by
  unfold wrap_int
  omega

theorem wrap_int_wrap (a : Int) : wrap_int (wrap_int a) = wrap_int a := by
  unfold wrap_int
  omega

/-- On a magnitude of at most `INT_MAX`, `std::abs` is the exact magnitude. -/
theorem abs_int_of_le {x : Int} (h : x.natAbs ≤ 2147483647) : abs_int x = (x.natAbs : Int) := by
  unfold abs_int
  rw [Int.abs_eq_natAbs]
  exact wrap_int_of_range (by omega) (by omega)

/-- On `INT_MIN` the 32-bit `std::abs` returns `INT_MIN`. -/
theorem abs_int_int_min : abs_int (-2147483648) = -2147483648 := by
  decide

/-- For every `int` the index `std::abs(x) - 1` computed in 32 bits is the exact
`|x| - 1`; at `INT_MIN` both are `INT_MAX`. -/
theorem abs_index_wrap (x : Int) (h1 : -2147483648 ≤ x) (h2 : x ≤ 2147483647) :
    wrap_int (abs_int x - 1) = |x| - 1 := by
  unfold abs_int wrap_int
  rw [Int.abs_eq_natAbs]
  omega

/-- A write for the literal `INT_MIN` goes to index `INT_MAX`: outside every
interpretation of at most `INT_MAX` entries. -/
theorem write_interpretation_int_min (I : List Bool) (b : Bool)
    (h : I.length ≤ 2147483647) :
    write_interpretation I (|(-2147483648 : Int)| - 1) b = .error .out_of_bounds := by
  have e : |(-2147483648 : Int)| - 1 = 2147483647 := by decide
  rw [e]
  unfold write_interpretation
  rw [if_neg (by omega)]

/-- On clauses of `int` literals the clause loop of a unit literal does the same with
the 32-bit value of `-unit` as with the exact one: they differ only for `INT_MIN`,
whose 32-bit negation is `INT_MIN` itself, absent from every clause the loop keeps,
as is `2^31`. -/
theorem simplify_clauses_wrap_neg (u : Int) (hu1 : -2147483648 ≤ u) (hu2 : u ≤ 2147483647) :
    ∀ (cs : ClauseSet), (∀ c ∈ cs, ∀ lit ∈ c, lit ≤ 2147483647) →
    simplify_clauses u (wrap_int (-u)) cs = simplify_clauses u (-u) cs := by
  by_cases hmin : u = -2147483648
  · subst hmin
    have hw : wrap_int (- -2147483648) = -2147483648 := by decide
    rw [hw]
    intro cs
    induction cs with
    | nil => intro _; rfl
    | cons c rest ih =>
      intro h
      have ihr := ih (fun c1 hc1 => h c1 (List.mem_cons_of_mem _ hc1))
      simp only [simplify_clauses]
      split
      · exact ihr
      · rename_i hc
        have hnot : (-2147483648 : Int) ∉ c := by simpa using hc
        have e1 : c.filter (fun lit => lit != (-2147483648 : Int)) = c := by
          rw [List.filter_eq_self]
          intro a ha
          simp only [bne_iff_ne, ne_eq]
          intro h0; subst h0; exact hnot ha
        have e2 : c.filter (fun lit => lit != (- -2147483648 : Int)) = c := by
          rw [List.filter_eq_self]
          intro a ha
          simp only [bne_iff_ne, ne_eq]
          intro h0
          have := h c (List.mem_cons_self _ _) a ha
          omega
        rw [e1, e2, ihr]
  · intro cs _
    have hw : wrap_int (-u) = -u := wrap_int_of_range (by omega) (by omega)
    rw [hw]

/-- For a positive variable id the 32-bit value of `-variable` is the exact one. -/
theorem wrap_int_neg_variable {v : Int} (h1 : 0 < v) (h2 : v ≤ 2147483647) :
    wrap_int (-v) = -v :=
  wrap_int_of_range (by omega) (by omega)

/-! ## The frequency table and `std::max_element` -/

theorem increment_length : ∀ (xs : List Int) (j : Nat), (increment xs j).length = xs.length := by
  intro xs
  induction xs with
  | nil => intro j; simp [increment]
  | cons x xs ih =>
    intro j
    cases j with
    | zero => simp [increment]
    | succ j => simp [increment, ih]

theorem increment_getD : ∀ (xs : List Int) (j i : Nat), j < xs.length →
    (increment xs j).getD i 0 = if i = j then wrap_int (xs.getD i 0 + 1) else xs.getD i 0 := by
  intro xs
  induction xs with
  | nil => intro j i hj; simp at hj
  | cons x xs ih =>
    intro j i hj
    cases j with
    | zero =>
      cases i with
      | zero => simp [increment]
      | succ i => simp [increment]
    | succ j =>
      cases i with
      | zero => simp [increment]
      | succ i =>
        have := ih j i (by simpa using hj)
        simpa [increment] using this

/-- The tally of one clause adds, for each variable, the number of its literals, in
32-bit arithmetic; entries inside the range of `int` stay inside. -/
theorem tally_clause_spec : ∀ (c : Clause) (f f1 : List Int),
    tally_clause f c = .ok f1 →
    f1.length = f.length ∧ (∀ lit ∈ c, lit ≠ 0 ∧ lit.natAbs ≤ f.length) ∧
      (∀ i, wrap_int (f1.getD i 0) =
        wrap_int (f.getD i 0 + (c.countP (fun lit => lit.natAbs == i + 1) : Nat))) ∧
      ((∀ i, wrap_int (f.getD i 0) = f.getD i 0) →
        ∀ i, wrap_int (f1.getD i 0) = f1.getD i 0) := by
  intro c
  induction c with
  | nil =>
    intro f f1 h
    simp only [tally_clause, Except.ok.injEq] at h
    subst h
    simp
  | cons lit rest ih =>
    intro f f1 h
    simp only [tally_clause] at h
    split at h
    · rename_i hb
      rw [Int.abs_eq_natAbs] at hb h
      have hidx : ((lit.natAbs : Int) - 1).toNat = lit.natAbs - 1 := by omega
      rw [hidx] at h
      obtain ⟨hlen, hmem, hget, hrange⟩ := ih _ _ h
      rw [increment_length] at hlen hmem
      refine ⟨hlen, ?_, ?_, ?_⟩
      · intro l hl
        rcases List.mem_cons.mp hl with h1 | h1
        · subst h1; exact ⟨by omega, by omega⟩
        · exact hmem l h1
      · intro i
        rw [hget i, increment_getD _ _ _ (by omega), List.countP_cons]
        by_cases hi : i = lit.natAbs - 1
        · have h1 : (lit.natAbs == i + 1) = true := by
            rw [beq_iff_eq]; omega
          rw [if_pos hi, h1, wrap_int_add_wrap]
          simp only [if_true]
          push_cast
          congr 1
          omega
        · have h1 : (lit.natAbs == i + 1) = false := by
            rw [beq_eq_false_iff_ne]; omega
          rw [if_neg hi, h1]
          simp
      · intro hf
        apply hrange
        intro i
        rw [increment_getD _ _ _ (by omega)]
        split
        · exact wrap_int_wrap _
        · exact hf i
    · exact absurd h (by simp)

theorem tally_clause_error {e : Fault} : ∀ (c : Clause) (f : List Int),
    tally_clause f c = .error e → e = .out_of_bounds := by
  intro c
  induction c with
  | nil => intro f h; simp [tally_clause] at h
  | cons lit rest ih =>
    intro f h
    simp only [tally_clause] at h
    split at h
    · exact ih _ h
    · simp only [Except.error.injEq] at h
      exact h.symm

/-- The tally of a list of clauses counts the literals of each variable in all of
them, in 32-bit arithmetic; entries inside the range of `int` stay inside. -/
theorem tally_clauses_spec : ∀ (cs : ClauseSet) (f f1 : List Int),
    tally_clauses f cs = .ok f1 →
    f1.length = f.length ∧ (∀ c ∈ cs, ∀ lit ∈ c, lit ≠ 0 ∧ lit.natAbs ≤ f.length) ∧
      (∀ i, wrap_int (f1.getD i 0) = wrap_int (f.getD i 0 +
        ((cs.map (fun c => c.countP (fun lit => lit.natAbs == i + 1))).sum : Nat))) ∧
      ((∀ i, wrap_int (f.getD i 0) = f.getD i 0) →
        ∀ i, wrap_int (f1.getD i 0) = f1.getD i 0) := by
  intro cs
  induction cs with
  | nil =>
    intro f f1 h
    simp only [tally_clauses, Except.ok.injEq] at h
    subst h
    simp
  | cons c rest ih =>
    intro f f1 h
    simp only [tally_clauses] at h
    split at h
    · exact absurd h (by simp)
    · rename_i f0 hc
      obtain ⟨hlen0, hmem0, hget0, hrange0⟩ := tally_clause_spec _ _ _ hc
      obtain ⟨hlen, hmem, hget, hrange⟩ := ih _ _ h
      rw [hlen0] at hlen hmem
      refine ⟨hlen, ?_, ?_, fun hf => hrange (hrange0 hf)⟩
      · intro c1 hc1
        rcases List.mem_cons.mp hc1 with h1 | h1
        · subst h1; exact hmem0
        · exact hmem c1 h1
      · intro i
        rw [hget i, ← wrap_int_add_wrap, hget0 i, wrap_int_add_wrap]
        simp only [List.map_cons, List.sum_cons]
        push_cast
        congr 1
        omega

/-- Started on a table of zeros, the tally leaves in entry `i` the 32-bit value of the
number of literals of variable `i + 1`. -/
theorem tally_clauses_zero {n : Nat} {cs : ClauseSet} {f1 : List Int}
    (h : tally_clauses (List.replicate n 0) cs = .ok f1) (i : Nat) :
    f1.getD i 0 =
      wrap_int ((cs.map (fun c => c.countP (fun lit => lit.natAbs == i + 1))).sum : Nat) := by
  obtain ⟨_, _, hget, hrange⟩ := tally_clauses_spec _ _ _ h
  have hz : ∀ k, (List.replicate n (0 : Int)).getD k 0 = 0 := by
    intro k
    simp only [List.getD_eq_getElem?_getD, List.getElem?_replicate]
    split <;> simp
  have h1 := hrange (by intro k; rw [hz]; decide) i
  rw [← h1, hget i, hz, zero_add]

theorem sum_countP_le_size (p : Int → Bool) : ∀ (cs : ClauseSet),
    (cs.map (fun c => c.countP p)).sum ≤ (cs.map List.length).sum := by
  intro cs
  induction cs with
  | nil => simp
  | cons c rest ih =>
    simp only [List.map_cons, List.sum_cons]
    have := @List.countP_le_length _ p c
    omega

theorem size_filter_le (q : Clause → Bool) : ∀ (cs : ClauseSet),
    ((cs.filter q).map List.length).sum ≤ (cs.map List.length).sum := by
  intro cs
  induction cs with
  | nil => simp
  | cons c rest ih =>
    simp only [List.filter_cons]
    split
    · simp only [List.map_cons, List.sum_cons]; omega
    · simp only [List.map_cons, List.sum_cons]; omega

theorem tally_clauses_error {e : Fault} : ∀ (cs : ClauseSet) (f : List Int),
    tally_clauses f cs = .error e → e = .out_of_bounds := by
  intro cs
  induction cs with
  | nil => intro f h; simp [tally_clauses] at h
  | cons c rest ih =>
    intro f h
    simp only [tally_clauses] at h
    split at h
    · rename_i e1 hc
      simp only [Except.error.injEq] at h
      subst h
      exact tally_clause_error _ _ hc
    · exact ih _ h

theorem tally_clause_of_le : ∀ (c : Clause) (f : List Int),
    (∀ lit ∈ c, lit ≠ 0 ∧ lit.natAbs ≤ f.length) → ∃ f1, tally_clause f c = .ok f1 := by
  intro c
  induction c with
  | nil => intro f _; exact ⟨f, rfl⟩
  | cons lit rest ih =>
    intro f h
    obtain ⟨h0, hle⟩ := h lit (List.mem_cons_self _ _)
    have hb : 0 ≤ |lit| - 1 ∧ |lit| - 1 < (f.length : Int) := by
      rw [Int.abs_eq_natAbs]; omega
    simp only [tally_clause, hb, and_self, if_true]
    apply ih
    intro l hl
    rw [increment_length]
    exact h l (List.mem_cons_of_mem _ hl)

theorem tally_clauses_of_le : ∀ (cs : ClauseSet) (f : List Int),
    (∀ c ∈ cs, ∀ lit ∈ c, lit ≠ 0 ∧ lit.natAbs ≤ f.length) →
    ∃ f1, tally_clauses f cs = .ok f1 := by
  intro cs
  induction cs with
  | nil => intro f _; exact ⟨f, rfl⟩
  | cons c rest ih =>
    intro f h
    obtain ⟨f0, hf0⟩ := tally_clause_of_le c f (h c (List.mem_cons_self _ _))
    simp only [tally_clauses, hf0]
    apply ih
    intro c1 hc1
    rw [(tally_clause_spec _ _ _ hf0).1]
    exact h c1 (List.mem_cons_of_mem _ hc1)

/-- The scan keeps `best` when nothing exceeds `largest`; otherwise it lands on the
first position holding the maximum of the scanned values. -/
theorem max_element_scan_spec : ∀ (ys : List Int) (i best : Nat) (largest : Int),
    (max_element_scan ys i best largest = best ∧ ∀ j, j < ys.length → ys.getD j 0 ≤ largest) ∨
    (∃ j, max_element_scan ys i best largest = i + j ∧ j < ys.length ∧
      largest < ys.getD j 0 ∧ (∀ k, k < ys.length → ys.getD k 0 ≤ ys.getD j 0) ∧
      ∀ k, k < j → ys.getD k 0 < ys.getD j 0) := by
  intro ys
  induction ys with
  | nil => intro i best largest; left; simp [max_element_scan]
  | cons y ys ih =>
    intro i best largest
    simp only [max_element_scan]
    split
    · rename_i hlt
      rcases ih (i + 1) i y with ⟨h1, h2⟩ | ⟨j, h1, h2, h3, h4, h5⟩
      · right
        refine ⟨0, by simpa using h1, by simp, by simpa using hlt, ?_, ?_⟩
        · intro k hk
          cases k with
          | zero => simp
          | succ k => simpa using h2 k (by simpa using hk)
        · intro k hk; omega
      · right
        refine ⟨j + 1, by rw [h1]; omega, by simpa using h2, ?_, ?_, ?_⟩
        · simp only [List.getD_cons_succ]; omega
        · intro k hk
          cases k with
          | zero => simp only [List.getD_cons_zero, List.getD_cons_succ]; omega
          | succ k => simpa using h4 k (by simpa using hk)
        · intro k hk
          cases k with
          | zero => simpa using h3
          | succ k => simpa using h5 k (by omega)
    · rename_i hge
      rcases ih (i + 1) best largest with ⟨h1, h2⟩ | ⟨j, h1, h2, h3, h4, h5⟩
      · left
        refine ⟨h1, ?_⟩
        intro k hk
        cases k with
        | zero => simp only [List.getD_cons_zero]; omega
        | succ k => simpa using h2 k (by simpa using hk)
      · right
        refine ⟨j + 1, by rw [h1]; omega, by simpa using h2, by simpa using h3, ?_, ?_⟩
        · intro k hk
          cases k with
          | zero => simp only [List.getD_cons_zero, List.getD_cons_succ]; omega
          | succ k => simpa using h4 k (by simpa using hk)
        · intro k hk
          cases k with
          | zero => simp only [List.getD_cons_zero, List.getD_cons_succ]; omega
          | succ k => simpa using h5 k (by omega)

/-- The index `std::max_element` lands on: inside the range, holding a maximal value,
and the first position to hold it. -/
theorem max_element_index_spec (xs : List Int) (hne : xs ≠ []) :
    max_element_index xs < xs.length ∧
      (∀ k, k < xs.length → xs.getD k 0 ≤ xs.getD (max_element_index xs) 0) ∧
      ∀ k, k < max_element_index xs → xs.getD k 0 < xs.getD (max_element_index xs) 0 := by
  cases xs with
  | nil => exact absurd rfl hne
  | cons x xs =>
    simp only [max_element_index]
    rcases max_element_scan_spec xs 1 0 x with ⟨h1, h2⟩ | ⟨j, h1, h2, h3, h4, h5⟩
    · rw [h1]
      refine ⟨by simp, ?_, ?_⟩
      · intro k hk
        cases k with
        | zero => simp
        | succ k => simpa using h2 k (by simpa using hk)
      · intro k hk; omega
    · rw [h1]
      have e1 : 1 + j = j + 1 := by omega
      rw [e1]
      refine ⟨by simpa using h2, ?_, ?_⟩
      · intro k hk
        cases k with
        | zero => simp only [List.getD_cons_zero, List.getD_cons_succ]; omega
        | succ k => simpa using h4 k (by simpa using hk)
      · intro k hk
        cases k with
        | zero => simpa using h3
        | succ k => simpa using h5 k (by omega)

theorem max_element_index_zeros (n : Nat) :
    max_element_index (List.replicate n (0 : Int)) = 0 := by
  cases n with
  | zero => rfl
  | succ n =>
    have hne : List.replicate (n + 1) (0 : Int) ≠ [] := by simp
    obtain ⟨_, _, h3⟩ := max_element_index_spec _ hne
    by_contra hk
    have := h3 0 (by omega)
    have e : ∀ k, (List.replicate (n + 1) (0 : Int)).getD k 0 = 0 := by
      intro k
      simp only [List.getD_eq_getElem?_getD, List.getElem?_replicate]
      split <;> simp
    rw [e, e] at this
    omega

/-- The fold of lines 255-259 stays below its start and below every length, and is one
of them. -/
theorem shortest_length_spec : ∀ (cs : ClauseSet) (a : Nat),
    (cs.foldl (fun shortest clause => min shortest clause.length) a ≤ a) ∧
    (∀ c ∈ cs, cs.foldl (fun shortest clause => min shortest clause.length) a ≤ c.length) ∧
    (cs.foldl (fun shortest clause => min shortest clause.length) a = a ∨
      ∃ c ∈ cs, cs.foldl (fun shortest clause => min shortest clause.length) a = c.length) := by
  intro cs
  induction cs with
  | nil => intro a; simp
  | cons c0 rest ih =>
    intro a
    simp only [List.foldl_cons]
    obtain ⟨h1, h2, h3⟩ := ih (min a c0.length)
    refine ⟨by omega, ?_, ?_⟩
    · intro c hc
      rcases List.mem_cons.mp hc with h4 | h4
      · subst h4; omega
      · exact h2 c h4
    · rcases h3 with h3 | ⟨c, hc, h3⟩
      · by_cases hle : a ≤ c0.length
        · left; rw [h3]; omega
        · right; exact ⟨c0, List.mem_cons_self _ _, by rw [h3]; omega⟩
      · right; exact ⟨c, List.mem_cons_of_mem _ hc, h3⟩

theorem sum_map_pos {g : Clause → Nat} : ∀ (cs : ClauseSet),
    0 < (cs.map g).sum → ∃ c ∈ cs, 0 < g c := by
  intro cs
  induction cs with
  | nil => intro h; simp at h
  | cons c rest ih =>
    intro h
    simp only [List.map_cons, List.sum_cons] at h
    by_cases hc : 0 < g c
    · exact ⟨c, List.mem_cons_self _ _, hc⟩
    · obtain ⟨c1, hc1, h1⟩ := ih (by omega)
      exact ⟨c1, List.mem_cons_of_mem _ hc1, h1⟩

theorem le_sum_map {g : Clause → Nat} : ∀ (cs : ClauseSet) (c : Clause),
    c ∈ cs → g c ≤ (cs.map g).sum := by
  intro cs
  induction cs with
  | nil => intro c hc; simp at hc
  | cons c0 rest ih =>
    intro c hc
    simp only [List.map_cons, List.sum_cons]
    rcases List.mem_cons.mp hc with h1 | h1
    · subst h1; omega
    · have := ih c h1; omega

theorem size_within_lengths {cs : ClauseSet} (h : size_within cs) : lengths_within cs := by
  intro c hc
  have := @le_sum_map List.length cs c hc
  unfold size_within at h
  omega

theorem replicate_zero_getD (n i : Nat) : (List.replicate n (0 : Int)).getD i 0 = 0 := by
  simp only [List.getD_eq_getElem?_getD, List.getElem?_replicate]
  split <;> simp

/-! ## The branching heuristic `find_most_frequent_variable` -/

theorem find_most_frequent_variable_pos {n : Nat} {cs : ClauseSet} {v : Int}
    (h : find_most_frequent_variable n cs = .ok v) : 0 < v := by
  simp only [find_most_frequent_variable] at h
  split at h
  · exact absurd h (by simp)
  · simp only [Except.ok.injEq] at h
    omega

theorem find_most_frequent_variable_error {n : Nat} {cs : ClauseSet} {e : Fault}
    (h : find_most_frequent_variable n cs = .error e) : e = .out_of_bounds := by
  simp only [find_most_frequent_variable] at h
  split at h
  · rename_i e1 ht
    simp only [Except.error.injEq] at h
    subst h
    exact tally_clauses_error _ _ ht
  · exact absurd h (by simp)

theorem find_most_frequent_variable_le {n : Nat} {cs : ClauseSet} {v : Int}
    (h : find_most_frequent_variable n cs = .ok v) (hn : 0 < n) : v.natAbs ≤ n := by
  simp only [find_most_frequent_variable] at h
  split at h
  · exact absurd h (by simp)
  · rename_i freq ht
    simp only [Except.ok.injEq] at h
    have hlen := (tally_clauses_spec _ _ _ ht).1
    simp only [List.length_replicate] at hlen
    have hne : freq ≠ [] := by
      intro h0; rw [h0] at hlen; simp at hlen; omega
    have := (max_element_index_spec freq hne).1
    omega

/-- The chosen variable occurs in the clause set, when no clause is empty, some clause
is no longer than the initial value `INT_MAX` of `shortest_length`, and the clause set
holds at most `INT_MAX` literals, so that no tally overflows. -/
theorem find_most_frequent_variable_mentions {n : Nat} {cs : ClauseSet} {v : Int}
    (h : find_most_frequent_variable n cs = .ok v) (hne : ∀ c ∈ cs, c ≠ [])
    (hshort : ∃ c ∈ cs, c.length ≤ 2147483647) (hsize : size_within cs) :
    mentions cs v.natAbs := by
  simp only [find_most_frequent_variable] at h
  split at h
  · exact absurd h (by simp)
  · rename_i freq ht
    simp only [Except.ok.injEq] at h
    obtain ⟨hlen, hmem, _, _⟩ := tally_clauses_spec _ _ _ ht
    simp only [List.length_replicate] at hlen hmem
    have hget : ∀ i, freq.getD i 0 =
        (((cs.filter (fun clause => clause.length ==
          cs.foldl (fun shortest clause => min shortest clause.length) 2147483647)).map
            (fun c => c.countP (fun l => l.natAbs == i + 1))).sum : Nat) := by
      intro i
      rw [tally_clauses_zero ht i]
      have h1 := sum_countP_le_size (fun l => l.natAbs == i + 1)
        (cs.filter (fun clause => clause.length ==
          cs.foldl (fun shortest clause => min shortest clause.length) 2147483647))
      have h2 := size_filter_le (fun clause => clause.length ==
          cs.foldl (fun shortest clause => min shortest clause.length) 2147483647) cs
      have h3 : (cs.map List.length).sum ≤ 2147483647 := hsize
      exact wrap_int_of_range (by omega)
        (by exact_mod_cast le_trans h1 (le_trans h2 h3))
    obtain ⟨h1, h2, h3⟩ := shortest_length_spec cs 2147483647
    have hex : ∃ c ∈ cs, c.length =
        cs.foldl (fun shortest clause => min shortest clause.length) 2147483647 := by
      rcases h3 with h3 | ⟨c, hc, h3⟩
      · obtain ⟨c0, hc0, hle⟩ := hshort
        have := h2 c0 hc0
        exact ⟨c0, hc0, by omega⟩
      · exact ⟨c, hc, h3.symm⟩
    obtain ⟨c, hc, hcl⟩ := hex
    have hcS : c ∈ cs.filter (fun clause => clause.length ==
        cs.foldl (fun shortest clause => min shortest clause.length) 2147483647) := by
      rw [List.mem_filter]; exact ⟨hc, by simpa using hcl⟩
    obtain ⟨lit, hlit⟩ := List.exists_mem_of_ne_nil c (hne c hc)
    obtain ⟨hl0, hlle⟩ := hmem c hcS lit hlit
    have hfreq : 1 ≤ freq.getD (lit.natAbs - 1) 0 := by
      rw [hget]
      have hidx : lit.natAbs - 1 + 1 = lit.natAbs := by omega
      have h4 := @le_sum_map (fun c => c.countP (fun l => l.natAbs == lit.natAbs - 1 + 1)) _ c hcS
      simp only at h4
      have h5 : 0 < c.countP (fun l => l.natAbs == lit.natAbs - 1 + 1) := by
        rw [List.countP_pos_iff]
        exact ⟨lit, hlit, by simp [hidx]⟩
      exact_mod_cast le_trans h5 h4
    have hfne : freq ≠ [] := by
      intro h0; rw [h0] at hlen; simp at hlen; omega
    obtain ⟨_, hmax, _⟩ := max_element_index_spec freq hfne
    have hk := hmax (lit.natAbs - 1) (by omega)
    rw [hget (max_element_index freq)] at hk
    obtain ⟨c1, hc1, hpos⟩ := sum_map_pos _ (by omega :
      0 < ((cs.filter (fun clause => clause.length ==
        cs.foldl (fun shortest clause => min shortest clause.length) 2147483647)).map
          (fun c => c.countP (fun l => l.natAbs == max_element_index freq + 1))).sum)
    rw [List.countP_pos_iff] at hpos
    obtain ⟨l1, hl1, hl1v⟩ := hpos
    refine ⟨c1, (List.mem_filter.mp hc1).1, l1, hl1, ?_⟩
    have : l1.natAbs = max_element_index freq + 1 := by simpa using hl1v
    rw [this, ← h]
    omega

/-- When every clause is longer than `INT_MAX` no clause has the computed shortest
length, the table stays at zero and variable `1` is returned. -/
theorem find_most_frequent_variable_giant {n : Nat} {cs : ClauseSet}
    (hg : ∀ c ∈ cs, 2147483647 < c.length) : find_most_frequent_variable n cs = .ok 1 := by
  obtain ⟨h1, _, _⟩ := shortest_length_spec cs 2147483647
  have hS : cs.filter (fun clause => clause.length ==
      cs.foldl (fun shortest clause => min shortest clause.length) 2147483647) = [] := by
    rw [List.filter_eq_nil_iff]
    intro c hc
    have := hg c hc
    simp only [beq_iff_eq]
    omega
  simp only [find_most_frequent_variable, hS, tally_clauses, max_element_index_zeros]
  rfl

theorem tally_clauses_empties : ∀ (cs : ClauseSet) (f : List Int),
    (∀ c ∈ cs, c = []) → tally_clauses f cs = .ok f := by
  intro cs
  induction cs with
  | nil => intro f _; rfl
  | cons c rest ih =>
    intro f h
    have hc : c = [] := h c (List.mem_cons_self _ _)
    subst hc
    simp only [tally_clauses, tally_clause]
    exact ih f (fun c hc => h c (List.mem_cons_of_mem _ hc))

/-- With an empty clause present the shortest length is `0`, nothing is tallied and
variable `1` is returned. -/
theorem find_most_frequent_variable_empty_clause {n : Nat} {cs : ClauseSet}
    (he : [] ∈ cs) : find_most_frequent_variable n cs = .ok 1 := by
  obtain ⟨_, h2, _⟩ := shortest_length_spec cs 2147483647
  have h0 : cs.foldl (fun shortest clause => min shortest clause.length) 2147483647 = 0 := by
    have := h2 [] he
    simpa using this
  have ht := tally_clauses_empties (cs.filter (fun clause => clause.length == 0))
    (List.replicate n 0) (by
      intro c hc
      have := (List.mem_filter.mp hc).2
      simpa using this)
  simp only [find_most_frequent_variable, h0, ht, max_element_index_zeros]
  rfl

theorem find_most_frequent_variable_ok {n : Nat} {cs : ClauseSet}
    (h : ∀ c ∈ cs, ∀ lit ∈ c, lit ≠ 0 ∧ lit.natAbs ≤ n) :
    ∃ v, find_most_frequent_variable n cs = .ok v := by
  obtain ⟨f1, hf1⟩ := tally_clauses_of_le (cs.filter (fun clause => clause.length ==
      cs.foldl (fun shortest clause => min shortest clause.length) 2147483647))
    (List.replicate n 0) (by
      intro c hc lit hl
      rw [List.length_replicate]
      exact h c (List.mem_filter.mp hc).1 lit hl)
  exact ⟨(max_element_index f1 : Nat) + 1, by simp only [find_most_frequent_variable, hf1]⟩

/-! ## Clause sets on which the recursion cannot progress -/

theorem simplify_clauses_id {s f : Int} : ∀ {cs : ClauseSet},
    (∀ c ∈ cs, c ≠ [] ∧ s ∉ c ∧ f ∉ c) → simplify_clauses s f cs = some cs := by
  intro cs
  induction cs with
  | nil => intro _; rfl
  | cons c rest ih =>
    intro h
    obtain ⟨hne, hs, hf⟩ := h c (List.mem_cons_self _ _)
    have hfil : c.filter (fun lit => lit != f) = c := by
      rw [List.filter_eq_self]
      intro a ha
      simp only [bne_iff_ne, ne_eq]
      intro h0; subst h0; exact hf ha
    have hcont : c.contains s = false := by simpa using hs
    have hemp : c.isEmpty = false := by
      cases c with
      | nil => exact absurd rfl hne
      | cons a l => rfl
    simp only [simplify_clauses, hcont, hfil, hemp, ih (fun c1 hc1 => h c1 (List.mem_cons_of_mem _ hc1))]
    simp

theorem unit_propagation_no_unit {cs : ClauseSet} {r : result} (h : first_unit cs = none) :
    unit_propagation cs r = .ok (true, cs, r) := by
  simp only [unit_propagation, unit_propagation_loop, h]

theorem not_mentions_mem {cs : ClauseSet} {x : Int} (h : ¬ mentions cs x.natAbs) :
    ∀ c ∈ cs, x ∉ c ∧ (-x) ∉ c := by
  intro c hc
  constructor
  · intro hx; exact h (mentions_of_mem hc hx)
  · intro hx
    apply h
    have := mentions_of_mem hc hx
    rwa [Int.natAbs_neg] at this

theorem isEmpty_eq_false_of_ne {cs : ClauseSet} (h : cs ≠ []) : cs.isEmpty = false := by
  cases cs with
  | nil => exact absurd rfl h
  | cons a l => rfl

/-- When the heuristic answers a variable that does not occur in a clause set without
empty and unit clauses, a call of `atomic_cut` on that variable before the deadline
re-enters itself on the same clause set: no depth budget is enough. -/
theorem atomic_cut_stuck : ∀ (fuel : Nat) (v : Int) (cs : ClauseSet) (r : result),
    r.calculation_time ≤ timeout_ms →
    find_most_frequent_variable r.num_variables cs = .ok v →
    cs ≠ [] → (∀ c ∈ cs, c ≠ []) → (∀ c ∈ cs, c.length ≠ 1) →
    ¬ mentions cs v.natAbs → ∃ e, atomic_cut fuel v cs r = .error e := by
  intro fuel
  induction fuel with
  | zero => intro v cs r _ _ _ _ _ _; exact ⟨.out_of_fuel, rfl⟩
  | succ fuel ih =>
    intro v cs r hcalc hv hne hnonempty hnounit hm
    have hclause : ∀ c ∈ cs, c ≠ [] ∧ v ∉ c ∧ (-v) ∉ c := by
      intro c hc
      exact ⟨hnonempty c hc, (not_mentions_mem hm c hc).1, (not_mentions_mem hm c hc).2⟩
    have hsimp : simplify_clauses v (-v) cs = some cs := simplify_clauses_id hclause
    have hunit : first_unit cs = none := first_unit_eq_none_of_no_unit hnounit
    simp only [atomic_cut, atomic_cut_body, if_neg (not_lt.mpr hcalc)]
    split
    · rename_i e _; exact ⟨e, rfl⟩
    · rename_i I1 hw
      have hv1 : find_most_frequent_variable
          ({ r with interpretation := I1 } : result).num_variables cs = .ok v := hv
      obtain ⟨e, he⟩ := ih v cs { r with interpretation := I1 } hcalc hv1 hne hnonempty
        hnounit hm
      have hpos : positive_branch (atomic_cut fuel) v cs { r with interpretation := I1 } =
          .error e := by
        simp only [positive_branch, hsimp, Option.getD_some, isEmpty_eq_false_of_ne hne,
          unit_propagation_no_unit hunit, hv, he]
        simp
      rw [hpos]
      exact ⟨e, rfl⟩

/-- A recursive call that returns was made on a variable of its clause set. -/
theorem atomic_cut_call_mentions {fuel : Nat} {cs : ClauseSet} {r r1 : result} {v : Int}
    (hv : find_most_frequent_variable r.num_variables cs = .ok v) (hne : cs ≠ [])
    (hnonempty : ∀ c ∈ cs, c ≠ []) (hnounit : ∀ c ∈ cs, c.length ≠ 1)
    (hcalc : r.calculation_time ≤ timeout_ms)
    (hrun : atomic_cut fuel v cs r = .ok r1) : mentions cs v.natAbs := by
  by_contra hm
  obtain ⟨e, he⟩ := atomic_cut_stuck fuel v cs r hcalc hv hne hnonempty hnounit hm
  rw [he] at hrun
  exact absurd hrun (by simp)

/-! ## The case split `atomic_cut` -/

theorem positive_branch_spec {fuel : Nat} {v : Int} {cs : ClauseSet} {r1 s : result} {ret : Bool}
    (hcalc : r1.calculation_time ≤ timeout_ms)
    (ih : ∀ nv cs0 r0 r2, 0 < nv → atomic_cut fuel nv cs0 r0 = .ok r2 → cut_spec nv cs0 r0 r2)
    (h : positive_branch (atomic_cut fuel) v cs r1 = .ok (ret, s)) :
    s.num_variables = r1.num_variables ∧ s.calculation_time = r1.calculation_time ∧
    s.clause_set = r1.clause_set ∧ s.interpretation.length = r1.interpretation.length ∧
    s.timed_out = r1.timed_out ∧
    (∀ i, (¬ mentions cs (i + 1) ∨ i + 1 = v.natAbs) →
      s.interpretation[i]? = r1.interpretation[i]?) ∧
    (ret = true → lit_true r1.interpretation v = true → satisfies s.interpretation cs = true) := by
  simp only [positive_branch] at h
  split at h
  · simp only [Except.ok.injEq, Prod.mk.injEq] at h
    obtain ⟨h1, h2⟩ := h
    subst h1 h2
    simp
  · rename_i hposne
    cases hsimp : simplify_clauses v (-v) cs with
    | none => rw [hsimp] at hposne; simp at hposne
    | some pos =>
      rw [hsimp] at h
      simp only [Option.getD_some] at h
      have hframe : ∀ i, (¬ mentions cs (i + 1) ∨ i + 1 = v.natAbs) → ¬ mentions pos (i + 1) := by
        intro i hi
        rcases hi with hi | hi
        · exact fun hq => hi (simplify_clauses_mentions hsimp hq)
        · rw [hi]; exact simplify_clauses_eliminates hsimp rfl
      split at h
      · exact absurd h (by simp)
      · rename_i x r2 hup
        simp only [Except.ok.injEq, Prod.mk.injEq] at h
        obtain ⟨h1, h2⟩ := h
        subst h1 h2
        unfold unit_propagation at hup
        obtain ⟨_, f2, f3, f4, f5, f6⟩ := unit_propagation_loop_fields hup
        refine ⟨f3, f4, f5, f6, f2, ?_, by simp⟩
        intro i hi
        exact unit_propagation_loop_frame hup i (hframe i hi)
      · rename_i pos1 r2 hup
        unfold unit_propagation at hup
        obtain ⟨_, f2, f3, f4, f5, f6⟩ := unit_propagation_loop_fields hup
        split at h
        · rename_i hemp
          simp only [Except.ok.injEq, Prod.mk.injEq] at h
          obtain ⟨h1, h2⟩ := h
          subst h2
          refine ⟨f3, f4, f5, f6, f2, ?_, ?_⟩
          · intro i hi
            exact unit_propagation_loop_frame hup i (hframe i hi)
          · intro _ hlit
            have hp1 : pos1 = [] := List.isEmpty_iff.mp hemp
            subst hp1
            have hsat := unit_propagation_loop_sound hup r2.interpretation (fun _ _ => rfl)
              (by simp [satisfies])
            refine simplify_clauses_sound hsimp ?_ hsat
            have := unit_propagation_loop_frame hup (v.natAbs - 1) (hframe _ (Or.inr (by
              have : v ≠ 0 := by
                intro h0; subst h0; simp [lit_true] at hlit
              omega)))
            rw [lit_true_congr this]
            exact hlit
        · rename_i hne1
          have hne1 : pos1 ≠ [] := fun h0 => hne1 (List.isEmpty_iff.mpr h0)
          split at h
          · exact absurd h (by simp)
          · rename_i nv hnv
            split at h
            · exact absurd h (by simp)
            · rename_i r3 hrec
              simp only [Except.ok.injEq, Prod.mk.injEq] at h
              obtain ⟨h1, h2⟩ := h
              subst h2
              have hnvpos := find_most_frequent_variable_pos hnv
              have hcalc2 : r2.calculation_time ≤ timeout_ms := by rw [f4]; exact hcalc
              have hnonempty : ∀ c ∈ pos1, c ≠ [] :=
                unit_propagation_loop_nonempty hup (simplify_clauses_nonempty hsimp)
              have hment := atomic_cut_call_mentions hnv hne1 hnonempty
                (first_unit_none (unit_propagation_loop_no_unit hup)) hcalc2 hrec
              obtain ⟨g1, g2, g3, g4, g5, g6, g7⟩ := ih nv pos1 r2 r3 hnvpos hrec
              have hfr : ∀ i, ¬ mentions pos1 (i + 1) →
                  r3.interpretation[i]? = r2.interpretation[i]? := by
                intro i hi
                exact g6 i (fun heq => hi (heq ▸ hment)) hi
              have hfr2 : ∀ i, ¬ mentions pos (i + 1) →
                  r3.interpretation[i]? = r1.interpretation[i]? := by
                intro i hi
                rw [hfr i (fun hq => hi (unit_propagation_loop_mentions hup _ hq))]
                exact unit_propagation_loop_frame hup i hi
              refine ⟨by rw [g1, f3], by rw [g2, f4], by rw [g3, f5], by rw [g4, f6],
                by rw [g5 hcalc2, f2], fun i hi => hfr2 i (hframe i hi), ?_⟩
              intro hret hlit
              rw [← h1] at hret
              have hsat1 := g7 hret
              have hsat := unit_propagation_loop_sound hup r3.interpretation hfr hsat1
              refine simplify_clauses_sound hsimp ?_ hsat
              have := hfr2 (v.natAbs - 1) (hframe _ (Or.inr (by
                have : v ≠ 0 := by
                  intro h0; subst h0; simp [lit_true] at hlit
                omega)))
              rw [lit_true_congr this]
              exact hlit

theorem negative_branch_spec {fuel : Nat} {v : Int} {cs : ClauseSet} {s r3 : result}
    (hv : 0 < v) (hcalc : s.calculation_time ≤ timeout_ms)
    (ih : ∀ nv cs0 r0 r2, 0 < nv → atomic_cut fuel nv cs0 r0 = .ok r2 → cut_spec nv cs0 r0 r2)
    (h : negative_branch (atomic_cut fuel) v cs s = .ok r3) :
    r3.num_variables = s.num_variables ∧ r3.calculation_time = s.calculation_time ∧
    r3.clause_set = s.clause_set ∧ r3.interpretation.length = s.interpretation.length ∧
    r3.timed_out = s.timed_out ∧
    (∀ i, i + 1 ≠ v.natAbs → ¬ mentions cs (i + 1) →
      r3.interpretation[i]? = s.interpretation[i]?) ∧
    (r3.satisfiable = true → satisfies r3.interpretation cs = true) := by
  simp only [negative_branch] at h
  split at h
  · exact absurd h (by simp)
  · rename_i I1 hw
    obtain ⟨hv0, hvle, hI1⟩ := write_interpretation_ok hw
    subst hI1
    have hset : ∀ i, i + 1 ≠ v.natAbs →
        (s.interpretation.set (v.natAbs - 1) false)[i]? = s.interpretation[i]? := by
      intro i hi
      exact List.getElem?_set_ne (by omega)
    have hlit : lit_true (s.interpretation.set (v.natAbs - 1) false) (-v) = true :=
      lit_true_neg_set hv hvle
    split at h
    · simp only [Except.ok.injEq] at h
      subst h
      refine ⟨rfl, rfl, rfl, by simp, rfl, fun i hi _ => hset i hi, by simp⟩
    · rename_i neg hsimp
      have hframe : ∀ i, ¬ mentions cs (i + 1) → ¬ mentions neg (i + 1) :=
        fun i hi hq => hi (simplify_clauses_mentions hsimp hq)
      have helim : ¬ mentions neg (v.natAbs - 1 + 1) := by
        have h1 : v.natAbs - 1 + 1 = (-v).natAbs := by rw [Int.natAbs_neg]; omega
        rw [h1]
        exact simplify_clauses_eliminates hsimp (by simp)
      split at h
      · rename_i hemp
        simp only [Except.ok.injEq] at h
        subst h
        refine ⟨rfl, rfl, rfl, by simp, rfl, fun i hi _ => hset i hi, ?_⟩
        intro _
        have hn : neg = [] := List.isEmpty_iff.mp hemp
        subst hn
        exact simplify_clauses_sound hsimp hlit (by simp [satisfies])
      · rename_i hne
        have hne : neg ≠ [] := fun h0 => hne (List.isEmpty_iff.mpr h0)
        split at h
        · exact absurd h (by simp)
        · rename_i x r2 hup
          simp only [Except.ok.injEq] at h
          subst h
          unfold unit_propagation at hup
          obtain ⟨_, f2, f3, f4, f5, f6⟩ := unit_propagation_loop_fields hup
          refine ⟨f3, f4, f5, by simpa using f6, f2, ?_, by simp⟩
          intro i hi hm
          have := unit_propagation_loop_frame hup i (hframe i hm)
          simp only at this ⊢
          rw [this]; exact hset i hi
        · rename_i neg1 r2 hup
          unfold unit_propagation at hup
          obtain ⟨_, f2, f3, f4, f5, f6⟩ := unit_propagation_loop_fields hup
          have hfr0 : ∀ i, ¬ mentions neg (i + 1) → r2.interpretation[i]? =
              (s.interpretation.set (v.natAbs - 1) false)[i]? :=
            fun i hi => unit_propagation_loop_frame hup i hi
          split at h
          · rename_i hemp
            simp only [Except.ok.injEq] at h
            subst h
            refine ⟨f3, f4, f5, by simpa using f6, f2, ?_, ?_⟩
            · intro i hi hm
              simp only
              rw [hfr0 i (hframe i hm)]; exact hset i hi
            · intro _
              have hp1 : neg1 = [] := List.isEmpty_iff.mp hemp
              subst hp1
              have hsat := unit_propagation_loop_sound hup r2.interpretation (fun _ _ => rfl)
                (by simp [satisfies])
              refine simplify_clauses_sound hsimp ?_ hsat
              have e : (-v).natAbs - 1 = v.natAbs - 1 := by rw [Int.natAbs_neg]
              have h9 : r2.interpretation[(-v).natAbs - 1]? =
                  (s.interpretation.set (v.natAbs - 1) false)[(-v).natAbs - 1]? := by
                rw [e]; exact hfr0 (v.natAbs - 1) helim
              show lit_true r2.interpretation (-v) = true
              rw [lit_true_congr h9]
              exact hlit
          · rename_i hne1
            have hne1 : neg1 ≠ [] := fun h0 => hne1 (List.isEmpty_iff.mpr h0)
            split at h
            · exact absurd h (by simp)
            · rename_i nv hnv
              have hnvpos := find_most_frequent_variable_pos hnv
              have hcalc2 : r2.calculation_time ≤ timeout_ms := by rw [f4]; exact hcalc
              have hnonempty : ∀ c ∈ neg1, c ≠ [] :=
                unit_propagation_loop_nonempty hup (simplify_clauses_nonempty hsimp)
              have hment := atomic_cut_call_mentions hnv hne1 hnonempty
                (first_unit_none (unit_propagation_loop_no_unit hup)) hcalc2 h
              obtain ⟨g1, g2, g3, g4, g5, g6, g7⟩ := ih nv neg1 r2 r3 hnvpos h
              have hfr : ∀ i, ¬ mentions neg1 (i + 1) →
                  r3.interpretation[i]? = r2.interpretation[i]? := by
                intro i hi
                exact g6 i (fun heq => hi (heq ▸ hment)) hi
              have hfr2 : ∀ i, ¬ mentions neg (i + 1) → r3.interpretation[i]? =
                  (s.interpretation.set (v.natAbs - 1) false)[i]? := by
                intro i hi
                rw [hfr i (fun hq => hi (unit_propagation_loop_mentions hup _ hq))]
                exact hfr0 i hi
              refine ⟨by rw [g1, f3], by rw [g2, f4], by rw [g3, f5],
                by rw [g4, f6]; simp, by rw [g5 hcalc2, f2], ?_, ?_⟩
              · intro i hi hm
                rw [hfr2 i (hframe i hm)]; exact hset i hi
              · intro hsat3
                have hsat1 := g7 hsat3
                have hsat := unit_propagation_loop_sound hup r3.interpretation hfr hsat1
                refine simplify_clauses_sound hsimp ?_ hsat
                have e : (-v).natAbs - 1 = v.natAbs - 1 := by rw [Int.natAbs_neg]
                have h9 : r3.interpretation[(-v).natAbs - 1]? =
                    (s.interpretation.set (v.natAbs - 1) false)[(-v).natAbs - 1]? := by
                  rw [e]; exact hfr2 (v.natAbs - 1) helim
                rw [lit_true_congr h9]
                exact hlit

/-- Every returning call of `atomic_cut` on a positive variable meets `cut_spec`. -/
theorem atomic_cut_spec : ∀ (fuel : Nat) (v : Int) (cs : ClauseSet) (r r3 : result),
    0 < v → atomic_cut fuel v cs r = .ok r3 → cut_spec v cs r r3 := by
  intro fuel
  induction fuel with
  | zero => intro v cs r r3 _ h; simp [atomic_cut] at h
  | succ fuel ih =>
    intro v cs r r3 hv h
    simp only [atomic_cut, atomic_cut_body] at h
    split at h
    · rename_i hlate
      simp only [Except.ok.injEq] at h
      subst h
      refine ⟨rfl, rfl, rfl, rfl, ?_, fun _ _ _ => rfl, by simp⟩
      intro hle; omega
    · rename_i hcalc
      have hcalc : r.calculation_time ≤ timeout_ms := not_lt.mp hcalc
      split at h
      · exact absurd h (by simp)
      · rename_i I1 hw
        obtain ⟨hv0, hvle, hI1⟩ := write_interpretation_ok hw
        subst hI1
        have hset : ∀ i, i + 1 ≠ v.natAbs →
            (r.interpretation.set (v.natAbs - 1) (decide (v > 0)))[i]? = r.interpretation[i]? := by
          intro i hi
          exact List.getElem?_set_ne (by omega)
        split at h
        · exact absurd h (by simp)
        · rename_i s hpos
          simp only [Except.ok.injEq] at h
          subst h
          obtain ⟨p1, p2, p3, p4, p5, p6, p7⟩ := positive_branch_spec (by exact hcalc) ih hpos
          refine ⟨p1, p2, p3, by simpa using p4, fun _ => p5, ?_, ?_⟩
          · intro i hi hm
            rw [p6 i (Or.inl hm)]; exact hset i hi
          · intro _
            exact p7 rfl (lit_true_set hv0 hvle)
        · rename_i s hpos
          obtain ⟨p1, p2, p3, p4, p5, p6, _⟩ := positive_branch_spec (by exact hcalc) ih hpos
          have hcalc2 : s.calculation_time ≤ timeout_ms := by rw [p2]; exact hcalc
          obtain ⟨n1, n2, n3, n4, n5, n6, n7⟩ := negative_branch_spec hv hcalc2 ih h
          refine ⟨by rw [n1, p1], by rw [n2, p2], by rw [n3, p3], by rw [n4, p4]; simp,
            fun _ => by rw [n5, p5], ?_, n7⟩
          intro i hi hm
          rw [n6 i hi hm, p6 i (Or.inl hm)]; exact hset i hi

/-! ## The entry point `solve` -/

theorem timeout_ms_eq : timeout_ms = 30000 := by
  simp [timeout_ms, timeout_secs]

theorem solver_fresh (input : ClauseSet) :
    (solver input).satisfiable = true ∧ (solver input).timed_out = false ∧
      (solver input).calculation_time = 0 ∧ (solver input).clause_set = input ∧
      (solver input).interpretation.length = (solver input).num_variables := by
  simp [solver]

/-- The two ways `solve` returns: from line 39 after a failed propagation, or from
line 65 after the search and the final timeout check. -/
theorem solve_ok_cases {input : ClauseSet} {elapsed : Int} {r : result}
    (h : solve (solver input) elapsed = .ok r) :
    (∃ cs r1, unit_propagation input (solver input) = .ok (false, cs, r1) ∧
      r = { r1 with satisfiable := false }) ∨
    (∃ simplified r1 r2, unit_propagation input (solver input) = .ok (true, simplified, r1) ∧
      branch_search simplified r1 = .ok r2 ∧ r = final_clamp r2 elapsed) := by
  simp only [solve] at h
  have hcs : (solver input).clause_set = input := rfl
  rw [hcs] at h
  split at h
  · exact absurd h (by simp)
  · rename_i cs r1 hup
    simp only [Except.ok.injEq] at h
    exact Or.inl ⟨cs, r1, hup, h.symm⟩
  · rename_i simplified r1 hup
    split at h
    · exact absurd h (by simp)
    · rename_i r2 hsearch
      simp only [Except.ok.injEq] at h
      exact Or.inr ⟨simplified, r1, r2, hup, hsearch, h.symm⟩

/-- The state reached by the search of a fresh solver: `timed_out` is still `false`,
and a verdict `satisfiable` comes with a model of the input. -/
theorem branch_search_fresh {input simplified : ClauseSet} {r1 r2 : result}
    (hup : unit_propagation input (solver input) = .ok (true, simplified, r1))
    (hsearch : branch_search simplified r1 = .ok r2) :
    r2.timed_out = false ∧
      (r2.satisfiable = true → satisfies r2.interpretation input = true) := by
  unfold unit_propagation at hup
  obtain ⟨_, f2, _, f4, _, _⟩ := unit_propagation_loop_fields hup
  have hcalc : r1.calculation_time ≤ timeout_ms := by
    rw [f4, (solver_fresh input).2.2.1, timeout_ms_eq]; omega
  have hto : r1.timed_out = false := by rw [f2]; exact (solver_fresh input).2.1
  simp only [branch_search] at hsearch
  split at hsearch
  · rename_i hemp
    simp only [Except.ok.injEq] at hsearch
    subst hsearch
    refine ⟨hto, fun _ => ?_⟩
    have h0 : simplified = [] := List.isEmpty_iff.mp hemp
    subst h0
    exact unit_propagation_loop_sound hup r1.interpretation (fun _ _ => rfl) (by simp [satisfies])
  · rename_i hne
    have hne : simplified ≠ [] := fun h0 => hne (List.isEmpty_iff.mpr h0)
    split at hsearch
    · exact absurd hsearch (by simp)
    · rename_i best hbest
      obtain ⟨_, _, _, _, g5, g6, g7⟩ :=
        atomic_cut_spec _ best simplified r1 r2 (find_most_frequent_variable_pos hbest) hsearch
      refine ⟨by rw [g5 hcalc, hto], fun hsat => ?_⟩
      have hsat1 := g7 hsat
      have hnonempty : ∀ c ∈ simplified, c ≠ [] := by
        intro c hc h0
        subst h0
        obtain ⟨lit, hl, _⟩ := satisfies_iff.mp hsat1 [] hc
        simp at hl
      have hment := atomic_cut_call_mentions hbest hne hnonempty
        (first_unit_none (unit_propagation_loop_no_unit hup)) hcalc hsearch
      exact unit_propagation_loop_sound hup r2.interpretation
        (fun i hi => g6 i (fun heq => hi (heq ▸ hment)) hi) hsat1

theorem final_clamp_late {r : result} {elapsed : Int} (h : elapsed > timeout_ms) :
    final_clamp r elapsed =
      { r with calculation_time := elapsed, satisfiable := false, timed_out := true } := by
  simp only [final_clamp, if_pos h]

theorem final_clamp_in_time {r : result} {elapsed : Int} (h : ¬ elapsed > timeout_ms) :
    final_clamp r elapsed = { r with calculation_time := elapsed } := by
  simp only [final_clamp, if_neg h]

/-- Soundness of `solve`, for every input: a verdict `satisfiable` is returned with an
interpretation under which every input clause holds a true literal. -/
theorem solve_sound_all {input : ClauseSet} {elapsed : Int} {r : result}
    (h : solve (solver input) elapsed = .ok r) (hsat : r.satisfiable = true) :
    ∀ c ∈ input, ∃ lit ∈ c, lit_true r.interpretation lit = true := by
  rcases solve_ok_cases h with ⟨cs, r1, _, hr⟩ | ⟨simplified, r1, r2, hup, hsearch, hr⟩
  · subst hr; simp at hsat
  · by_cases hlate : elapsed > timeout_ms
    · rw [final_clamp_late hlate] at hr
      subst hr; simp at hsat
    · rw [final_clamp_in_time hlate] at hr
      subst hr
      exact satisfies_iff.mp ((branch_search_fresh hup hsearch).2 hsat)

/-- Without a timeout the verdict and the interpretation do not depend on the clock. -/
theorem solve_in_time {input : ClauseSet} {elapsed : Int} {r0 : result}
    (hin : elapsed ≤ timeout_ms) (h : solve (solver input) 0 = .ok r0) :
    ∃ r, solve (solver input) elapsed = .ok r ∧ r.satisfiable = r0.satisfiable ∧
      r.timed_out = r0.timed_out ∧ r.interpretation = r0.interpretation := by
  have h0 : ¬ (0 : Int) > timeout_ms := by rw [timeout_ms_eq]; omega
  have h1 : ¬ elapsed > timeout_ms := by omega
  simp only [solve] at h ⊢
  split at h
  · exact absurd h (by simp)
  · rename_i cs r1 hup
    simp only [Except.ok.injEq] at h
    subst h
    exact ⟨_, rfl, rfl, rfl, rfl⟩
  · rename_i simplified r1 hup
    split at h
    · exact absurd h (by simp)
    · rename_i r2 hsearch
      simp only [Except.ok.injEq] at h
      subst h
      rw [final_clamp_in_time h0, final_clamp_in_time h1]
      exact ⟨_, rfl, rfl, rfl, rfl⟩

/-! ## The claims about `solve` -/

/-- Claim C1 (soundness): for every clause set whose literals are all nonzero, when
`solve` returns a result with `satisfiable = true`, every clause of the input contains
a literal that is true under the returned interpretation. -/
theorem solve_sound (input : ClauseSet) (elapsed : Int) (r : result)
    (_hnz : nonzero_literals input) (h : solve (solver input) elapsed = .ok r)
    (hsat : r.satisfiable = true) :
    ∀ c ∈ input, ∃ lit ∈ c, lit_true r.interpretation lit = true :=
  solve_sound_all h hsat

theorem solve_sound_witness :
    nonzero_literals [[1, 2], [-1, 2], [1, -2]] ∧
    solve (solver [[1, 2], [-1, 2], [1, -2]]) 0 =
      .ok { satisfiable := true, timed_out := false, num_variables := 2,
            interpretation := [true, true], calculation_time := 0,
            clause_set := [[1, 2], [-1, 2], [1, -2]] } ∧
    ∀ c ∈ ([[1, 2], [-1, 2], [1, -2]] : ClauseSet),
      ∃ lit ∈ c, lit_true [true, true] lit = true :=
  ⟨by decide, rfl,
    solve_sound [[1, 2], [-1, 2], [1, -2]] 0
      { satisfiable := true, timed_out := false, num_variables := 2,
        interpretation := [true, true], calculation_time := 0,
        clause_set := [[1, 2], [-1, 2], [1, -2]] }
      (by decide) rfl rfl⟩

/-- Claim C2 (completeness), refuted by the code: on `{{1, 2}, {1, -2}}` the positive
branch on variable 1 satisfies every clause, which leaves `pos_clauses` empty; the
empty set is read as a failed branch, the negative branch fails, and `solve` answers
`satisfiable = false` without a timeout although the truth table has a model. -/
theorem solve_incomplete :
    solve (solver [[1, 2], [1, -2]]) 0 =
      .ok { satisfiable := false, timed_out := false, num_variables := 2,
            interpretation := [false, true], calculation_time := 0,
            clause_set := [[1, 2], [1, -2]] } ∧
    brute_force_satisfiable 2 [[1, 2], [1, -2]] = true ∧
    satisfies [true, false] [[1, 2], [1, -2]] = true :=
  ⟨rfl, rfl, rfl⟩

/-- Claim C3, refuted by the code on the input `{{}}`: the variable count is 0, the
heuristic returns variable 1 and `atomic_cut` writes `interpretation[0]` of an empty
vector, so no result with `satisfiable = false` is produced. -/
theorem solve_only_empty_clause (elapsed : Int) :
    (solver [[]]).num_variables = 0 ∧ solve (solver [[]]) elapsed = .error .out_of_bounds :=
  ⟨rfl, rfl⟩

/-- Claim C4: on the empty clause set the initial propagation changes nothing, the
search does not branch, and before the deadline `solve` returns `satisfiable = true`,
`timed_out = false`, variable count 0 and the empty interpretation. -/
theorem solve_empty_clause_set (elapsed : Int) (hin : elapsed ≤ timeout_ms) :
    unit_propagation (solver []).clause_set (solver []) = .ok (true, [], solver []) ∧
    (∀ r, branch_search [] r = .ok r) ∧
    solve (solver []) elapsed =
      .ok { satisfiable := true, timed_out := false, num_variables := 0,
            interpretation := [], calculation_time := elapsed, clause_set := [] } := by
  refine ⟨rfl, fun _ => rfl, ?_⟩
  have h1 : ¬ elapsed > timeout_ms := by omega
  have h2 : solve (solver []) elapsed = .ok (final_clamp (solver []) elapsed) := rfl
  rw [h2, final_clamp_in_time h1]
  rfl

theorem solve_empty_clause_set_witness :
    (7 : Int) ≤ timeout_ms ∧
    unit_propagation (solver []).clause_set (solver []) = .ok (true, [], solver []) ∧
    (∀ r, branch_search [] r = .ok r) ∧
    solve (solver []) 7 =
      .ok { satisfiable := true, timed_out := false, num_variables := 0,
            interpretation := [], calculation_time := 7, clause_set := [] } :=
  ⟨by decide, solve_empty_clause_set 7 (by decide)⟩

/-- Claim C5 (result invariant): whatever the input and the clock reading, a result
returned by `solve` on a freshly constructed solver with `timed_out = true` has
`satisfiable = false`. -/
theorem solve_timed_out_unsat (input : ClauseSet) (elapsed : Int) (r : result)
    (h : solve (solver input) elapsed = .ok r) (hto : r.timed_out = true) :
    r.satisfiable = false := by
  rcases solve_ok_cases h with ⟨cs, r1, _, hr⟩ | ⟨simplified, r1, r2, hup, hsearch, hr⟩
  · subst hr; rfl
  · by_cases hlate : elapsed > timeout_ms
    · rw [final_clamp_late hlate] at hr
      subst hr; rfl
    · rw [final_clamp_in_time hlate] at hr
      subst hr
      have := (branch_search_fresh hup hsearch).1
      simp only at hto
      rw [this] at hto
      exact absurd hto (by simp)

theorem solve_timed_out_unsat_witness :
    solve (solver [[1, 2]]) 40000 =
      .ok { satisfiable := false, timed_out := true, num_variables := 2,
            interpretation := [false, true], calculation_time := 40000,
            clause_set := [[1, 2]] } ∧
    ({ satisfiable := false, timed_out := true, num_variables := 2,
       interpretation := [false, true], calculation_time := 40000,
       clause_set := [[1, 2]] } : result).satisfiable = false :=
  ⟨rfl, solve_timed_out_unsat [[1, 2]] 40000
      { satisfiable := false, timed_out := true, num_variables := 2,
        interpretation := [false, true], calculation_time := 40000,
        clause_set := [[1, 2]] } rfl rfl⟩

set_option maxRecDepth 4096 in
/-- Claim C6 (test battery): before the deadline `solve` returns `satisfiable = true`
on each of the five instances of `satisfiable_cases` and `satisfiable = false` on each
of the four instances of `unsatisfiable_cases`, never with `timed_out`. -/
theorem solve_test_battery (elapsed : Int) (hin : elapsed ≤ timeout_ms) :
    (∀ inst ∈ satisfiable_cases, ∃ r, solve (solver inst) elapsed = .ok r ∧
      r.satisfiable = true ∧ r.timed_out = false) ∧
    (∀ inst ∈ unsatisfiable_cases, ∃ r, solve (solver inst) elapsed = .ok r ∧
      r.satisfiable = false ∧ r.timed_out = false) := by
  have key : ∀ (inst : ClauseSet) (r0 : result), solve (solver inst) 0 = .ok r0 →
      ∃ r, solve (solver inst) elapsed = .ok r ∧ r.satisfiable = r0.satisfiable ∧
        r.timed_out = r0.timed_out := by
    intro inst r0 h0
    obtain ⟨r, h1, h2, h3, _⟩ := solve_in_time hin h0
    exact ⟨r, h1, h2, h3⟩
  constructor
  · intro inst hinst
    simp only [satisfiable_cases, List.mem_cons, List.mem_singleton, List.not_mem_nil,
      or_false] at hinst
    rcases hinst with h | h | h | h | h <;> subst h
    · exact key [[1]]
        { satisfiable := true, timed_out := false, num_variables := 1,
          interpretation := [true], calculation_time := 0, clause_set := [[1]] } rfl
    · exact key [[1], [2]]
        { satisfiable := true, timed_out := false, num_variables := 2,
          interpretation := [true, true], calculation_time := 0,
          clause_set := [[1], [2]] } rfl
    · exact key [[1, 2]]
        { satisfiable := true, timed_out := false, num_variables := 2,
          interpretation := [false, true], calculation_time := 0,
          clause_set := [[1, 2]] } rfl
    · exact key [[1, 2], [-1, 2], [1, -2]]
        { satisfiable := true, timed_out := false, num_variables := 2,
          interpretation := [true, true], calculation_time := 0,
          clause_set := [[1, 2], [-1, 2], [1, -2]] } rfl
    · exact key [[1, 2], [-1, 3], [-2, -3], [1, -3], [-1, 2, 3]]
        { satisfiable := true, timed_out := false, num_variables := 3,
          interpretation := [true, false, true], calculation_time := 0,
          clause_set := [[1, 2], [-1, 3], [-2, -3], [1, -3], [-1, 2, 3]] } rfl
  · intro inst hinst
    simp only [unsatisfiable_cases, List.mem_cons, List.mem_singleton, List.not_mem_nil,
      or_false] at hinst
    rcases hinst with h | h | h | h <;> subst h
    · exact key [[1], [-1]]
        { satisfiable := false, timed_out := false, num_variables := 1,
          interpretation := [true], calculation_time := 0, clause_set := [[1], [-1]] } rfl
    · exact key [[1], [-1, 2], [-2]]
        { satisfiable := false, timed_out := false, num_variables := 2,
          interpretation := [true, true], calculation_time := 0,
          clause_set := [[1], [-1, 2], [-2]] } rfl
    · exact key [[1, 2], [-1, 2], [1, -2], [-1, -2]]
        { satisfiable := false, timed_out := false, num_variables := 2,
          interpretation := [false, true], calculation_time := 0,
          clause_set := [[1, 2], [-1, 2], [1, -2], [-1, -2]] } rfl
    · exact key [[1, 2], [3, 4], [5, 6], [-1, -3], [-1, -5], [-3, -5], [-2, -4], [-2, -6],
          [-4, -6]]
        { satisfiable := false, timed_out := false, num_variables := 6,
          interpretation := [false, true, true, false, false, true], calculation_time := 0,
          clause_set := [[1, 2], [3, 4], [5, 6], [-1, -3], [-1, -5], [-3, -5], [-2, -4],
            [-2, -6], [-4, -6]] } rfl

theorem solve_test_battery_witness :
    (0 : Int) ≤ timeout_ms ∧
    (∀ inst ∈ satisfiable_cases, ∃ r, solve (solver inst) 0 = .ok r ∧
      r.satisfiable = true ∧ r.timed_out = false) ∧
    (∀ inst ∈ unsatisfiable_cases, ∃ r, solve (solver inst) 0 = .ok r ∧
      r.satisfiable = false ∧ r.timed_out = false) :=
  ⟨by decide, solve_test_battery 0 (by decide)⟩

/-- Claim C8: when the initial unit propagation reaches a contradiction, `solve`
returns at once the state left by the propagation with `satisfiable = false`; the search
and the timing update are skipped, so `timed_out` is `false` and the elapsed time `0`,
whatever the clock reads. -/
theorem solve_propagation_contradiction (input : ClauseSet) (elapsed : Int)
    (cs : ClauseSet) (r1 : result)
    (hup : unit_propagation (solver input).clause_set (solver input) = .ok (false, cs, r1)) :
    solve (solver input) elapsed = .ok { r1 with satisfiable := false } ∧
      r1.timed_out = false ∧ r1.calculation_time = 0 := by
  refine ⟨by simp only [solve, hup], ?_, ?_⟩
  · unfold unit_propagation at hup
    rw [(unit_propagation_loop_fields hup).2.1]; rfl
  · unfold unit_propagation at hup
    rw [(unit_propagation_loop_fields hup).2.2.2.1]; rfl

theorem solve_propagation_contradiction_witness :
    unit_propagation (solver [[1], [-1, 2], [-2]]).clause_set (solver [[1], [-1, 2], [-2]]) =
      .ok (false, [[2], [-2]],
        { satisfiable := true, timed_out := false, num_variables := 2,
          interpretation := [true, true], calculation_time := 0,
          clause_set := [[1], [-1, 2], [-2]] }) ∧
    solve (solver [[1], [-1, 2], [-2]]) 31000 =
      .ok { satisfiable := false, timed_out := false, num_variables := 2,
            interpretation := [true, true], calculation_time := 0,
            clause_set := [[1], [-1, 2], [-2]] } ∧
    ({ satisfiable := true, timed_out := false, num_variables := 2,
       interpretation := [true, true], calculation_time := 0,
       clause_set := [[1], [-1, 2], [-2]] } : result).timed_out = false ∧
    ({ satisfiable := true, timed_out := false, num_variables := 2,
       interpretation := [true, true], calculation_time := 0,
       clause_set := [[1], [-1, 2], [-2]] } : result).calculation_time = 0 :=
  ⟨rfl, solve_propagation_contradiction [[1], [-1, 2], [-2]] 31000 [[2], [-2]]
      { satisfiable := true, timed_out := false, num_variables := 2,
        interpretation := [true, true], calculation_time := 0,
        clause_set := [[1], [-1, 2], [-2]] } rfl⟩

/-- Claim C9 (final clamp): when the initial propagation does not fail and the search
ends in state `r2`, a reading above 30 seconds makes `solve` return
`satisfiable = false` and `timed_out = true`; otherwise `solve` returns `r2` with only
the elapsed time filled in. -/
theorem solve_final_clamp (input : ClauseSet) (elapsed : Int) (simplified : ClauseSet)
    (r1 r2 : result)
    (hup : unit_propagation (solver input).clause_set (solver input) =
      .ok (true, simplified, r1))
    (hsearch : branch_search simplified r1 = .ok r2) :
    ∃ r, solve (solver input) elapsed = .ok r ∧
      (elapsed > 30000 → r.satisfiable = false ∧ r.timed_out = true) ∧
      (¬ elapsed > 30000 → r = { r2 with calculation_time := elapsed }) := by
  refine ⟨final_clamp r2 elapsed, by simp only [solve, hup, hsearch], ?_, ?_⟩
  · intro hlate
    rw [final_clamp_late (by rw [timeout_ms_eq]; exact hlate)]
    exact ⟨rfl, rfl⟩
  · intro hin
    rw [final_clamp_in_time (by rw [timeout_ms_eq]; exact hin)]

theorem solve_final_clamp_witness :
    unit_propagation (solver [[1, 2]]).clause_set (solver [[1, 2]]) =
      .ok (true, [[1, 2]], solver [[1, 2]]) ∧
    branch_search [[1, 2]] (solver [[1, 2]]) =
      .ok { satisfiable := true, timed_out := false, num_variables := 2,
            interpretation := [false, true], calculation_time := 0,
            clause_set := [[1, 2]] } ∧
    ∃ r, solve (solver [[1, 2]]) 30001 = .ok r ∧
      ((30001 : Int) > 30000 → r.satisfiable = false ∧ r.timed_out = true) ∧
      (¬ (30001 : Int) > 30000 →
        r = { satisfiable := true, timed_out := false, num_variables := 2,
              interpretation := [false, true], calculation_time := 30001,
              clause_set := [[1, 2]] }) :=
  ⟨rfl, rfl, solve_final_clamp [[1, 2]] 30001 [[1, 2]] (solver [[1, 2]])
      { satisfiable := true, timed_out := false, num_variables := 2,
        interpretation := [false, true], calculation_time := 0,
        clause_set := [[1, 2]] } rfl rfl⟩

/-- Claim C10 (entry deadline check), refuted by the code: `atomic_cut` does not read
the clock, it compares `result_.calculation_time`, which the constructor sets to 0 and
only the end of `solve` updates.  On `{{1, 2}}` the call made by the search therefore
assigns variable 1 and explores both branches however late it is entered; with 31
seconds on the clock only the final check of `solve` reports the timeout. -/
theorem atomic_cut_ignores_clock :
    (solver [[1, 2]]).calculation_time = 0 ∧
    atomic_cut 3 1 [[1, 2]] (solver [[1, 2]]) =
      .ok { satisfiable := true, timed_out := false, num_variables := 2,
            interpretation := [false, true], calculation_time := 0,
            clause_set := [[1, 2]] } ∧
    solve (solver [[1, 2]]) 31000 =
      .ok { satisfiable := false, timed_out := true, num_variables := 2,
            interpretation := [false, true], calculation_time := 31000,
            clause_set := [[1, 2]] } :=
  ⟨rfl, rfl, rfl⟩

/-! ## Index ranges -/

theorem foldr_max_zero : ∀ (xs : List Nat) (a : Nat),
    xs.foldr max a = max (xs.foldr max 0) a := by
  intro xs
  induction xs with
  | nil => intro a; simp
  | cons x xs ih =>
    intro a
    simp only [List.foldr_cons, ih a]
    omega

theorem le_foldr_max : ∀ (xs : List Nat), ∀ x ∈ xs, x ≤ xs.foldr max 0 := by
  intro xs
  induction xs with
  | nil => intro x hx; simp at hx
  | cons y ys ih =>
    intro x hx
    simp only [List.foldr_cons]
    rcases List.mem_cons.mp hx with h | h
    · subst h; omega
    · have := ih x h; omega

/-- One step of line 15 on a count of at most `INT_MAX`: the count becomes the larger
of itself and the 32-bit `std::abs(lit)`, a negative value counting for nothing. -/
theorem count_step {m : Nat} (hm : m ≤ 2147483647) (lit : Int) :
    to_size_t (max (wrap_int (m : Int)) (abs_int lit)) = max m (abs_int lit).toNat ∧
    to_size_t (max (wrap_int (m : Int)) (abs_int lit)) ≤ 2147483647 := by
  have h1 : wrap_int (m : Int) = m := wrap_int_of_range (by omega) (by omega)
  have h2 := wrap_int_range |lit|
  rw [h1]
  unfold abs_int to_size_t
  omega

theorem clause_max_eq : ∀ (c : Clause) (m : Nat), m ≤ 2147483647 →
    c.foldl (fun m lit => to_size_t (max (wrap_int (m : Int)) (abs_int lit))) m =
      max m ((c.map (fun lit => (abs_int lit).toNat)).foldr max 0) ∧
    c.foldl (fun m lit => to_size_t (max (wrap_int (m : Int)) (abs_int lit))) m ≤
      2147483647 := by
  intro c
  induction c with
  | nil => intro m hm; simpa using hm
  | cons l rest ih =>
    intro m hm
    obtain ⟨e1, e2⟩ := count_step hm l
    obtain ⟨h1, h2⟩ := ih _ e2
    simp only [List.foldl_cons, List.map_cons, List.foldr_cons]
    refine ⟨?_, h2⟩
    rw [h1, e1]
    omega

theorem clause_set_max_eq : ∀ (cs : ClauseSet) (n : Nat), n ≤ 2147483647 →
    cs.foldl (fun n clause =>
        clause.foldl (fun m lit => to_size_t (max (wrap_int (m : Int)) (abs_int lit))) n) n =
      max n ((cs.flatten.map (fun lit => (abs_int lit).toNat)).foldr max 0) ∧
    cs.foldl (fun n clause =>
        clause.foldl (fun m lit => to_size_t (max (wrap_int (m : Int)) (abs_int lit))) n) n ≤
      2147483647 := by
  intro cs
  induction cs with
  | nil => intro n hn; simpa using hn
  | cons c rest ih =>
    intro n hn
    obtain ⟨e1, e2⟩ := clause_max_eq c n hn
    obtain ⟨h1, h2⟩ := ih _ e2
    rw [List.foldl_cons]
    refine ⟨?_, h2⟩
    rw [h1, e1]
    simp only [List.flatten_cons, List.map_append, List.foldr_append]
    rw [foldr_max_zero (c.map (fun lit => (abs_int lit).toNat))
      ((rest.flatten.map (fun lit => (abs_int lit).toNat)).foldr max 0)]
    omega

/-- The variable count computed by the constructor is the largest 32-bit magnitude
`std::abs(lit)` of a literal, negative values left out, and `0` without a literal. -/
theorem solver_num_variables_eq (input : ClauseSet) :
    (solver input).num_variables =
      (input.flatten.map (fun lit => (abs_int lit).toNat)).foldr max 0 := by
  have := (clause_set_max_eq input 0 (by omega)).1
  simp only [solver]
  rw [this]
  omega

/-- The constructor never counts more than `INT_MAX` variables. -/
theorem solver_num_variables_le (input : ClauseSet) :
    (solver input).num_variables ≤ 2147483647 :=
  (clause_set_max_eq input 0 (by omega)).2

/-- On literals of magnitude at most `INT_MAX` the variable count computed by the
constructor bounds every literal magnitude. -/
theorem solver_literals_within {input : ClauseSet} (hw : literals_within 2147483647 input) :
    literals_within (solver input).num_variables input := by
  intro c hc lit hl
  refine ⟨(hw c hc lit hl).1, ?_⟩
  rw [solver_num_variables_eq]
  have hmem : (abs_int lit).toNat ∈ input.flatten.map (fun lit => (abs_int lit).toNat) :=
    List.mem_map.mpr ⟨lit, List.mem_flatten.mpr ⟨c, hc, hl⟩, rfl⟩
  have := le_foldr_max _ _ hmem
  rw [abs_int_of_le (hw c hc lit hl).2] at this
  omega

theorem simplify_clauses_within {s f : Int} {cs cs1 : ClauseSet} {n : Nat}
    (h : simplify_clauses s f cs = some cs1) (hw : literals_within n cs) :
    literals_within n cs1 := by
  intro c1 hc1 lit hl
  obtain ⟨_, c, hc, _, heq⟩ := simplify_clauses_mem h c1 hc1
  subst heq
  exact hw c hc lit (List.mem_filter.mp hl).1

theorem simplify_clauses_size_le {s f : Int} : ∀ {cs cs1 : ClauseSet},
    simplify_clauses s f cs = some cs1 →
    (cs1.map List.length).sum ≤ (cs.map List.length).sum := by
  intro cs
  induction cs with
  | nil =>
    intro cs1 h
    simp only [simplify_clauses, Option.some.injEq] at h
    subst h
    simp
  | cons c rest ih =>
    intro cs1 h
    simp only [simplify_clauses] at h
    split at h
    · have := ih h
      simp only [List.map_cons, List.sum_cons]
      omega
    · split at h
      · exact absurd h (by simp)
      · split at h
        · exact absurd h (by simp)
        · rename_i new_clauses hrest
          simp only [Option.some.injEq] at h
          subst h
          have h1 := ih hrest
          have h2 := @List.length_filter_le _ (fun lit => lit != f) c
          simp only [List.map_cons, List.sum_cons]
          omega

theorem simplify_clauses_size {s f : Int} {cs cs1 : ClauseSet}
    (h : simplify_clauses s f cs = some cs1) (hw : size_within cs) :
    size_within cs1 := by
  have h1 := simplify_clauses_size_le h
  have h2 : (cs.map List.length).sum ≤ 2147483647 := hw
  exact le_trans h1 h2

theorem unit_propagation_loop_within {fuel n : Nat} {cs cs2 : ClauseSet} {r r2 : result}
    {b : Bool} (h : unit_propagation_loop fuel cs r = .ok (b, cs2, r2))
    (hw : literals_within n cs) : literals_within n cs2 := by
  refine unit_propagation_loop_cases
    (fun cs _ _ cs2 _ => literals_within n cs → literals_within n cs2)
    ?_ ?_ ?_ fuel cs r b cs2 r2 h hw
  · intro cs r _ h0; exact h0
  · intro cs r u _ _ _ _ h0; exact h0
  · intro _ cs r u cs1 b cs2 r2 _ _ _ hs _ ih h0
    exact ih (simplify_clauses_within hs h0)

theorem unit_propagation_loop_size {fuel : Nat} {cs cs2 : ClauseSet} {r r2 : result}
    {b : Bool} (h : unit_propagation_loop fuel cs r = .ok (b, cs2, r2))
    (hw : size_within cs) : size_within cs2 := by
  refine unit_propagation_loop_cases
    (fun cs _ _ cs2 _ => size_within cs → size_within cs2)
    ?_ ?_ ?_ fuel cs r b cs2 r2 h hw
  · intro cs r _ h0; exact h0
  · intro cs r u _ _ _ _ h0; exact h0
  · intro _ cs r u cs1 b cs2 r2 _ _ _ hs _ ih h0
    exact ih (simplify_clauses_size hs h0)

/-- With every literal inside the interpretation vector the propagation loop returns. -/
theorem unit_propagation_loop_returns {n : Nat} : ∀ (fuel : Nat) (cs : ClauseSet) (r : result),
    cs.length < fuel → literals_within n cs → r.interpretation.length = n →
    ∃ out, unit_propagation_loop fuel cs r = .ok out := by
  intro fuel
  induction fuel with
  | zero => intro cs r hlen; omega
  | succ fuel ih =>
    intro cs r hlen hw hI
    simp only [unit_propagation_loop]
    split
    · exact ⟨_, rfl⟩
    · rename_i u hu
      obtain ⟨hu0, hule⟩ := hw [u] (first_unit_some hu) u (by simp)
      rw [write_interpretation_of_le _ hu0 (by omega)]
      simp only
      split
      · exact ⟨_, rfl⟩
      · rename_i cs1 hs
        have hlt := simplify_clauses_length_lt hs ⟨[u], first_unit_some hu, by simp⟩
        exact ih _ _ (by omega) (simplify_clauses_within hs hw) (by simpa using hI)

theorem unit_propagation_returns {n : Nat} {cs : ClauseSet} {r : result}
    (hw : literals_within n cs) (hI : r.interpretation.length = n) :
    ∃ b cs2 r2, unit_propagation cs r = .ok (b, cs2, r2) := by
  obtain ⟨⟨b, cs2, r2⟩, h⟩ :=
    unit_propagation_loop_returns (cs.length + 1) cs r (Nat.lt_succ_self _) hw hI
  exact ⟨b, cs2, r2, h⟩

/-! ## Distinct variables and the depth of the recursion -/

theorem mem_clause_set_variables {cs : ClauseSet} {v : Nat} :
    v ∈ clause_set_variables cs ↔ mentions cs v := by
  simp only [clause_set_variables, List.mem_toFinset, List.mem_map, List.mem_flatten, mentions]
  constructor
  · rintro ⟨lit, ⟨c, hc, hl⟩, hv⟩
    exact ⟨c, hc, lit, hl, hv⟩
  · rintro ⟨c, hc, lit, hl, hv⟩
    exact ⟨lit, ⟨c, hc, hl⟩, hv⟩

/-- Losing a variable and gaining none lowers the number of distinct variables. -/
theorem num_distinct_variables_lt {cs cs1 : ClauseSet} {x : Nat}
    (hsub : ∀ v, mentions cs1 v → mentions cs v) (hx : mentions cs x)
    (hx1 : ¬ mentions cs1 x) : num_distinct_variables cs1 < num_distinct_variables cs := by
  apply Finset.card_lt_card
  rw [Finset.ssubset_iff_of_subset]
  · exact ⟨x, mem_clause_set_variables.mpr hx, fun h => hx1 (mem_clause_set_variables.mp h)⟩
  · intro v hv
    exact mem_clause_set_variables.mpr (hsub v (mem_clause_set_variables.mp hv))

theorem num_distinct_variables_le {cs : ClauseSet} {n : Nat} (hw : literals_within n cs) :
    num_distinct_variables cs ≤ n := by
  have hsub : clause_set_variables cs ⊆ Finset.Icc 1 n := by
    intro v hv
    obtain ⟨c, hc, lit, hl, hv⟩ := mem_clause_set_variables.mp hv
    obtain ⟨h0, hle⟩ := hw c hc lit hl
    rw [Finset.mem_Icc]
    omega
  have := Finset.card_le_card hsub
  simpa [num_distinct_variables] using this

/-- The call site of lines 125-126 and 181-182: after a branch assignment and a
successful propagation that leaves clauses, the heuristic finds a variable and the
recursive call, made on fewer distinct variables, returns. -/
theorem recursive_call_returns {n fuel : Nat} {s f v : Int} {cs sub sub1 : ClauseSet}
    {r r2 : result} {k : Nat}
    (ih : ∀ (nv : Int) (cs0 : ClauseSet) (r0 : result), literals_within n cs0 →
      size_within cs0 → r0.num_variables = n → r0.interpretation.length = n → 0 < nv →
      nv.natAbs ≤ n → ([] ∈ cs0 ∨ mentions cs0 nv.natAbs) →
      num_distinct_variables cs0 < fuel → ∃ r3, atomic_cut fuel nv cs0 r0 = .ok r3)
    (hsimp : simplify_clauses s f cs = some sub) (hf : f = -s) (hsv : s.natAbs = v.natAbs)
    (hment : mentions cs v.natAbs)
    (hup : unit_propagation_loop k sub r = .ok (true, sub1, r2)) (hne : sub1 ≠ [])
    (hw : literals_within n cs) (hlen : size_within cs)
    (hn : r.num_variables = n) (hI : r.interpretation.length = n) (hpos : 0 < n)
    (hfuel : num_distinct_variables cs < fuel + 1) :
    ∃ nv r3, find_most_frequent_variable r2.num_variables sub1 = .ok nv ∧
      atomic_cut fuel nv sub1 r2 = .ok r3 := by
  obtain ⟨_, _, f3, _, _, f6⟩ := unit_propagation_loop_fields hup
  have hw1 : literals_within n sub1 :=
    unit_propagation_loop_within hup (simplify_clauses_within hsimp hw)
  have hlen1 : size_within sub1 :=
    unit_propagation_loop_size hup (simplify_clauses_size hsimp hlen)
  have hnonempty : ∀ c ∈ sub1, c ≠ [] :=
    unit_propagation_loop_nonempty hup (simplify_clauses_nonempty hsimp)
  obtain ⟨nv, hnv⟩ := @find_most_frequent_variable_ok r2.num_variables sub1
    (by rw [f3, hn]; exact hw1)
  obtain ⟨c0, hc0⟩ := List.exists_mem_of_ne_nil sub1 hne
  have hmnv := find_most_frequent_variable_mentions hnv hnonempty
      ⟨c0, hc0, size_within_lengths hlen1 c0 hc0⟩ hlen1
  have hsub : ∀ x, mentions sub1 x → mentions cs x := fun x hx =>
    simplify_clauses_mentions hsimp (unit_propagation_loop_mentions hup _ hx)
  have helim : ¬ mentions sub1 v.natAbs := by
    intro hq
    have := unit_propagation_loop_mentions hup _ hq
    rw [← hsv] at this
    exact simplify_clauses_eliminates hsimp hf this
  have hlt := num_distinct_variables_lt hsub hment helim
  have hnvle : nv.natAbs ≤ n := by
    have := find_most_frequent_variable_le hnv (by rw [f3, hn]; exact hpos)
    rw [f3, hn] at this
    exact this
  obtain ⟨r3, hr3⟩ := ih nv sub1 r2 hw1 hlen1 (by rw [f3, hn]) (by rw [f6, hI])
    (find_most_frequent_variable_pos hnv) hnvle (Or.inr hmnv) (by omega)
  exact ⟨nv, r3, hnv, hr3⟩

theorem simplify_clauses_of_empty_clause {s f : Int} {cs : ClauseSet} (h : [] ∈ cs) :
    simplify_clauses s f cs = none :=
  simplify_clauses_none.mpr ⟨[], h, by simp, rfl⟩

theorem positive_branch_returns {n fuel : Nat} {v : Int} {cs : ClauseSet} {r : result}
    (ih : ∀ (nv : Int) (cs0 : ClauseSet) (r0 : result), literals_within n cs0 →
      size_within cs0 → r0.num_variables = n → r0.interpretation.length = n → 0 < nv →
      nv.natAbs ≤ n → ([] ∈ cs0 ∨ mentions cs0 nv.natAbs) →
      num_distinct_variables cs0 < fuel → ∃ r3, atomic_cut fuel nv cs0 r0 = .ok r3)
    (hw : literals_within n cs) (hlen : size_within cs)
    (hn : r.num_variables = n) (hI : r.interpretation.length = n) (hpos : 0 < n)
    (hment : [] ∈ cs ∨ mentions cs v.natAbs)
    (hfuel : num_distinct_variables cs < fuel + 1) :
    ∃ out, positive_branch (atomic_cut fuel) v cs r = .ok out := by
  simp only [positive_branch]
  split
  · exact ⟨_, rfl⟩
  · rename_i hposne
    cases hsimp : simplify_clauses v (-v) cs with
    | none => rw [hsimp] at hposne; simp at hposne
    | some pos =>
      simp only [Option.getD_some]
      have hment1 : mentions cs v.natAbs := by
        rcases hment with h0 | h0
        · rw [simplify_clauses_of_empty_clause h0] at hsimp
          exact absurd hsimp (by simp)
        · exact h0
      obtain ⟨b, pos1, r2, hup⟩ :=
        unit_propagation_returns (simplify_clauses_within hsimp hw) hI
      rw [hup]
      cases b with
      | false => exact ⟨_, rfl⟩
      | true =>
        simp only
        split
        · exact ⟨_, rfl⟩
        · rename_i hne1
          have hne1 : pos1 ≠ [] := fun h0 => hne1 (List.isEmpty_iff.mpr h0)
          unfold unit_propagation at hup
          obtain ⟨nv, r3, hnv, hr3⟩ := recursive_call_returns ih hsimp rfl rfl hment1 hup
            hne1 hw hlen hn hI hpos hfuel
          rw [hnv]
          simp only [hr3]
          exact ⟨_, rfl⟩

theorem negative_branch_returns {n fuel : Nat} {v : Int} {cs : ClauseSet} {r : result}
    (ih : ∀ (nv : Int) (cs0 : ClauseSet) (r0 : result), literals_within n cs0 →
      size_within cs0 → r0.num_variables = n → r0.interpretation.length = n → 0 < nv →
      nv.natAbs ≤ n → ([] ∈ cs0 ∨ mentions cs0 nv.natAbs) →
      num_distinct_variables cs0 < fuel → ∃ r3, atomic_cut fuel nv cs0 r0 = .ok r3)
    (hw : literals_within n cs) (hlen : size_within cs)
    (hn : r.num_variables = n) (hI : r.interpretation.length = n)
    (hv : 0 < v) (hvle : v.natAbs ≤ n)
    (hment : [] ∈ cs ∨ mentions cs v.natAbs)
    (hfuel : num_distinct_variables cs < fuel + 1) :
    ∃ r3, negative_branch (atomic_cut fuel) v cs r = .ok r3 := by
  simp only [negative_branch]
  rw [write_interpretation_of_le false (by omega) (by omega)]
  simp only
  cases hsimp : simplify_clauses (-v) v cs with
  | none => exact ⟨_, rfl⟩
  | some neg =>
    simp only
    split
    · exact ⟨_, rfl⟩
    · rename_i hne
      have hment1 : mentions cs v.natAbs := by
        rcases hment with h0 | h0
        · rw [simplify_clauses_of_empty_clause h0] at hsimp
          exact absurd hsimp (by simp)
        · exact h0
      obtain ⟨b, neg1, r2, hup⟩ :=
        @unit_propagation_returns n neg
          { r with interpretation := r.interpretation.set (v.natAbs - 1) false }
          (simplify_clauses_within hsimp hw) (by simpa using hI)
      rw [hup]
      cases b with
      | false => exact ⟨_, rfl⟩
      | true =>
        simp only
        split
        · exact ⟨_, rfl⟩
        · rename_i hne1
          have hne1 : neg1 ≠ [] := fun h0 => hne1 (List.isEmpty_iff.mpr h0)
          unfold unit_propagation at hup
          obtain ⟨nv, r3, hnv, hr3⟩ := recursive_call_returns ih hsimp (by simp)
            (Int.natAbs_neg v) hment1 hup hne1 hw hlen (by simpa using hn)
            (by simpa using hI) (by omega) hfuel
          rw [hnv]
          simp only [hr3]
          exact ⟨_, rfl⟩

/-- Termination of `atomic_cut`: with literals inside the index range, at most
`INT_MAX` literal occurrences and a variable that occurs in the clause set (or an empty
clause present), a depth budget above the number of distinct variables is never used up
and the call returns a result. -/
theorem atomic_cut_returns {n : Nat} : ∀ (fuel : Nat) (v : Int) (cs : ClauseSet) (r : result),
    literals_within n cs → size_within cs → r.num_variables = n →
    r.interpretation.length = n → 0 < v → v.natAbs ≤ n →
    ([] ∈ cs ∨ mentions cs v.natAbs) → num_distinct_variables cs < fuel →
    ∃ r3, atomic_cut fuel v cs r = .ok r3 := by
  intro fuel
  induction fuel with
  | zero => intro v cs r _ _ _ _ _ _ _ h; omega
  | succ fuel ih =>
    intro v cs r hw hlen hn hI hv hvle hment hfuel
    simp only [atomic_cut, atomic_cut_body]
    split
    · exact ⟨_, rfl⟩
    · rename_i hcalc
      have hcalc : r.calculation_time ≤ timeout_ms := not_lt.mp hcalc
      rw [write_interpretation_of_le _ (by omega) (by omega)]
      simp only
      obtain ⟨⟨ret, s⟩, hpos⟩ := @positive_branch_returns n fuel v cs
        { r with interpretation := r.interpretation.set (v.natAbs - 1) (decide (v > 0)) }
        ih hw hlen (by simpa using hn) (by simpa using hI) (by omega) hment hfuel
      obtain ⟨p1, _, _, p4, _, _, _⟩ :=
        positive_branch_spec (by exact hcalc) (atomic_cut_spec fuel) hpos
      rw [hpos]
      cases ret with
      | true => exact ⟨_, rfl⟩
      | false =>
        simp only
        exact negative_branch_returns ih hw hlen (by rw [p1]; simpa using hn)
          (by rw [p4]; simpa using hI) hv hvle hment hfuel

/-! ## Termination of `solve` -/

/-- Each unit step removes the unit clause it found: the clause set shrinks. -/
theorem unit_step_shrinks {cs cs1 : ClauseSet} {u : Int} (hu : first_unit cs = some u)
    (hs : simplify_clauses u (-u) cs = some cs1) : cs1.length < cs.length :=
  simplify_clauses_length_lt hs ⟨[u], first_unit_some hu, by simp⟩

/-- The iteration budget of `unit_propagation` is never used up. -/
theorem unit_propagation_terminates (cs : ClauseSet) (r : result) :
    unit_propagation cs r ≠ .error .out_of_fuel := by
  intro h
  have := unit_propagation_error h
  exact absurd this (by decide)

/-- The clause set handed to a recursive call has lost the branch variable. -/
theorem branch_distinct_variables_lt {s f v : Int} {cs sub sub1 : ClauseSet}
    {r r2 : result} {k : Nat} {b : Bool}
    (hsimp : simplify_clauses s f cs = some sub) (hf : f = -s) (hsv : s.natAbs = v.natAbs)
    (hment : mentions cs v.natAbs)
    (hup : unit_propagation_loop k sub r = .ok (b, sub1, r2)) :
    num_distinct_variables sub1 < num_distinct_variables cs := by
  have hsub : ∀ x, mentions sub1 x → mentions cs x := fun x hx =>
    simplify_clauses_mentions hsimp (unit_propagation_loop_mentions hup _ hx)
  have helim : ¬ mentions sub1 v.natAbs := by
    intro hq
    have := unit_propagation_loop_mentions hup _ hq
    rw [← hsv] at this
    exact simplify_clauses_eliminates hsimp hf this
  exact num_distinct_variables_lt hsub hment helim

/-- A call of `atomic_cut` on the variable chosen by the heuristic only recurses on
clause sets with strictly fewer distinct variables: replacing the recursive call by
any function that agrees with it on such clause sets does not change the call.
The clause set is assumed to hold at most `INT_MAX` literal occurrences. -/
theorem atomic_cut_recursion_decreases
    (self1 self2 : Int → ClauseSet → result → Except Fault result)
    (n : Nat) (v : Int) (cs : ClauseSet) (r : result)
    (hv : find_most_frequent_variable n cs = .ok v) (hlen : size_within cs)
    (hagree : ∀ nv cs0 r0, num_distinct_variables cs0 < num_distinct_variables cs →
      self1 nv cs0 r0 = self2 nv cs0 r0) :
    atomic_cut_body self1 v cs r = atomic_cut_body self2 v cs r := by
  have hment : ∀ s f sub, simplify_clauses s f cs = some sub → sub ≠ [] →
      mentions cs v.natAbs := by
    intro s f sub hsimp hsub
    have hnonempty : ∀ c ∈ cs, c ≠ [] := by
      intro c hc h0
      subst h0
      rw [simplify_clauses_of_empty_clause hc] at hsimp
      exact absurd hsimp (by simp)
    have hne : cs ≠ [] := by
      intro h0
      subst h0
      simp only [simplify_clauses, Option.some.injEq] at hsimp
      exact hsub hsimp.symm
    obtain ⟨c0, hc0⟩ := List.exists_mem_of_ne_nil cs hne
    exact find_most_frequent_variable_mentions hv hnonempty
      ⟨c0, hc0, size_within_lengths hlen c0 hc0⟩ hlen
  have hposeq : ∀ r1, positive_branch self1 v cs r1 = positive_branch self2 v cs r1 := by
    intro r1
    simp only [positive_branch]
    split
    · rfl
    · rename_i hposne
      cases hsimp : simplify_clauses v (-v) cs with
      | none => rfl
      | some pos =>
        rw [hsimp] at hposne
        simp only [Option.getD_some] at hposne ⊢
        have hpne : pos ≠ [] := fun h0 => hposne (List.isEmpty_iff.mpr h0)
        cases hup : unit_propagation pos r1 with
        | error e => rfl
        | ok out =>
          obtain ⟨b, pos1, r2⟩ := out
          cases b with
          | false => rfl
          | true =>
            simp only
            split
            · rfl
            · cases hnv : find_most_frequent_variable r2.num_variables pos1 with
              | error e => rfl
              | ok nv =>
                simp only
                unfold unit_propagation at hup
                rw [hagree nv pos1 r2 (branch_distinct_variables_lt hsimp rfl rfl
                  (hment _ _ _ hsimp hpne) hup)]
  have hnegeq : ∀ r1, negative_branch self1 v cs r1 = negative_branch self2 v cs r1 := by
    intro r1
    simp only [negative_branch]
    split
    · rfl
    · rename_i I1 _
      cases hsimp : simplify_clauses (-v) v cs with
      | none => rfl
      | some neg =>
        simp only
        split
        · rfl
        · rename_i hnegne
          have hnne : neg ≠ [] := fun h0 => hnegne (List.isEmpty_iff.mpr h0)
          cases hup : unit_propagation neg { r1 with interpretation := I1 } with
          | error e => rfl
          | ok out =>
            obtain ⟨b, neg1, r2⟩ := out
            cases b with
            | false => rfl
            | true =>
              simp only
              split
              · rfl
              · cases hnv : find_most_frequent_variable r2.num_variables neg1 with
                | error e => rfl
                | ok nv =>
                  simp only
                  unfold unit_propagation at hup
                  exact hagree nv neg1 r2 (branch_distinct_variables_lt hsimp (by simp)
                    (Int.natAbs_neg v) (hment _ _ _ hsimp hnne) hup)
  simp only [atomic_cut_body, hposeq, hnegeq]

/-- Termination of `solve` with a result: for nonzero literals of magnitude at most
`INT_MAX`, at most `INT_MAX` literal occurrences in all, and an input that is empty or
has a literal, `solve` returns. -/
theorem solve_returns (input : ClauseSet) (elapsed : Int)
    (hint : literals_within 2147483647 input)
    (hlen : size_within input) (hlit : input = [] ∨ ∃ c ∈ input, c ≠ []) :
    ∃ r, solve (solver input) elapsed = .ok r := by
  rcases hlit with hlit | ⟨c0, hc0, hc0ne⟩
  · subst hlit
    exact ⟨final_clamp (solver []) elapsed, rfl⟩
  · have hw := solver_literals_within hint
    have hI := (solver_fresh input).2.2.2.2
    have hpos : 0 < (solver input).num_variables := by
      obtain ⟨lit, hl⟩ := List.exists_mem_of_ne_nil c0 hc0ne
      obtain ⟨h0, hle⟩ := hw c0 hc0 lit hl
      omega
    obtain ⟨b, simplified, r1, hup⟩ := unit_propagation_returns hw hI
    have hcs : (solver input).clause_set = input := rfl
    simp only [solve, hcs, hup]
    cases b with
    | false => exact ⟨_, rfl⟩
    | true =>
      simp only
      unfold unit_propagation at hup
      obtain ⟨_, _, f3, _, _, f6⟩ := unit_propagation_loop_fields hup
      have hw1 := unit_propagation_loop_within hup hw
      have hlen1 := unit_propagation_loop_size hup hlen
      have hsearch : ∃ r2, branch_search simplified r1 = .ok r2 := by
        simp only [branch_search]
        split
        · exact ⟨_, rfl⟩
        · rename_i hne
          have hne : simplified ≠ [] := fun h0 => hne (List.isEmpty_iff.mpr h0)
          obtain ⟨best, hbest⟩ := @find_most_frequent_variable_ok r1.num_variables simplified
            (by rw [f3]; exact hw1)
          rw [hbest]
          simp only
          have hble := find_most_frequent_variable_le hbest (by rw [f3]; exact hpos)
          have hment : [] ∈ simplified ∨ mentions simplified best.natAbs := by
            by_cases he : [] ∈ simplified
            · exact Or.inl he
            · right
              obtain ⟨c1, hc1⟩ := List.exists_mem_of_ne_nil simplified hne
              exact find_most_frequent_variable_mentions hbest
                (fun c hc h0 => he (h0 ▸ hc)) ⟨c1, hc1, size_within_lengths hlen1 c1 hc1⟩
                hlen1
          have hd := num_distinct_variables_le hw1
          rw [f3]
          exact atomic_cut_returns _ best simplified r1 hw1 hlen1 f3 (by rw [f6, hI])
            (find_most_frequent_variable_pos hbest) (by rw [f3] at hble; exact hble) hment
            (by omega)
      obtain ⟨r2, hr2⟩ := hsearch
      rw [hr2]
      exact ⟨_, rfl⟩

/-! ## Inputs with an empty clause -/

/-- With an empty clause in its clause set a call of `atomic_cut` does not recurse:
both branches meet the empty clause, and the call returns when its variable is inside
the interpretation vector. -/
theorem atomic_cut_empty_clause_returns {fuel : Nat} {v : Int} {cs : ClauseSet} {r : result}
    (he : [] ∈ cs) (hv : v ≠ 0) (hvle : v.natAbs ≤ r.interpretation.length) :
    ∃ r3, atomic_cut (fuel + 1) v cs r = .ok r3 := by
  simp only [atomic_cut, atomic_cut_body]
  split
  · exact ⟨_, rfl⟩
  · rw [write_interpretation_of_le _ hv hvle]
    simp only [positive_branch, negative_branch, simplify_clauses_of_empty_clause he,
      Option.getD_none, List.isEmpty_nil, if_true]
    rw [write_interpretation_of_le false hv (by simpa using hvle)]
    exact ⟨_, rfl⟩

/-- Every input with an empty clause and at least one literal, its literals nonzero
of magnitude at most `INT_MAX`, is reported unsatisfiable, whatever the clock reads. -/
theorem solve_empty_clause_unsat (input : ClauseSet) (elapsed : Int)
    (hint : literals_within 2147483647 input) (he : [] ∈ input)
    (hlit : ∃ c ∈ input, c ≠ []) :
    ∃ r, solve (solver input) elapsed = .ok r ∧ r.satisfiable = false := by
  have hw := solver_literals_within hint
  have hI := (solver_fresh input).2.2.2.2
  have hpos : 0 < (solver input).num_variables := by
    obtain ⟨c0, hc0, hc0ne⟩ := hlit
    obtain ⟨lit, hl⟩ := List.exists_mem_of_ne_nil c0 hc0ne
    obtain ⟨h0, hle⟩ := hw c0 hc0 lit hl
    omega
  have hret : ∃ r, solve (solver input) elapsed = .ok r := by
    have hcs : (solver input).clause_set = input := rfl
    simp only [solve, hcs, unit_propagation, unit_propagation_loop]
    cases hu : first_unit input with
    | none =>
      simp only
      have hne : input ≠ [] := List.ne_nil_of_mem he
      simp only [branch_search, isEmpty_eq_false_of_ne hne,
        find_most_frequent_variable_empty_clause he]
      obtain ⟨r3, hr3⟩ := @atomic_cut_empty_clause_returns (solver input).num_variables 1
        input (solver input) he (by decide) (by rw [hI]; exact hpos)
      simp only [Bool.false_eq_true, if_false, hr3]
      exact ⟨_, rfl⟩
    | some u =>
      simp only
      obtain ⟨hu0, hule⟩ := hw [u] (first_unit_some hu) u (by simp)
      rw [write_interpretation_of_le _ hu0 (by rw [hI]; exact hule)]
      simp only [simplify_clauses_of_empty_clause he]
      exact ⟨_, rfl⟩
  obtain ⟨r, hr⟩ := hret
  refine ⟨r, hr, ?_⟩
  cases hs : r.satisfiable with
  | false => rfl
  | true =>
    obtain ⟨lit, hl, _⟩ := solve_sound_all hr hs [] he
    simp at hl

/-! ## A clause longer than `INT_MAX` -/

theorem replicate_clause_set_facts (k : Nat) (hk : 2147483647 < k) :
    (∀ c ∈ ([List.replicate k 2] : ClauseSet), 2147483647 < c.length) ∧
      ([List.replicate k 2] : ClauseSet) ≠ [] ∧
      ¬ mentions [List.replicate k 2] 1 ∧ nonzero_literals [List.replicate k 2] := by
  refine ⟨?_, List.cons_ne_nil _ _, ?_, ?_⟩
  · intro c hc
    rw [List.mem_singleton] at hc
    subst hc
    rw [List.length_replicate]
    exact hk
  · rintro ⟨c, hc, lit, hl, hv⟩
    rw [List.mem_singleton] at hc
    subst hc
    have := List.eq_of_mem_replicate hl
    subst this
    exact absurd hv (by decide)
  · intro c hc lit hl
    rw [List.mem_singleton] at hc
    subst hc
    have := List.eq_of_mem_replicate hl
    subst this
    decide

/-- When every clause is longer than `INT_MAX` and variable 1 does not occur, the
heuristic answers variable 1, the positive branch keeps the clause set as it is, and
neither `atomic_cut`, whatever its depth budget, nor `solve` returns a result. -/
theorem atomic_cut_diverges (cs : ClauseSet) (hg : ∀ c ∈ cs, 2147483647 < c.length)
    (hne : cs ≠ []) (hm : ¬ mentions cs 1) :
    find_most_frequent_variable (solver cs).num_variables cs = .ok 1 ∧
    simplify_clauses 1 (-1) cs = some cs ∧
    (∀ fuel, ∃ e, atomic_cut fuel 1 cs (solver cs) = .error e) ∧
    ∀ elapsed, ∃ e, solve (solver cs) elapsed = .error e := by
  have hcalc : (solver cs).calculation_time ≤ timeout_ms := by
    rw [(solver_fresh _).2.2.1, timeout_ms_eq]; omega
  have hunit : first_unit cs = none := by
    apply first_unit_eq_none_of_no_unit
    intro c hc
    have := hg c hc
    omega
  have hnonempty : ∀ c ∈ cs, c ≠ [] := by
    intro c hc h0
    have := hg c hc
    rw [h0] at this
    simp at this
  have hnounit : ∀ c ∈ cs, c.length ≠ 1 := by
    intro c hc
    have := hg c hc
    omega
  have hstuck : ∀ fuel, ∃ e, atomic_cut fuel 1 cs (solver cs) = .error e := fun fuel =>
    atomic_cut_stuck fuel 1 cs (solver cs) hcalc (find_most_frequent_variable_giant hg) hne
      hnonempty hnounit hm
  refine ⟨find_most_frequent_variable_giant hg, ?_, hstuck, ?_⟩
  · apply simplify_clauses_id
    intro c hc
    have hm1 : ¬ mentions cs (1 : Int).natAbs := hm
    have := hg c hc
    refine ⟨?_, (not_mentions_mem hm1 c hc).1, (not_mentions_mem hm1 c hc).2⟩
    intro h0; rw [h0] at this; simp at this
  · intro elapsed
    obtain ⟨e, he⟩ := hstuck ((solver cs).num_variables + 1)
    have hcs : (solver cs).clause_set = cs := rfl
    refine ⟨e, ?_⟩
    simp only [solve, hcs, unit_propagation_no_unit hunit, branch_search,
      isEmpty_eq_false_of_ne hne, find_most_frequent_variable_giant hg, he]
    simp

/-- A single clause of more than `INT_MAX` copies of the literal `2` is an instance:
on it `atomic_cut` re-enters itself on the same clause set. -/
theorem atomic_cut_diverges_on_long_clause (k : Nat) (hk : 2147483647 < k) :
    nonzero_literals [List.replicate k 2] ∧
    simplify_clauses 1 (-1) [List.replicate k 2] = some [List.replicate k 2] ∧
    (∀ fuel, ∃ e,
      atomic_cut fuel 1 [List.replicate k 2] (solver [List.replicate k 2]) = .error e) ∧
    ∀ elapsed, ∃ e, solve (solver [List.replicate k 2]) elapsed = .error e := by
  obtain ⟨h1, h2, h3, h4⟩ := replicate_clause_set_facts k hk
  obtain ⟨_, g2, g3, g4⟩ := atomic_cut_diverges _ h1 h2 h3
  exact ⟨h4, g2, g3, g4⟩

/-- Claim C7 (termination), refuted by the code on the input `{{}}`, whose literals are
vacuously nonzero: propagation succeeds, the heuristic answers variable 1 for a
variable count of 0, and the first statement of `atomic_cut` past the deadline check
writes outside the empty interpretation vector; `solve` returns no result. -/
theorem solve_no_result_without_variables :
    nonzero_literals [[]] ∧
    unit_propagation (solver [[]]).clause_set (solver [[]]) = .ok (true, [[]], solver [[]]) ∧
    find_most_frequent_variable (solver [[]]).num_variables [[]] = .ok 1 ∧
    write_interpretation (solver [[]]).interpretation (|1| - 1) (decide ((1 : Int) > 0)) =
      .error .out_of_bounds ∧
    ∀ (elapsed : Int) (r : result), solve (solver [[]]) elapsed ≠ .ok r := by
  refine ⟨?_, rfl, rfl, rfl, ?_⟩
  · intro c hc lit hl
    simp only [List.mem_singleton] at hc
    subst hc
    simp at hl
  · intro elapsed r h
    have h1 : solve (solver [[]]) elapsed = .error .out_of_bounds := rfl
    rw [h1] at h
    exact absurd h (by simp)

/-! ## Idempotence of unit propagation -/

/-- Claim C13 (idempotence): when `unit_propagation` succeeds, the clause set it leaves
has no clause of length 1, and a second run on that clause set and result succeeds
and changes neither the clause set nor the interpretation (nor any other field). -/
theorem unit_propagation_idempotent (cs cs2 : ClauseSet) (r r2 : result)
    (h : unit_propagation cs r = .ok (true, cs2, r2)) :
    (∀ c ∈ cs2, c.length ≠ 1) ∧ unit_propagation cs2 r2 = .ok (true, cs2, r2) := by
  unfold unit_propagation at h
  have hu := unit_propagation_loop_no_unit h
  exact ⟨first_unit_none hu, unit_propagation_no_unit hu⟩

theorem unit_propagation_idempotent_witness :
    unit_propagation [[1], [-1, 2, 3], [3, 4]] (solver [[1], [-1, 2, 3], [3, 4]]) =
      .ok (true, [[2, 3], [3, 4]],
        { satisfiable := true, timed_out := false, num_variables := 4,
          interpretation := [true, false, false, false], calculation_time := 0,
          clause_set := [[1], [-1, 2, 3], [3, 4]] }) ∧
    (∀ c ∈ ([[2, 3], [3, 4]] : ClauseSet), c.length ≠ 1) ∧
    unit_propagation [[2, 3], [3, 4]]
        { satisfiable := true, timed_out := false, num_variables := 4,
          interpretation := [true, false, false, false], calculation_time := 0,
          clause_set := [[1], [-1, 2, 3], [3, 4]] } =
      .ok (true, [[2, 3], [3, 4]],
        { satisfiable := true, timed_out := false, num_variables := 4,
          interpretation := [true, false, false, false], calculation_time := 0,
          clause_set := [[1], [-1, 2, 3], [3, 4]] }) :=
  ⟨rfl, unit_propagation_idempotent [[1], [-1, 2, 3], [3, 4]] [[2, 3], [3, 4]]
      (solver [[1], [-1, 2, 3], [3, 4]])
      { satisfiable := true, timed_out := false, num_variables := 4,
        interpretation := [true, false, false, false], calculation_time := 0,
        clause_set := [[1], [-1, 2, 3], [3, 4]] } (by rfl)⟩

/-! ## The constructor and the frame of `solve` -/

/-- On literals of magnitude at most `INT_MAX` the variable count computed by the
constructor is the largest literal magnitude. -/
theorem solver_num_variables (input : ClauseSet)
    (h : ∀ c ∈ input, ∀ lit ∈ c, lit.natAbs ≤ 2147483647) :
    (solver input).num_variables = max_literal_magnitude input := by
  rw [solver_num_variables_eq, max_literal_magnitude]
  congr 1
  apply List.map_congr_left
  intro lit hl
  obtain ⟨c, hc, hlc⟩ := List.mem_flatten.mp hl
  rw [abs_int_of_le (h c hc lit hlc)]
  omega

/-- The fields fixed by the constructor are the same in every result of `solve`. -/
theorem solve_frame {input : ClauseSet} {elapsed : Int} {r : result}
    (h : solve (solver input) elapsed = .ok r) :
    r.num_variables = (solver input).num_variables ∧
      r.interpretation.length = (solver input).num_variables ∧ r.clause_set = input := by
  have hI := (solver_fresh input).2.2.2.2
  rcases solve_ok_cases h with ⟨cs, r1, hup, hr⟩ | ⟨simplified, r1, r2, hup, hsearch, hr⟩
  · unfold unit_propagation at hup
    obtain ⟨_, _, f3, _, f5, f6⟩ := unit_propagation_loop_fields hup
    subst hr
    exact ⟨f3, by rw [← hI]; exact f6, f5⟩
  · unfold unit_propagation at hup
    obtain ⟨_, _, f3, _, f5, f6⟩ := unit_propagation_loop_fields hup
    have h2 : r2.num_variables = r1.num_variables ∧
        r2.interpretation.length = r1.interpretation.length ∧ r2.clause_set = r1.clause_set := by
      simp only [branch_search] at hsearch
      split at hsearch
      · simp only [Except.ok.injEq] at hsearch
        subst hsearch
        exact ⟨rfl, rfl, rfl⟩
      · split at hsearch
        · exact absurd hsearch (by simp)
        · rename_i best hbest
          obtain ⟨g1, _, g3, g4, _, _, _⟩ :=
            atomic_cut_spec _ best simplified r1 r2 (find_most_frequent_variable_pos hbest) hsearch
          exact ⟨g1, g4, g3⟩
    obtain ⟨k1, k2, k3⟩ := h2
    have hfc : (final_clamp r2 elapsed).num_variables = r2.num_variables ∧
        (final_clamp r2 elapsed).interpretation = r2.interpretation ∧
        (final_clamp r2 elapsed).clause_set = r2.clause_set := by
      simp only [final_clamp]
      split <;> exact ⟨rfl, rfl, rfl⟩
    subst hr
    refine ⟨by rw [hfc.1, k1, f3], by rw [hfc.2.1, k2, f6, hI], by rw [hfc.2.2, k3, f5]; rfl⟩

/-- Claim C16 as amended (constructor and frame): on an input whose literals have a
magnitude of at most `INT_MAX` the constructor sets the variable count to the maximum
literal magnitude of the input (0 without a literal); it makes the interpretation as
many entries `false` as the variable count and stores the input as the clause set of
the result; a result returned by `solve` has the same variable count, an
interpretation of the same length and the same stored clause set. -/
theorem solver_constructor_frame (input : ClauseSet) :
    ((∀ c ∈ input, ∀ lit ∈ c, lit.natAbs ≤ 2147483647) →
      (solver input).num_variables = max_literal_magnitude input ∧
      (solver input).interpretation = List.replicate (max_literal_magnitude input) false) ∧
    (solver input).interpretation = List.replicate (solver input).num_variables false ∧
    (solver input).clause_set = input ∧
    ∀ (elapsed : Int) (r : result), solve (solver input) elapsed = .ok r →
      r.num_variables = (solver input).num_variables ∧
      r.interpretation.length = (solver input).interpretation.length ∧
      r.clause_set = (solver input).clause_set := by
  refine ⟨fun hint => ⟨solver_num_variables input hint, ?_⟩, rfl, rfl, ?_⟩
  · rw [← solver_num_variables input hint]; rfl
  · intro elapsed r h
    obtain ⟨h1, h2, h3⟩ := solve_frame h
    exact ⟨h1, by rw [h2, (solver_fresh input).2.2.2.2], h3⟩

theorem solver_constructor_frame_witness :
    (∀ c ∈ ([[1, -3], [2]] : ClauseSet), ∀ lit ∈ c, lit.natAbs ≤ 2147483647) ∧
    max_literal_magnitude [[1, -3], [2]] = 3 ∧
    ((solver [[1, -3], [2]]).num_variables = max_literal_magnitude [[1, -3], [2]] ∧
      (solver [[1, -3], [2]]).interpretation =
        List.replicate (max_literal_magnitude [[1, -3], [2]]) false) ∧
    solve (solver [[1, -3], [2]]) 12 =
      .ok { satisfiable := true, timed_out := false, num_variables := 3,
            interpretation := [false, true, false], calculation_time := 12,
            clause_set := [[1, -3], [2]] } ∧
    ({ satisfiable := true, timed_out := false, num_variables := 3,
       interpretation := [false, true, false], calculation_time := 12,
       clause_set := [[1, -3], [2]] } : result).num_variables =
      (solver [[1, -3], [2]]).num_variables ∧
    ({ satisfiable := true, timed_out := false, num_variables := 3,
       interpretation := [false, true, false], calculation_time := 12,
       clause_set := [[1, -3], [2]] } : result).interpretation.length =
      (solver [[1, -3], [2]]).interpretation.length ∧
    ({ satisfiable := true, timed_out := false, num_variables := 3,
       interpretation := [false, true, false], calculation_time := 12,
       clause_set := [[1, -3], [2]] } : result).clause_set =
      (solver [[1, -3], [2]]).clause_set :=
  ⟨by decide, by decide, (solver_constructor_frame [[1, -3], [2]]).1 (by decide), rfl,
    (solver_constructor_frame [[1, -3], [2]]).2.2.2 12
      { satisfiable := true, timed_out := false, num_variables := 3,
        interpretation := [false, true, false], calculation_time := 12,
        clause_set := [[1, -3], [2]] } (by rfl)⟩

/-- Claim C16 as stated fails on the input `{{INT_MIN}}`: the maximum literal magnitude
is `2^31`, but `std::abs(INT_MIN)` computed in `int` is `INT_MIN`, `std::max` keeps
the count `0`, and the interpretation is left without entries. -/
theorem solver_constructor_int_min :
    max_literal_magnitude [[-2147483648]] = 2147483648 ∧
    abs_int (-2147483648) = -2147483648 ∧
    (solver [[-2147483648]]).num_variables = 0 ∧
    (solver [[-2147483648]]).interpretation = [] ∧
    (solver [[-2147483648]]).num_variables ≠ max_literal_magnitude [[-2147483648]] :=
  ⟨by decide, by decide, by decide, by decide, by decide⟩

/-! ## Index safety -/

theorem positive_branch_error {n fuel : Nat} {v : Int} {cs : ClauseSet} {r : result} {e : Fault}
    (ih : ∀ (nv : Int) (cs0 : ClauseSet) (r0 : result) (e0 : Fault), literals_within n cs0 →
      r0.num_variables = n → r0.interpretation.length = n → 0 < nv → nv.natAbs ≤ n →
      atomic_cut fuel nv cs0 r0 = .error e0 → e0 = .out_of_fuel)
    (hw : literals_within n cs) (hn : r.num_variables = n) (hI : r.interpretation.length = n)
    (hpos : 0 < n) (h : positive_branch (atomic_cut fuel) v cs r = .error e) :
    e = .out_of_fuel := by
  simp only [positive_branch] at h
  split at h
  · exact absurd h (by simp)
  · rename_i hposne
    cases hsimp : simplify_clauses v (-v) cs with
    | none => rw [hsimp] at hposne; simp at hposne
    | some pos =>
      rw [hsimp] at h
      simp only [Option.getD_some] at h
      obtain ⟨b, pos1, r2, hup⟩ :=
        unit_propagation_returns (simplify_clauses_within hsimp hw) hI
      rw [hup] at h
      unfold unit_propagation at hup
      obtain ⟨_, _, f3, _, _, f6⟩ := unit_propagation_loop_fields hup
      have hw1 := unit_propagation_loop_within hup (simplify_clauses_within hsimp hw)
      cases b with
      | false => exact absurd h (by simp)
      | true =>
        simp only at h
        split at h
        · exact absurd h (by simp)
        · obtain ⟨nv, hnv⟩ := @find_most_frequent_variable_ok r2.num_variables pos1
            (by rw [f3, hn]; exact hw1)
          rw [hnv] at h
          simp only at h
          split at h
          · rename_i e1 hrec
            simp only [Except.error.injEq] at h
            subst h
            have hle := find_most_frequent_variable_le hnv (by rw [f3, hn]; exact hpos)
            exact ih nv pos1 r2 _ hw1 (by rw [f3, hn]) (by rw [f6, hI])
              (find_most_frequent_variable_pos hnv) (by rw [f3, hn] at hle; exact hle) hrec
          · exact absurd h (by simp)

theorem negative_branch_error {n fuel : Nat} {v : Int} {cs : ClauseSet} {r : result} {e : Fault}
    (ih : ∀ (nv : Int) (cs0 : ClauseSet) (r0 : result) (e0 : Fault), literals_within n cs0 →
      r0.num_variables = n → r0.interpretation.length = n → 0 < nv → nv.natAbs ≤ n →
      atomic_cut fuel nv cs0 r0 = .error e0 → e0 = .out_of_fuel)
    (hw : literals_within n cs) (hn : r.num_variables = n) (hI : r.interpretation.length = n)
    (hv : 0 < v) (hvle : v.natAbs ≤ n)
    (h : negative_branch (atomic_cut fuel) v cs r = .error e) : e = .out_of_fuel := by
  simp only [negative_branch] at h
  rw [write_interpretation_of_le false (by omega) (by omega)] at h
  simp only at h
  cases hsimp : simplify_clauses (-v) v cs with
  | none => rw [hsimp] at h; exact absurd h (by simp)
  | some neg =>
    rw [hsimp] at h
    simp only at h
    split at h
    · exact absurd h (by simp)
    · obtain ⟨b, neg1, r2, hup⟩ :=
        @unit_propagation_returns n neg
          { r with interpretation := r.interpretation.set (v.natAbs - 1) false }
          (simplify_clauses_within hsimp hw) (by simpa using hI)
      rw [hup] at h
      unfold unit_propagation at hup
      obtain ⟨_, _, f3, _, _, f6⟩ := unit_propagation_loop_fields hup
      have hw1 := unit_propagation_loop_within hup (simplify_clauses_within hsimp hw)
      cases b with
      | false => exact absurd h (by simp)
      | true =>
        simp only at h
        split at h
        · exact absurd h (by simp)
        · obtain ⟨nv, hnv⟩ := @find_most_frequent_variable_ok r2.num_variables neg1
            (by rw [f3]; simpa [hn] using hw1)
          rw [hnv] at h
          simp only at h
          have hn2 : r2.num_variables = n := by rw [f3]; simpa using hn
          have hle := find_most_frequent_variable_le hnv (by rw [hn2]; omega)
          exact ih nv neg1 r2 _ hw1 hn2 (by rw [f6]; simpa using hI)
            (find_most_frequent_variable_pos hnv) (by rw [hn2] at hle; exact hle) h

/-- With every literal and the branch variable inside the index range, a call of
`atomic_cut` never leaves the interpretation vector or the frequency table. -/
theorem atomic_cut_in_bounds {n : Nat} : ∀ (fuel : Nat) (v : Int) (cs : ClauseSet)
    (r : result) (e : Fault), literals_within n cs → r.num_variables = n →
    r.interpretation.length = n → 0 < v → v.natAbs ≤ n →
    atomic_cut fuel v cs r = .error e → e = .out_of_fuel := by
  intro fuel
  induction fuel with
  | zero =>
    intro v cs r e _ _ _ _ _ h
    simp only [atomic_cut, Except.error.injEq] at h
    exact h.symm
  | succ fuel ih =>
    intro v cs r e hw hn hI hv hvle h
    simp only [atomic_cut, atomic_cut_body] at h
    split at h
    · exact absurd h (by simp)
    · rename_i hcalc
      have hcalc : r.calculation_time ≤ timeout_ms := not_lt.mp hcalc
      rw [write_interpretation_of_le _ (by omega) (by omega)] at h
      simp only at h
      split at h
      · rename_i e1 hpos
        simp only [Except.error.injEq] at h
        subst h
        exact positive_branch_error ih hw (by simpa using hn) (by simpa using hI)
          (by omega) hpos
      · exact absurd h (by simp)
      · rename_i s hpos
        obtain ⟨p1, _, _, p4, _, _, _⟩ :=
          positive_branch_spec (by exact hcalc) (atomic_cut_spec fuel) hpos
        exact negative_branch_error ih hw (by rw [p1]; simpa using hn)
          (by rw [p4]; simpa using hI) hv hvle h

/-- On an input with nonzero literals of magnitude at most `INT_MAX` that is empty or
has at least one literal, every index used by `solve` lies inside its vector: `solve`
does not fault out of bounds. -/
theorem solve_in_bounds (input : ClauseSet) (elapsed : Int)
    (hint : literals_within 2147483647 input)
    (hlit : input = [] ∨ ∃ c ∈ input, c ≠ []) :
    solve (solver input) elapsed ≠ .error .out_of_bounds := by
  rcases hlit with hlit | ⟨c0, hc0, hc0ne⟩
  · subst hlit
    intro h
    have h1 : solve (solver []) elapsed = .ok (final_clamp (solver []) elapsed) := rfl
    rw [h1] at h
    exact absurd h (by simp)
  · have hw := solver_literals_within hint
    have hI := (solver_fresh input).2.2.2.2
    have hpos : 0 < (solver input).num_variables := by
      obtain ⟨lit, hl⟩ := List.exists_mem_of_ne_nil c0 hc0ne
      obtain ⟨h0, hle⟩ := hw c0 hc0 lit hl
      omega
    obtain ⟨b, simplified, r1, hup⟩ := unit_propagation_returns hw hI
    have hcs : (solver input).clause_set = input := rfl
    intro h
    simp only [solve, hcs, hup] at h
    cases b with
    | false => exact absurd h (by simp)
    | true =>
      simp only at h
      unfold unit_propagation at hup
      obtain ⟨_, _, f3, _, _, f6⟩ := unit_propagation_loop_fields hup
      have hw1 := unit_propagation_loop_within hup hw
      split at h
      · rename_i e1 hsearch
        simp only [Except.error.injEq] at h
        subst h
        simp only [branch_search] at hsearch
        split at hsearch
        · exact absurd hsearch (by simp)
        · obtain ⟨best, hbest⟩ := @find_most_frequent_variable_ok r1.num_variables simplified
            (by rw [f3]; exact hw1)
          rw [hbest] at hsearch
          simp only at hsearch
          have hble := find_most_frequent_variable_le hbest (by rw [f3]; exact hpos)
          have := atomic_cut_in_bounds _ best simplified r1 _ hw1 f3 (by rw [f6, hI])
            (find_most_frequent_variable_pos hbest) (by rw [f3] at hble; exact hble) hsearch
          exact absurd this (by decide)
      · exact absurd h (by simp)

/-- Claim C18 (index safety), refuted by the code on the legal input `{{}}`: the
interpretation vector is empty, the heuristic answers variable 1, and the index
`|1| - 1 = 0` written by `atomic_cut` is not below the variable count 0; the search
reaches the out-of-bounds fault.  One defect with the failures of C3 and C7. -/
theorem interpretation_index_out_of_range :
    nonzero_literals [[]] ∧ (solver [[]]).interpretation = [] ∧
    find_most_frequent_variable (solver [[]]).num_variables [[]] = .ok 1 ∧
    ¬ (|(1 : Int)| - 1 < ((solver [[]]).num_variables : Int)) ∧
    atomic_cut 1 1 [[]] (solver [[]]) = .error .out_of_bounds ∧
    branch_search [[]] (solver [[]]) = .error .out_of_bounds :=
  ⟨by decide, rfl, rfl, by decide, rfl, rfl⟩

/-! ## What the branching heuristic computes -/

theorem minimum_clause_length_le : ∀ (cs : ClauseSet), ∀ c ∈ cs,
    minimum_clause_length cs ≤ c.length := by
  intro cs
  induction cs with
  | nil => intro c hc; simp at hc
  | cons c0 rest ih =>
    intro c hc
    cases rest with
    | nil =>
      simp only [List.mem_singleton] at hc
      subst hc
      simp [minimum_clause_length]
    | cons c1 rest1 =>
      show min c0.length (minimum_clause_length (c1 :: rest1)) ≤ c.length
      rcases List.mem_cons.mp hc with h1 | h1
      · subst h1; omega
      · have := ih c h1
        omega

theorem shortest_length_eq : ∀ (cs : ClauseSet) (a : Nat), cs ≠ [] →
    cs.foldl (fun shortest clause => min shortest clause.length) a =
      min a (minimum_clause_length cs) := by
  intro cs
  induction cs with
  | nil => intro a h; exact absurd rfl h
  | cons c0 rest ih =>
    intro a _
    cases rest with
    | nil => simp [minimum_clause_length]
    | cons c1 rest1 =>
      rw [List.foldl_cons, ih (min a c0.length) (List.cons_ne_nil _ _)]
      show min (min a c0.length) (minimum_clause_length (c1 :: rest1)) =
        min a (min c0.length (minimum_clause_length (c1 :: rest1)))
      omega

/-- With a clause no longer than `INT_MAX` the fold of lines 255-259 is the minimum
clause length. -/
theorem shortest_length_eq_minimum {cs : ClauseSet}
    (hshort : ∃ c ∈ cs, c.length ≤ 2147483647) :
    cs.foldl (fun shortest clause => min shortest clause.length) 2147483647 =
      minimum_clause_length cs := by
  obtain ⟨c, hc, hle⟩ := hshort
  rw [shortest_length_eq cs _ (List.ne_nil_of_mem hc)]
  have := minimum_clause_length_le cs c hc
  omega

theorem occurrences_le_size (cs : ClauseSet) (w : Nat) :
    occurrences cs w ≤ (cs.map List.length).sum := by
  unfold occurrences
  exact le_trans (sum_countP_le_size (fun lit => lit.natAbs == w) _) (size_filter_le _ cs)

/-- Claim C11 as amended: for a clause set with a clause of at most `INT_MAX` literals,
a variable count between 1 and `INT_MAX`, nonzero literals of magnitude at most the
variable count, and no variable with more than `INT_MAX` occurrences inside the
clauses of minimum length, `find_most_frequent_variable` returns a variable id in
`[1, variable_count]` whose tally of occurrences inside the clauses of minimum length
is maximal, and strictly larger than the tally of every smaller id. -/
theorem find_most_frequent_variable_maximises (n : Nat) (cs : ClauseSet)
    (hw : literals_within n cs) (hn : 0 < n) (_hmax : n ≤ 2147483647)
    (hshort : ∃ c ∈ cs, c.length ≤ 2147483647)
    (hocc : ∀ w, occurrences cs w ≤ 2147483647) :
    ∃ v : Nat, find_most_frequent_variable n cs = .ok (v : Int) ∧ 1 ≤ v ∧ v ≤ n ∧
      (∀ w, 1 ≤ w → w ≤ n → occurrences cs w ≤ occurrences cs v) ∧
      (∀ w, 1 ≤ w → w < v → occurrences cs w < occurrences cs v) := by
  obtain ⟨freq, hfreq⟩ := tally_clauses_of_le
    (cs.filter (fun clause => clause.length ==
      cs.foldl (fun shortest clause => min shortest clause.length) 2147483647))
    (List.replicate n 0) (by
      intro c hc lit hl
      rw [List.length_replicate]
      exact hw c (List.mem_filter.mp hc).1 lit hl)
  obtain ⟨hlen, _, _, _⟩ := tally_clauses_spec _ _ _ hfreq
  rw [List.length_replicate] at hlen
  have hne : freq ≠ [] := by
    intro h0; rw [h0] at hlen; simp at hlen; omega
  obtain ⟨hk, hmax, hfirst⟩ := max_element_index_spec freq hne
  have hocc1 : ∀ i, freq.getD i 0 = (occurrences cs (i + 1) : Nat) := by
    intro i
    rw [tally_clauses_zero hfreq i, shortest_length_eq_minimum hshort]
    have h1 : ((cs.filter (fun c => c.length == minimum_clause_length cs)).map
        (fun c => c.countP (fun lit => lit.natAbs == i + 1))).sum ≤ 2147483647 := hocc (i + 1)
    exact wrap_int_of_range (by omega) (by exact_mod_cast h1)
  refine ⟨max_element_index freq + 1, ?_, by omega, by omega, ?_, ?_⟩
  · simp only [find_most_frequent_variable, hfreq]
    rfl
  · intro w hw1 hw2
    have := hmax (w - 1) (by omega)
    rw [hocc1, hocc1] at this
    have e : w - 1 + 1 = w := by omega
    rw [e] at this
    exact_mod_cast this
  · intro w hw1 hwv
    have := hfirst (w - 1) (by omega)
    rw [hocc1, hocc1] at this
    have e : w - 1 + 1 = w := by omega
    rw [e] at this
    exact_mod_cast this

theorem find_most_frequent_variable_maximises_witness :
    literals_within 3 [[1, 2], [-2, 3], [1, 2, 3]] ∧ 0 < 3 ∧ 3 ≤ 2147483647 ∧
    (∃ c ∈ ([[1, 2], [-2, 3], [1, 2, 3]] : ClauseSet), c.length ≤ 2147483647) ∧
    (∀ w, occurrences [[1, 2], [-2, 3], [1, 2, 3]] w ≤ 2147483647) ∧
    find_most_frequent_variable 3 [[1, 2], [-2, 3], [1, 2, 3]] = .ok 2 ∧
    occurrences [[1, 2], [-2, 3], [1, 2, 3]] 2 = 2 ∧
    ∃ v : Nat, find_most_frequent_variable 3 [[1, 2], [-2, 3], [1, 2, 3]] = .ok (v : Int) ∧
      1 ≤ v ∧ v ≤ 3 ∧
      (∀ w, 1 ≤ w → w ≤ 3 →
        occurrences [[1, 2], [-2, 3], [1, 2, 3]] w ≤ occurrences [[1, 2], [-2, 3], [1, 2, 3]] v) ∧
      (∀ w, 1 ≤ w → w < v →
        occurrences [[1, 2], [-2, 3], [1, 2, 3]] w < occurrences [[1, 2], [-2, 3], [1, 2, 3]] v) :=
  ⟨by decide, by decide, by decide, by decide,
    fun w => le_trans (occurrences_le_size _ w) (by decide), rfl, rfl,
    find_most_frequent_variable_maximises 3 [[1, 2], [-2, 3], [1, 2, 3]] (by decide)
      (by decide) (by decide) (by decide)
      (fun w => le_trans (occurrences_le_size _ w) (by decide))⟩

/-- Claim C11 as stated fails on the non-empty clause set `{{}}` with variable count 0,
whose literal condition holds vacuously: the frequency table is empty,
`std::max_element` returns `end`, and the function answers 1, which is no variable id
in `[1, 0]`. -/
theorem find_most_frequent_variable_no_variable :
    ([[]] : ClauseSet) ≠ [] ∧ literals_within 0 [[]] ∧
    find_most_frequent_variable 0 [[]] = .ok 1 ∧
    ¬ ∃ v : Nat, find_most_frequent_variable 0 [[]] = .ok (v : Int) ∧ 1 ≤ v ∧ v ≤ 0 := by
  refine ⟨by decide, by decide, rfl, ?_⟩
  rintro ⟨v, _, h1, h2⟩
  omega

/-- Two clauses of `k` copies of the literal `2`, with `2^31 ≤ 2 * k < 2^32`: the tally
of variable 2 leaves the range of `int`, its 32-bit value is negative, and
`std::max_element` lands on the entry of variable 1, which has no occurrence. -/
theorem tally_overflow_call (k : Nat) (hk1 : 1073741824 ≤ k) (hk2 : k ≤ 2147483647) :
    literals_within 2 [List.replicate k 2, List.replicate k 2] ∧
    occurrences [List.replicate k 2, List.replicate k 2] 1 = 0 ∧
    occurrences [List.replicate k 2, List.replicate k 2] 2 = 2 * k ∧
    find_most_frequent_variable 2 [List.replicate k 2, List.replicate k 2] = .ok 1 := by
  have hw : literals_within 2 [List.replicate k 2, List.replicate k 2] := by
    intro c hc lit hl
    have hc1 : c = List.replicate k 2 := by
      rcases List.mem_cons.mp hc with h | h
      · exact h
      · exact List.mem_singleton.mp h
    subst hc1
    have := List.eq_of_mem_replicate hl
    subst this
    decide
  have hmin : minimum_clause_length [List.replicate k (2 : Int), List.replicate k 2] = k := by
    show min (List.replicate k (2 : Int)).length (List.replicate k (2 : Int)).length = k
    rw [List.length_replicate]
    omega
  have hfold : ([List.replicate k (2 : Int), List.replicate k 2] : ClauseSet).foldl
      (fun shortest clause => min shortest clause.length) 2147483647 = k := by
    simp only [List.foldl_cons, List.foldl_nil, List.length_replicate]
    omega
  have hfilter : ∀ m, m = k →
      ([List.replicate k (2 : Int), List.replicate k 2] : ClauseSet).filter
        (fun clause => clause.length == m) =
      [List.replicate k 2, List.replicate k 2] := by
    intro m hm
    subst hm
    simp [List.filter_cons, List.length_replicate]
  have hcount : ∀ w, (([List.replicate k (2 : Int), List.replicate k 2] : ClauseSet).map
      (fun c => c.countP (fun lit => lit.natAbs == w))).sum = if w = 2 then 2 * k else 0 := by
    intro w
    simp only [List.map_cons, List.map_nil, List.sum_cons, List.sum_nil,
      List.countP_replicate]
    by_cases h2 : w = 2
    · subst h2
      simp
      omega
    · have : ((2 : Int).natAbs == w) = false := by
        rw [beq_eq_false_iff_ne]
        intro h0
        exact h2 (by rw [← h0]; rfl)
      rw [this, if_neg h2]
      simp
  refine ⟨hw, ?_, ?_, ?_⟩
  · unfold occurrences
    rw [hfilter _ hmin, hcount]
    simp
  · unfold occurrences
    rw [hfilter _ hmin, hcount]
    simp
  · obtain ⟨freq, hfreq⟩ := tally_clauses_of_le
      [List.replicate k (2 : Int), List.replicate k 2] (List.replicate 2 0) (by
        intro c hc lit hl
        rw [List.length_replicate]
        exact hw c hc lit hl)
    obtain ⟨hlen, _, _, _⟩ := tally_clauses_spec _ _ _ hfreq
    rw [List.length_replicate] at hlen
    have h0 : freq.getD 0 0 = 0 := by
      rw [tally_clauses_zero hfreq 0, hcount, if_neg (by omega)]
      decide
    have h1 : freq.getD 1 0 < 0 := by
      rw [tally_clauses_zero hfreq 1, hcount, if_pos rfl]
      unfold wrap_int
      push_cast
      omega
    have hne : freq ≠ [] := by
      intro h; rw [h] at hlen; simp at hlen
    obtain ⟨hk, _, hfirst⟩ := max_element_index_spec freq hne
    have hidx : max_element_index freq = 0 := by
      by_contra hnz
      have e1 : max_element_index freq = 1 := by omega
      have := hfirst 0 (by omega)
      rw [e1, h0] at this
      omega
    simp only [find_most_frequent_variable, hfold, hfilter k rfl, hfreq, hidx]
    rfl

/-- The tallies of `find_most_frequent_variable` are `int`s: on two clauses of
`2^30 + 1` copies of the literal `2`, with variable count 2, the tally of variable 2
is `2^31 + 2`, it overflows, and the function answers variable 1, which has no
occurrence. -/
theorem find_most_frequent_variable_tally_overflow :
    literals_within 2 [List.replicate 1073741825 2, List.replicate 1073741825 2] ∧
    occurrences [List.replicate 1073741825 2, List.replicate 1073741825 2] 1 = 0 ∧
    occurrences [List.replicate 1073741825 2, List.replicate 1073741825 2] 2 =
      2 * 1073741825 ∧
    find_most_frequent_variable 2
      [List.replicate 1073741825 2, List.replicate 1073741825 2] = .ok 1 :=
  tally_overflow_call 1073741825 (by omega) (by omega)

/-! ## The invariant of the calls of `atomic_cut` -/

/-- The arguments of the recursive calls of lines 125-126 and 181-182 meet the
invariant, when the clause set of the caller holds at most `INT_MAX` literal
occurrences. -/
theorem recursive_call_invariant {s f : Int} {cs sub sub1 : ClauseSet} {r r2 : result}
    {k : Nat} {nv : Int}
    (hsimp : simplify_clauses s f cs = some sub) (hlen : size_within cs)
    (hup : unit_propagation_loop k sub r = .ok (true, sub1, r2)) (hne : sub1 ≠ [])
    (hnv : find_most_frequent_variable r2.num_variables sub1 = .ok nv) :
    call_invariant nv sub1 := by
  have hlen1 : size_within sub1 :=
    unit_propagation_loop_size hup (simplify_clauses_size hsimp hlen)
  have hnonempty : ∀ c ∈ sub1, c ≠ [] :=
    unit_propagation_loop_nonempty hup (simplify_clauses_nonempty hsimp)
  obtain ⟨c0, hc0⟩ := List.exists_mem_of_ne_nil sub1 hne
  exact ⟨hne, hnonempty, first_unit_none (unit_propagation_loop_no_unit hup), hlen1,
    find_most_frequent_variable_pos hnv,
    find_most_frequent_variable_mentions hnv hnonempty
      ⟨c0, hc0, size_within_lengths hlen1 c0 hc0⟩ hlen1⟩

/-- The call made by `solve` meets the invariant, for an input without empty clause
that holds at most `INT_MAX` literal occurrences. -/
theorem top_call_invariant {input simplified : ClauseSet} {r1 : result} {best : Int}
    (hnonempty : ∀ c ∈ input, c ≠ []) (hlen : size_within input)
    (hup : unit_propagation (solver input).clause_set (solver input) =
      .ok (true, simplified, r1))
    (hne : simplified ≠ [])
    (hbest : find_most_frequent_variable r1.num_variables simplified = .ok best) :
    call_invariant best simplified := by
  have hcs : (solver input).clause_set = input := rfl
  rw [hcs] at hup
  unfold unit_propagation at hup
  have hlen1 : size_within simplified := unit_propagation_loop_size hup hlen
  have hnonempty1 : ∀ c ∈ simplified, c ≠ [] := unit_propagation_loop_nonempty hup hnonempty
  obtain ⟨c0, hc0⟩ := List.exists_mem_of_ne_nil simplified hne
  exact ⟨hne, hnonempty1, first_unit_none (unit_propagation_loop_no_unit hup), hlen1,
    find_most_frequent_variable_pos hbest,
    find_most_frequent_variable_mentions hbest hnonempty1
      ⟨c0, hc0, size_within_lengths hlen1 c0 hc0⟩ hlen1⟩

/-- Every recursive call of `atomic_cut` is made on arguments that meet the invariant:
a call on a clause set of at most `INT_MAX` literal occurrences is unchanged when the
recursive call is replaced by any function that agrees with it on such arguments.  The
clause sets of both branches hold no literal of the branch variable. -/
theorem atomic_cut_calls_invariant
    (self1 self2 : Int → ClauseSet → result → Except Fault result)
    (v : Int) (cs : ClauseSet) (r : result) (hlen : size_within cs)
    (hagree : ∀ nv cs0 r0, call_invariant nv cs0 → self1 nv cs0 r0 = self2 nv cs0 r0) :
    atomic_cut_body self1 v cs r = atomic_cut_body self2 v cs r ∧
    (∀ pos, simplify_clauses v (-v) cs = some pos → ¬ mentions pos v.natAbs) ∧
    (∀ neg, simplify_clauses (-v) v cs = some neg → ¬ mentions neg v.natAbs) := by
  have hposeq : ∀ r1, positive_branch self1 v cs r1 = positive_branch self2 v cs r1 := by
    intro r1
    simp only [positive_branch]
    split
    · rfl
    · cases hsimp : simplify_clauses v (-v) cs with
      | none => rfl
      | some pos =>
        simp only [Option.getD_some]
        cases hup : unit_propagation pos r1 with
        | error e => rfl
        | ok out =>
          obtain ⟨b, pos1, r2⟩ := out
          cases b with
          | false => rfl
          | true =>
            simp only
            split
            · rfl
            · rename_i hne1
              have hne1 : pos1 ≠ [] := fun h0 => hne1 (List.isEmpty_iff.mpr h0)
              cases hnv : find_most_frequent_variable r2.num_variables pos1 with
              | error e => rfl
              | ok nv =>
                simp only
                unfold unit_propagation at hup
                rw [hagree nv pos1 r2 (recursive_call_invariant hsimp hlen hup hne1 hnv)]
  have hnegeq : ∀ r1, negative_branch self1 v cs r1 = negative_branch self2 v cs r1 := by
    intro r1
    simp only [negative_branch]
    split
    · rfl
    · rename_i I1 _
      cases hsimp : simplify_clauses (-v) v cs with
      | none => rfl
      | some neg =>
        simp only
        split
        · rfl
        · cases hup : unit_propagation neg { r1 with interpretation := I1 } with
          | error e => rfl
          | ok out =>
            obtain ⟨b, neg1, r2⟩ := out
            cases b with
            | false => rfl
            | true =>
              simp only
              split
              · rfl
              · rename_i hne1
                have hne1 : neg1 ≠ [] := fun h0 => hne1 (List.isEmpty_iff.mpr h0)
                cases hnv : find_most_frequent_variable r2.num_variables neg1 with
                | error e => rfl
                | ok nv =>
                  simp only
                  unfold unit_propagation at hup
                  exact hagree nv neg1 r2
                    (recursive_call_invariant hsimp hlen hup hne1 hnv)
  refine ⟨by simp only [atomic_cut_body, hposeq, hnegeq], ?_, ?_⟩
  · intro pos hsimp
    exact simplify_clauses_eliminates hsimp rfl
  · intro neg hsimp
    have := simplify_clauses_eliminates hsimp (by simp)
    rwa [Int.natAbs_neg] at this

/-- The call made by `solve` on a clause set made of one clause of more than `INT_MAX`
copies of the literal `2`: the input has nonzero literals and no empty clause,
propagation leaves it as it is, and the heuristic passes variable 1, which does not
occur in it. -/
theorem long_clause_call (k : Nat) (hk : 2147483647 < k) :
    nonzero_literals [List.replicate k 2] ∧
    (∀ c ∈ ([List.replicate k 2] : ClauseSet), c ≠ []) ∧
    unit_propagation (solver [List.replicate k 2]).clause_set (solver [List.replicate k 2]) =
      .ok (true, [List.replicate k 2], solver [List.replicate k 2]) ∧
    find_most_frequent_variable (solver [List.replicate k 2]).num_variables
      [List.replicate k 2] = .ok 1 ∧
    ¬ mentions [List.replicate k 2] 1 := by
  obtain ⟨h1, _, h3, h4⟩ := replicate_clause_set_facts k hk
  have hunit : first_unit ([List.replicate k 2] : ClauseSet) = none := by
    apply first_unit_eq_none_of_no_unit
    intro c hc
    have := h1 c hc
    omega
  refine ⟨h4, ?_, unit_propagation_no_unit hunit, find_most_frequent_variable_giant h1, h3⟩
  intro c hc h0
  have := h1 c hc
  rw [h0] at this
  simp at this

/-- Claim C19 (search invariant), refuted by the code: `shortest_length` starts at
`INT_MAX`, so on the input made of one clause of `2^31` copies of the literal `2`
(nonzero literals, no empty clause) no clause has the computed shortest length, the
frequency table stays at zero, and `solve` calls `atomic_cut` on variable 1, which
does not occur in the clause set. -/
theorem atomic_cut_called_on_absent_variable :
    nonzero_literals [List.replicate 2147483648 2] ∧
    (∀ c ∈ ([List.replicate 2147483648 2] : ClauseSet), c ≠ []) ∧
    unit_propagation (solver [List.replicate 2147483648 2]).clause_set
        (solver [List.replicate 2147483648 2]) =
      .ok (true, [List.replicate 2147483648 2], solver [List.replicate 2147483648 2]) ∧
    find_most_frequent_variable (solver [List.replicate 2147483648 2]).num_variables
      [List.replicate 2147483648 2] = .ok 1 ∧
    ¬ mentions [List.replicate 2147483648 2] 1 :=
  long_clause_call 2147483648 (by omega)

/-! ## The benchmark generator -/

theorem shift_left_one_eq (n : Nat) (h : n < 31) : shift_left_one n = ((2 ^ n : Nat) : Int) := by
  have h1 : (2:Nat) ^ n < 2 ^ 31 := Nat.pow_lt_pow_right (by omega) h
  have h0 : 0 < (2:Nat) ^ n := Nat.pow_pos (by omega)
  unfold shift_left_one
  push_cast
  have h1i : (2:Int) ^ n < 2 ^ 31 := by exact_mod_cast h1
  have h0i : (0:Int) < 2 ^ n := by exact_mod_cast h0
  generalize (2:Int) ^ n = x at h1i h0i ⊢
  omega

/-- Below 31 variables the loop of line 25 runs over the indices `0 .. 2^n - 1`. -/
theorem generate_clause_set_eq (n : Nat) (h : n < 31) :
    generate_clause_set n = (List.range (2 ^ n)).map (generate_clause n) := by
  simp only [generate_clause_set, shift_left_one_eq n h, Int.toNat_ofNat]

theorem generate_clause_length (n i : Nat) : (generate_clause n i).length = n := by
  simp [generate_clause]

theorem generate_clause_getElem? (n i j : Nat) (hj : j < n) :
    (generate_clause n i)[j]? =
      some (if i.testBit j then -((j : Int) + 1) else (j : Int) + 1) := by
  have hbit : ((i >>> j) &&& 1 ≠ 0) ↔ i.testBit j = true := by
    simp only [Nat.testBit, Nat.land_comm 1, bne_iff_ne, ne_eq]
  simp only [generate_clause, List.getElem?_map, List.getElem?_range hj, Option.map_some']
  by_cases hb : i.testBit j = true
  · rw [if_pos (hbit.mpr hb), if_pos hb]
  · rw [if_neg (fun h0 => hb (hbit.mp h0)), if_neg hb]

theorem mem_generate_clause {n i : Nat} {lit : Int} :
    lit ∈ generate_clause n i ↔
      ∃ j, j < n ∧ lit = if i.testBit j then -((j : Int) + 1) else (j : Int) + 1 := by
  constructor
  · intro h
    obtain ⟨j, hj⟩ := List.mem_iff_getElem?.mp h
    have hlt : j < n := by
      by_contra hge
      have : (generate_clause n i)[j]? = none := by
        rw [List.getElem?_eq_none_iff, generate_clause_length]; omega
      rw [this] at hj
      exact absurd hj (by simp)
    rw [generate_clause_getElem? n i j hlt] at hj
    exact ⟨j, hlt, (Option.some.inj hj).symm⟩
  · rintro ⟨j, hj, rfl⟩
    exact List.mem_iff_getElem?.mpr ⟨j, generate_clause_getElem? n i j hj⟩

/-- Literal `j` of clause `i` is true exactly when entry `j` of the interpretation is the
opposite of bit `j` of `i`. -/
theorem lit_true_generate (I : List Bool) (i j : Nat) :
    lit_true I (if i.testBit j then -((j : Int) + 1) else (j : Int) + 1) = true ↔
      I[j]? = some (!i.testBit j) := by
  by_cases hb : i.testBit j = true
  · have h1 : (-((j : Int) + 1)).natAbs - 1 = j := by omega
    have h2 : ¬ (0 < -((j : Int) + 1)) := by omega
    have h3 : -((j : Int) + 1) ≠ 0 := by omega
    rw [if_pos hb]
    generalize -((j : Int) + 1) = lit at h1 h2 h3
    simp [lit_true, hb, h1, h2, h3]
  · have hb1 : i.testBit j = false := by simpa using hb
    have h1 : ((j : Int) + 1).natAbs - 1 = j := by omega
    have h2 : 0 < (j : Int) + 1 := by omega
    have h3 : (j : Int) + 1 ≠ 0 := by omega
    rw [if_neg hb]
    generalize (j : Int) + 1 = lit at h1 h2 h3
    simp [lit_true, hb1, h1, h2, h3]

theorem clause_true_generate (I : List Bool) (n i : Nat) :
    clause_true I (generate_clause n i) = true ↔ ∃ j, j < n ∧ I[j]? = some (!i.testBit j) := by
  rw [clause_true_iff]
  constructor
  · rintro ⟨lit, hl, ht⟩
    obtain ⟨j, hj, rfl⟩ := mem_generate_clause.mp hl
    exact ⟨j, hj, (lit_true_generate I i j).mp ht⟩
  · rintro ⟨j, hj, h⟩
    exact ⟨_, mem_generate_clause.mpr ⟨j, hj, rfl⟩, (lit_true_generate I i j).mpr h⟩

theorem row_index_lt : ∀ (l : List Bool), row_index l < 2 ^ l.length := by
  intro l
  induction l with
  | nil => simp [row_index]
  | cons b bs ih =>
    simp only [row_index, List.length_cons, Nat.pow_succ]
    split <;> omega

theorem testBit_row_index : ∀ (l : List Bool) (j : Nat),
    (row_index l).testBit j = l.getD j false := by
  intro l
  induction l with
  | nil => intro j; simp [row_index]
  | cons b bs ih =>
    intro j
    cases j with
    | zero =>
      simp only [row_index, Nat.testBit_zero, List.getD_cons_zero]
      cases b <;> simp
    | succ j =>
      simp only [row_index, Nat.testBit_succ, List.getD_cons_succ]
      rw [← ih j]
      congr 1
      cases b
      · simp
      · simp only [if_true]; omega

/-- Two indices below `2^n` with the same `n` low bits are equal. -/
theorem eq_of_low_bits {n i k : Nat} (hi : i < 2 ^ n) (hk : k < 2 ^ n)
    (h : ∀ j, j < n → i.testBit j = k.testBit j) : i = k := by
  apply Nat.eq_of_testBit_eq
  intro j
  by_cases hj : j < n
  · exact h j hj
  · have hp : 2 ^ n ≤ 2 ^ j := Nat.pow_le_pow_right (by omega) (by omega)
    rw [Nat.testBit_lt_two_pow (by omega), Nat.testBit_lt_two_pow (by omega)]

/-- The clause falsified by an interpretation: the one whose index is its row. -/
theorem generate_clause_falsified (I : List Bool) (n : Nat) :
    row_index ((List.range n).map (fun j => I[j]? == some true)) < 2 ^ n ∧
    clause_true I (generate_clause n
      (row_index ((List.range n).map (fun j => I[j]? == some true)))) = false := by
  constructor
  · have := row_index_lt ((List.range n).map (fun j => I[j]? == some true))
    simpa using this
  · rw [Bool.eq_false_iff]
    intro h
    obtain ⟨j, hj, hI⟩ := (clause_true_generate I n _).mp h
    rw [testBit_row_index] at hI
    have hget : ((List.range n).map (fun j => I[j]? == some true)).getD j false =
        (I[j]? == some true) := by
      simp [List.getD_eq_getElem?_getD, List.getElem?_map, List.getElem?_range hj]
    rw [hget] at hI
    cases hv : I[j]? with
    | none => rw [hv] at hI; exact absurd hI (by simp)
    | some b =>
      rw [hv] at hI
      cases b <;> simp at hI

theorem generate_clause_falsified_unique (I : List Bool) (n i k : Nat) (hlen : n ≤ I.length)
    (hi : i < 2 ^ n) (hk : k < 2 ^ n)
    (hfi : clause_true I (generate_clause n i) = false)
    (hfk : clause_true I (generate_clause n k) = false) : i = k := by
  apply eq_of_low_bits hi hk
  intro j hj
  have hjl : j < I.length := by omega
  have h1 : ¬ I[j]? = some (!i.testBit j) := fun h0 =>
    absurd ((clause_true_generate I n i).mpr ⟨j, hj, h0⟩) (by rw [hfi]; simp)
  have h2 : ¬ I[j]? = some (!k.testBit j) := fun h0 =>
    absurd ((clause_true_generate I n k).mpr ⟨j, hj, h0⟩) (by rw [hfk]; simp)
  rw [List.getElem?_eq_getElem hjl] at h1 h2
  cases hb : I[j] <;> cases hbi : i.testBit j <;> cases hbk : k.testBit j <;>
    simp [hb, hbi, hbk] at h1 h2 ⊢

theorem generate_clause_set_getD (n i : Nat) (hn : n < 31) (hi : i < 2 ^ n) :
    (generate_clause_set n).getD i [] = generate_clause n i := by
  rw [generate_clause_set_eq n hn]
  simp [List.getD_eq_getElem?_getD, List.getElem?_map, List.getElem?_range hi]

theorem generate_clause_set_getElem? (n i : Nat) (hn : n < 31) {c : Clause}
    (h : (generate_clause_set n)[i]? = some c) : i < 2 ^ n ∧ c = generate_clause n i := by
  rw [generate_clause_set_eq n hn] at h
  have hlt : i < 2 ^ n := by
    by_contra hge
    have : ((List.range (2 ^ n)).map (generate_clause n))[i]? = none := by
      rw [List.getElem?_eq_none_iff]; simp; omega
    rw [this] at h
    exact absurd h (by simp)
  rw [List.getElem?_map, List.getElem?_range hlt] at h
  exact ⟨hlt, (Option.some.inj h).symm⟩

/-- Claim C14 (benchmark generator): for `n < 31`, `generate_clause_set n` has `2^n`
clauses; clause `i` has length `n` and its literal `j` is `-(j+1)` when bit `j` of `i`
is set and `j+1` otherwise; every truth assignment of the `n` variables falsifies
exactly one clause; no interpretation satisfies the set; and the set without any one
of its clauses is satisfiable. -/
theorem generate_clause_set_spec (n : Nat) (hn : n < 31) :
    (generate_clause_set n).length = 2 ^ n ∧
    (∀ i, i < 2 ^ n → ((generate_clause_set n).getD i []).length = n ∧
      ∀ j, j < n → ((generate_clause_set n).getD i [])[j]? =
        some (if i.testBit j then -((j : Int) + 1) else (j : Int) + 1)) ∧
    (∀ I : List Bool, I.length = n →
      ∃ i, i < 2 ^ n ∧ clause_true I ((generate_clause_set n).getD i []) = false ∧
        ∀ k, k < 2 ^ n → clause_true I ((generate_clause_set n).getD k []) = false → k = i) ∧
    (∀ I : List Bool, satisfies I (generate_clause_set n) = false) ∧
    (∀ k, k < 2 ^ n →
      ∃ I : List Bool, I.length = n ∧ satisfies I ((generate_clause_set n).eraseIdx k) = true) := by
  refine ⟨?_, ?_, ?_, ?_, ?_⟩
  · rw [generate_clause_set_eq n hn]; simp
  · intro i hi
    rw [generate_clause_set_getD n i hn hi]
    exact ⟨generate_clause_length n i, fun j hj => generate_clause_getElem? n i j hj⟩
  · intro I hlen
    obtain ⟨hr, hf⟩ := generate_clause_falsified I n
    refine ⟨_, hr, by rw [generate_clause_set_getD n _ hn hr]; exact hf, ?_⟩
    intro k hk hfk
    rw [generate_clause_set_getD n k hn hk] at hfk
    exact generate_clause_falsified_unique I n k _ (by omega) hk hr hfk hf
  · intro I
    rw [Bool.eq_false_iff]
    intro h
    obtain ⟨hr, hf⟩ := generate_clause_falsified I n
    have hmem : generate_clause n
        (row_index ((List.range n).map (fun j => I[j]? == some true))) ∈
        generate_clause_set n := by
      rw [generate_clause_set_eq n hn]
      exact List.mem_map.mpr ⟨_, List.mem_range.mpr hr, rfl⟩
    have := clause_true_iff.mpr (satisfies_iff.mp h _ hmem)
    rw [hf] at this
    exact absurd this (by simp)
  · intro k hk
    refine ⟨(List.range n).map (fun j => k.testBit j), by simp, ?_⟩
    rw [satisfies_iff]
    intro c hc
    obtain ⟨i, hik, hget⟩ := List.mem_eraseIdx_iff_getElem?.mp hc
    obtain ⟨hi, rfl⟩ := generate_clause_set_getElem? n i hn hget
    have hdiff : ∃ j, j < n ∧ i.testBit j ≠ k.testBit j := by
      by_contra hall
      apply hik
      apply eq_of_low_bits hi hk
      intro j hj
      by_contra hne
      exact hall ⟨j, hj, hne⟩
    obtain ⟨j, hj, hne⟩ := hdiff
    apply clause_true_iff.mp
    rw [clause_true_generate]
    refine ⟨j, hj, ?_⟩
    rw [List.getElem?_map, List.getElem?_range hj]
    simp only [Option.map_some', Option.some.injEq]
    cases hbi : i.testBit j <;> cases hbk : k.testBit j <;> simp [hbi, hbk] at hne ⊢

theorem generate_clause_set_spec_witness :
    (2 : Nat) < 31 ∧
    generate_clause_set 2 = [[1, 2], [-1, 2], [1, -2], [-1, -2]] ∧
    (generate_clause_set 2).length = 2 ^ 2 ∧
    (∀ i, i < 2 ^ 2 → ((generate_clause_set 2).getD i []).length = 2 ∧
      ∀ j, j < 2 → ((generate_clause_set 2).getD i [])[j]? =
        some (if i.testBit j then -((j : Int) + 1) else (j : Int) + 1)) ∧
    (∀ I : List Bool, I.length = 2 →
      ∃ i, i < 2 ^ 2 ∧ clause_true I ((generate_clause_set 2).getD i []) = false ∧
        ∀ k, k < 2 ^ 2 → clause_true I ((generate_clause_set 2).getD k []) = false → k = i) ∧
    (∀ I : List Bool, satisfies I (generate_clause_set 2) = false) ∧
    (∀ k, k < 2 ^ 2 →
      ∃ I : List Bool, I.length = 2 ∧ satisfies I ((generate_clause_set 2).eraseIdx k) = true) :=
  ⟨by decide, rfl, generate_clause_set_spec 2 (by decide)⟩

/-- Claim C15: for `1 ≤ n < 31` the benchmark set without its last clause is satisfied by
the all-true assignment, and without its first clause by the all-false assignment. -/
theorem generate_clause_set_models (n : Nat) (_hpos : 1 ≤ n) (hn : n < 31) :
    satisfies (List.replicate n true) (generate_clause_set n).dropLast = true ∧
    satisfies (List.replicate n false) (generate_clause_set n).tail = true := by
  have hN : 0 < 2 ^ n := Nat.pow_pos (by omega)
  rw [generate_clause_set_eq n hn]
  constructor
  · rw [← List.map_dropLast, List.dropLast_eq_take, List.length_range, List.take_range,
      satisfies_iff]
    intro c hc
    obtain ⟨i, hi, rfl⟩ := List.mem_map.mp hc
    have hi : i < 2 ^ n - 1 := by
      have := List.mem_range.mp hi
      omega
    have hbit : ∃ j, j < n ∧ i.testBit j = false := by
      by_contra hall
      have : i = 2 ^ n - 1 := by
        apply @eq_of_low_bits n i (2 ^ n - 1) (by omega) (by omega)
        intro j hj
        rw [Nat.testBit_two_pow_sub_one, decide_eq_true hj]
        by_contra hne
        exact hall ⟨j, hj, by simpa using hne⟩
      omega
    obtain ⟨j, hj, hb⟩ := hbit
    apply clause_true_iff.mp
    rw [clause_true_generate]
    exact ⟨j, hj, by simp [hb, List.getElem?_replicate, hj]⟩
  · obtain ⟨m, hm⟩ : ∃ m, 2 ^ n = m + 1 := ⟨2 ^ n - 1, by omega⟩
    rw [hm, List.range_succ_eq_map, List.map_cons, List.tail_cons, satisfies_iff]
    intro c hc
    obtain ⟨i1, hi1, rfl⟩ := List.mem_map.mp hc
    obtain ⟨i, hi, rfl⟩ := List.mem_map.mp hi1
    have hi : i < m := List.mem_range.mp hi
    have hbit : ∃ j, j < n ∧ (i.succ).testBit j = true := by
      by_contra hall
      have : i.succ = 0 := by
        apply @eq_of_low_bits n i.succ 0 (by omega) hN
        intro j hj
        rw [Nat.zero_testBit]
        by_contra hne
        exact hall ⟨j, hj, by simpa using hne⟩
      omega
    obtain ⟨j, hj, hb⟩ := hbit
    apply clause_true_iff.mp
    rw [clause_true_generate]
    exact ⟨j, hj, by simp [hb, List.getElem?_replicate, hj]⟩

theorem generate_clause_set_models_witness :
    1 ≤ 3 ∧ 3 < 31 ∧
    (generate_clause_set 3).dropLast =
      [[1, 2, 3], [-1, 2, 3], [1, -2, 3], [-1, -2, 3], [1, 2, -3], [-1, 2, -3], [1, -2, -3]] ∧
    (generate_clause_set 3).tail =
      [[-1, 2, 3], [1, -2, 3], [-1, -2, 3], [1, 2, -3], [-1, 2, -3], [1, -2, -3], [-1, -2, -3]] ∧
    satisfies (List.replicate 3 true) (generate_clause_set 3).dropLast = true ∧
    satisfies (List.replicate 3 false) (generate_clause_set 3).tail = true :=
  ⟨by decide, by decide, rfl, rfl, generate_clause_set_models 3 (by decide) (by decide)⟩

/-! ## Unit propagation preserves satisfiability -/

theorem lit_true_neg {I : List Bool} {u : Int} (h : lit_true I u = true) :
    lit_true I (-u) = false := by
  simp only [lit_true, Bool.and_eq_true, decide_eq_true_eq, beq_iff_eq] at h
  obtain ⟨h0, h1⟩ := h
  have h2 : decide (0 < -u) = !decide (0 < u) := by
    by_cases hp : 0 < u
    · have : ¬ 0 < -u := by omega
      simp [hp, this]
    · have : 0 < -u := by omega
      simp [hp, this]
  simp only [lit_true, Int.natAbs_neg, h1, h2]
  cases decide (0 < u) <;> simp

/-- A model of the clause set makes its unit literal true, so it is a model of the
simplified clauses. -/
theorem simplify_clauses_complete {u : Int} {cs cs1 : ClauseSet} {I : List Bool}
    (hu : [u] ∈ cs) (hs : simplify_clauses u (-u) cs = some cs1)
    (hsat : satisfies I cs = true) : satisfies I cs1 = true := by
  rw [satisfies_iff] at hsat ⊢
  have htrue : lit_true I u = true := by
    obtain ⟨lit, hl, ht⟩ := hsat [u] hu
    rw [List.mem_singleton] at hl
    rw [← hl]; exact ht
  intro c1 hc1
  obtain ⟨_, c, hc, _, heq⟩ := simplify_clauses_mem hs c1 hc1
  obtain ⟨lit, hl, ht⟩ := hsat c hc
  refine ⟨lit, ?_, ht⟩
  rw [heq, List.mem_filter]
  refine ⟨hl, ?_⟩
  simp only [bne_iff_ne, ne_eq]
  intro h0
  rw [h0, lit_true_neg htrue] at ht
  exact absurd ht (by simp)

/-- When a unit step empties a clause, the clause set has no model. -/
theorem simplify_clauses_conflict {u : Int} {cs : ClauseSet} {I : List Bool}
    (hu : [u] ∈ cs) (hs : simplify_clauses u (-u) cs = none) : satisfies I cs = false := by
  rw [Bool.eq_false_iff]
  intro hsat
  rw [satisfies_iff] at hsat
  have htrue : lit_true I u = true := by
    obtain ⟨lit, hl, ht⟩ := hsat [u] hu
    rw [List.mem_singleton] at hl
    rw [← hl]; exact ht
  obtain ⟨c, hc, _, hfil⟩ := simplify_clauses_none.mp hs
  obtain ⟨lit, hl, ht⟩ := hsat c hc
  have hlit : lit = -u := by
    by_contra hne
    have : lit ∈ c.filter (fun l => l != -u) := by
      rw [List.mem_filter]; exact ⟨hl, by simpa using hne⟩
    rw [hfil] at this
    simp at this
  rw [hlit, lit_true_neg htrue] at ht
  exact absurd ht (by simp)

/-- A model of the simplified clauses, changed to make the unit literal true, is a
model of the clause set. -/
theorem simplify_clauses_model {u : Int} {cs cs1 : ClauseSet} {I : List Bool}
    (hu0 : u ≠ 0) (hs : simplify_clauses u (-u) cs = some cs1)
    (hsat : satisfies I cs1 = true) :
    satisfies ((I ++ List.replicate u.natAbs false).set (u.natAbs - 1) (decide (u > 0))) cs =
      true := by
  refine simplify_clauses_sound hs (lit_true_set hu0 (by simp)) ?_
  rw [satisfies_iff] at hsat ⊢
  intro c1 hc1
  obtain ⟨lit, hl, ht⟩ := hsat c1 hc1
  refine ⟨lit, hl, ?_⟩
  have hne : lit.natAbs ≠ u.natAbs := fun heq =>
    simplify_clauses_eliminates hs rfl (heq ▸ mentions_of_mem hc1 hl)
  simp only [lit_true, Bool.and_eq_true, decide_eq_true_eq, beq_iff_eq] at ht ⊢
  obtain ⟨h0, h1⟩ := ht
  refine ⟨h0, ?_⟩
  have hidx : u.natAbs - 1 ≠ lit.natAbs - 1 := by omega
  rw [List.getElem?_set_ne hidx]
  have hlt : lit.natAbs - 1 < I.length := by
    by_contra hge
    rw [List.getElem?_eq_none_iff.mpr (by omega)] at h1
    exact absurd h1 (by simp)
  rw [List.getElem?_append_left hlt]
  exact h1

/-- The three parts of the preservation of satisfiability, along a run of the loop. -/
theorem unit_propagation_loop_preserves : ∀ (fuel : Nat) (cs : ClauseSet) (r : result)
    (b : Bool) (cs2 : ClauseSet) (r2 : result),
    unit_propagation_loop fuel cs r = .ok (b, cs2, r2) →
    ((∃ I : List Bool, satisfies I cs = true) ↔
      (b = true ∧ ∃ I : List Bool, satisfies I cs2 = true)) ∧
    (b = true →
      (∀ u ∈ propagated_units fuel cs, lit_true r2.interpretation u = true) ∧
      ∀ I : List Bool, satisfies I cs2 = true →
        (∀ u ∈ propagated_units fuel cs, lit_true I u = true) → satisfies I cs = true) := by
  intro fuel
  induction fuel with
  | zero => intro cs r b cs2 r2 h; simp [unit_propagation_loop] at h
  | succ fuel ih =>
    intro cs r b cs2 r2 h
    simp only [unit_propagation_loop] at h
    simp only [propagated_units]
    split at h
    · simp only [Except.ok.injEq, Prod.mk.injEq] at h
      obtain ⟨h1, h2, _⟩ := h
      subst h1 h2
      simp
    · rename_i u hu
      have hmem := first_unit_some hu
      split at h
      · exact absurd h (by simp)
      · rename_i I1 hw
        obtain ⟨hu0, hule, hI1⟩ := write_interpretation_ok hw
        subst hI1
        split at h
        · rename_i hs
          simp only [Except.ok.injEq, Prod.mk.injEq] at h
          obtain ⟨h1, _, _⟩ := h
          subst h1
          refine ⟨?_, fun hb => absurd hb (by simp)⟩
          constructor
          · rintro ⟨I, hI⟩
            rw [simplify_clauses_conflict hmem hs] at hI
            exact absurd hI (by simp)
          · rintro ⟨hb, _⟩
            exact absurd hb (by simp)
        · rename_i cs1 hs
          obtain ⟨ih1, ih2⟩ := ih _ _ _ _ _ h
          constructor
          · rw [← ih1]
            constructor
            · rintro ⟨I, hI⟩
              exact ⟨I, simplify_clauses_complete hmem hs hI⟩
            · rintro ⟨I, hI⟩
              exact ⟨_, simplify_clauses_model hu0 hs hI⟩
          · intro hb
            obtain ⟨ih3, ih4⟩ := ih2 hb
            constructor
            · intro w hw
              rcases List.mem_cons.mp hw with h1 | h1
              · subst h1
                have helim : ¬ mentions cs1 (w.natAbs - 1 + 1) := by
                  have e : w.natAbs - 1 + 1 = w.natAbs := by omega
                  rw [e]; exact simplify_clauses_eliminates hs rfl
                have hfr := unit_propagation_loop_frame h (w.natAbs - 1) helim
                rw [lit_true_congr hfr]
                exact lit_true_set hu0 hule
              · exact ih3 w h1
            · intro I hI hunits
              exact simplify_clauses_sound hs (hunits u (List.mem_cons_self _ _))
                (ih4 I hI (fun w hw => hunits w (List.mem_cons_of_mem _ hw)))

/-- Claim C12 (unit propagation preserves satisfiability): a failed propagation means
that no assignment satisfies the clause set; after a successful one the clause set is
satisfiable exactly when the simplified clause set is, the interpretation records
every processed unit literal as true, and every assignment that satisfies the
simplified set and makes the processed unit literals true satisfies the clause set. -/
theorem unit_propagation_preserves_satisfiability (cs cs2 : ClauseSet) (r r2 : result)
    (b : Bool) (_hnz : nonzero_literals cs)
    (h : unit_propagation cs r = .ok (b, cs2, r2)) :
    (b = false → ∀ I : List Bool, satisfies I cs = false) ∧
    (b = true →
      ((∃ I : List Bool, satisfies I cs = true) ↔ ∃ I : List Bool, satisfies I cs2 = true) ∧
      (∀ u ∈ propagated_units (cs.length + 1) cs, lit_true r2.interpretation u = true) ∧
      ∀ I : List Bool, satisfies I cs2 = true →
        (∀ u ∈ propagated_units (cs.length + 1) cs, lit_true I u = true) →
        satisfies I cs = true) := by
  obtain ⟨h1, h2⟩ := unit_propagation_loop_preserves _ cs r b cs2 r2 h
  constructor
  · intro hb I
    rw [Bool.eq_false_iff]
    intro hI
    have := (h1.mp ⟨I, hI⟩).1
    rw [hb] at this
    exact absurd this (by simp)
  · intro hb
    obtain ⟨h3, h4⟩ := h2 hb
    refine ⟨?_, h3, h4⟩
    rw [h1]
    constructor
    · rintro ⟨_, hx⟩; exact hx
    · intro hx; exact ⟨hb, hx⟩

theorem unit_propagation_preserves_satisfiability_witness :
    nonzero_literals [[1], [-1, 2], [2, 3], [-3, 4, 5]] ∧
    unit_propagation [[1], [-1, 2], [2, 3], [-3, 4, 5]]
        (solver [[1], [-1, 2], [2, 3], [-3, 4, 5]]) =
      .ok (true, [[-3, 4, 5]],
        { satisfiable := true, timed_out := false, num_variables := 5,
          interpretation := [true, true, false, false, false], calculation_time := 0,
          clause_set := [[1], [-1, 2], [2, 3], [-3, 4, 5]] }) ∧
    propagated_units 5 [[1], [-1, 2], [2, 3], [-3, 4, 5]] = [1, 2] ∧
    ((true = false → ∀ I : List Bool, satisfies I [[1], [-1, 2], [2, 3], [-3, 4, 5]] = false) ∧
    (true = true →
      ((∃ I : List Bool, satisfies I [[1], [-1, 2], [2, 3], [-3, 4, 5]] = true) ↔
        ∃ I : List Bool, satisfies I [[-3, 4, 5]] = true) ∧
      (∀ u ∈ propagated_units
          (([[1], [-1, 2], [2, 3], [-3, 4, 5]] : ClauseSet).length + 1)
          [[1], [-1, 2], [2, 3], [-3, 4, 5]],
        lit_true ({ satisfiable := true, timed_out := false, num_variables := 5,
                    interpretation := [true, true, false, false, false],
                    calculation_time := 0,
                    clause_set := [[1], [-1, 2], [2, 3], [-3, 4, 5]] } : result).interpretation
          u = true) ∧
      ∀ I : List Bool, satisfies I [[-3, 4, 5]] = true →
        (∀ u ∈ propagated_units
            (([[1], [-1, 2], [2, 3], [-3, 4, 5]] : ClauseSet).length + 1)
            [[1], [-1, 2], [2, 3], [-3, 4, 5]], lit_true I u = true) →
        satisfies I [[1], [-1, 2], [2, 3], [-3, 4, 5]] = true)) :=
  ⟨by decide, by rfl, by rfl,
    unit_propagation_preserves_satisfiability [[1], [-1, 2], [2, 3], [-3, 4, 5]] [[-3, 4, 5]]
      (solver [[1], [-1, 2], [2, 3], [-3, 4, 5]])
      { satisfiable := true, timed_out := false, num_variables := 5,
        interpretation := [true, true, false, false, false], calculation_time := 0,
        clause_set := [[1], [-1, 2], [2, 3], [-3, 4, 5]] } true (by decide) (by rfl)⟩

/-! ## Confluence of unit propagation -/

theorem write_interpretation_error_iff {I : List Bool} {u : Int} {b : Bool} :
    (∃ e, write_interpretation I (|u| - 1) b = .error e) ↔
      ¬ (u ≠ 0 ∧ u.natAbs ≤ I.length) := by
  constructor
  · rintro ⟨e, he⟩ ⟨h0, hle⟩
    rw [write_interpretation_of_le b h0 hle] at he
    exact absurd he (by simp)
  · intro h
    cases hw : write_interpretation I (|u| - 1) b with
    | error e => exact ⟨e, rfl⟩
    | ok I1 =>
      obtain ⟨h0, hle, _⟩ := write_interpretation_ok hw
      exact absurd ⟨h0, hle⟩ h

/-- The loop of `unit_propagation` is one of the runs of `propagates`: it always picks
the first unit clause. -/
theorem unit_propagation_loop_propagates : ∀ (fuel : Nat) (cs : ClauseSet) (r : result),
    cs.length < fuel →
    propagates cs r.interpretation (run_outcome (unit_propagation_loop fuel cs r)) := by
  intro fuel
  induction fuel with
  | zero => intro cs r h; omega
  | succ fuel ih =>
    intro cs r hlen
    simp only [unit_propagation_loop]
    cases hu : first_unit cs with
    | none => exact propagates.done cs _ (first_unit_none hu)
    | some u =>
      simp only
      have hmem := first_unit_some hu
      cases hw : write_interpretation r.interpretation (|u| - 1) (decide (u > 0)) with
      | error e => exact propagates.stop cs _ u hmem (Or.inl ⟨e, hw⟩)
      | ok I1 =>
        simp only
        cases hs : simplify_clauses u (-u) cs with
        | none => exact propagates.stop cs _ u hmem (Or.inr hs)
        | some cs1 =>
          simp only
          have hlt := simplify_clauses_length_lt hs ⟨[u], hmem, by simp⟩
          exact propagates.step cs _ u I1 cs1 _ hmem hw hs
            (ih cs1 { r with interpretation := I1 } (by omega))

theorem propagates_exists (cs : ClauseSet) (I : List Bool) : ∃ out, propagates cs I out :=
  ⟨_, unit_propagation_loop_propagates (cs.length + 1) cs
    { num_variables := 0, interpretation := I, clause_set := [] } (Nat.lt_succ_self _)⟩

theorem simplify_clauses_cons_skip {s f : Int} {c : Clause} {rest : ClauseSet} (h : s ∈ c) :
    simplify_clauses s f (c :: rest) = simplify_clauses s f rest := by
  have hc : c.contains s = true := by simpa using h
  simp only [simplify_clauses, hc, if_true]

theorem simplify_clauses_cons_fail {s f : Int} {c : Clause} {rest : ClauseSet} (h : s ∉ c)
    (he : c.filter (fun lit => lit != f) = []) : simplify_clauses s f (c :: rest) = none := by
  have hc : c.contains s = false := by simpa using h
  simp only [simplify_clauses, hc, he, List.isEmpty_nil, if_true]
  simp

theorem simplify_clauses_cons_keep {s f : Int} {c : Clause} {rest : ClauseSet} (h : s ∉ c)
    (he : c.filter (fun lit => lit != f) ≠ []) :
    simplify_clauses s f (c :: rest) =
      (simplify_clauses s f rest).map (fun new_clauses =>
        c.filter (fun lit => lit != f) :: new_clauses) := by
  have hc : c.contains s = false := by simpa using h
  have he1 : (c.filter (fun lit => lit != f)).isEmpty = false := by
    cases hf : c.filter (fun lit => lit != f) with
    | nil => exact absurd hf he
    | cons a l => rfl
  simp only [simplify_clauses, hc, he1]
  cases simplify_clauses s f rest <;> simp

/-- A unit clause survives the step of another unit literal that is not its negation. -/
theorem unit_clause_persists {u w : Int} {cs cs1 : ClauseSet} (hw : [w] ∈ cs)
    (hs : simplify_clauses u (-u) cs = some cs1) (h1 : w ≠ u) (h2 : w ≠ -u) : [w] ∈ cs1 := by
  rcases simplify_clauses_cover hs [w] hw with h | h
  · rw [List.mem_singleton] at h
    exact absurd h.symm h1
  · have : List.filter (fun lit => lit != -u) [w] = [w] := by
      rw [List.filter_eq_self]
      intro a ha
      rw [List.mem_singleton] at ha
      subst ha
      simpa using h2
    rwa [this] at h

/-- Two opposite unit clauses: the step of either empties the other. -/
theorem opposite_units_conflict {u : Int} {cs : ClauseSet} (hu0 : u ≠ 0) (hw : [-u] ∈ cs) :
    simplify_clauses u (-u) cs = none := by
  rw [simplify_clauses_none]
  refine ⟨[-u], hw, ?_, ?_⟩
  · rw [List.mem_singleton]; omega
  · simp [List.filter]

/-- A clause emptied by the step of `u` is still emptied by it after the step of another
unit literal. -/
theorem conflict_persists {u w : Int} {cs csw : ClauseSet}
    (hu : simplify_clauses u (-u) cs = none) (hw : simplify_clauses w (-w) cs = some csw)
    (h2 : w ≠ -u) : simplify_clauses u (-u) csw = none := by
  obtain ⟨c, hc, huc, hfil⟩ := simplify_clauses_none.mp hu
  have hall : ∀ lit ∈ c, lit = -u := by
    intro lit hl
    by_contra hne
    have : lit ∈ c.filter (fun l => l != -u) := by
      rw [List.mem_filter]; exact ⟨hl, by simpa using hne⟩
    rw [hfil] at this
    simp at this
  rcases simplify_clauses_cover hw c hc with h | h
  · exact absurd (hall w h) h2
  · rw [simplify_clauses_none]
    refine ⟨_, h, fun hx => huc (List.mem_filter.mp hx).1, ?_⟩
    rw [List.filter_eq_nil_iff]
    intro lit hl
    have := hall lit (List.mem_filter.mp hl).1
    simp [this]

theorem filter_filter_comm (p q : Int → Bool) (c : Clause) :
    (c.filter p).filter q = (c.filter q).filter p := by
  rw [List.filter_filter, List.filter_filter]
  congr 1
  funext a
  exact Bool.and_comm _ _

theorem map_eq_some_cons {x : Option ClauseSet} {c : Clause} {cs : ClauseSet}
    (h : x.map (fun new_clauses => c :: new_clauses) = some cs) :
    ∃ rest, x = some rest ∧ cs = c :: rest := by
  cases x with
  | none => simp at h
  | some rest =>
    simp only [Option.map_some', Option.some.injEq] at h
    exact ⟨rest, rfl, h.symm⟩

/-- The steps of two unit literals on different variables commute. -/
theorem simplify_clauses_comm {u w : Int} (h2 : u ≠ -w) :
    ∀ (cs cu cw : ClauseSet), simplify_clauses u (-u) cs = some cu →
    simplify_clauses w (-w) cs = some cw →
    simplify_clauses w (-w) cu = simplify_clauses u (-u) cw := by
  have h3 : w ≠ -u := by omega
  intro cs
  induction cs with
  | nil =>
    intro cu cw hu hw
    simp only [simplify_clauses, Option.some.injEq] at hu hw
    subst hu hw
    rfl
  | cons c rest ih =>
    intro cu cw hu hw
    by_cases huc : u ∈ c
    · rw [simplify_clauses_cons_skip huc] at hu
      by_cases hwc : w ∈ c
      · rw [simplify_clauses_cons_skip hwc] at hw
        exact ih cu cw hu hw
      · have hne : c.filter (fun lit => lit != -w) ≠ [] := by
          intro h0
          have : u ∈ c.filter (fun lit => lit != -w) := by
            rw [List.mem_filter]; exact ⟨huc, by simpa using h2⟩
          rw [h0] at this
          simp at this
        rw [simplify_clauses_cons_keep hwc hne] at hw
        obtain ⟨cwr, hwr, rfl⟩ := map_eq_some_cons hw
        have humem : u ∈ c.filter (fun lit => lit != -w) := by
          rw [List.mem_filter]; exact ⟨huc, by simpa using h2⟩
        rw [simplify_clauses_cons_skip humem]
        exact ih cu cwr hu hwr
    · have hneu : c.filter (fun lit => lit != -u) ≠ [] := by
        intro h0
        rw [simplify_clauses_cons_fail huc h0] at hu
        exact absurd hu (by simp)
      rw [simplify_clauses_cons_keep huc hneu] at hu
      obtain ⟨cur, hur, rfl⟩ := map_eq_some_cons hu
      by_cases hwc : w ∈ c
      · rw [simplify_clauses_cons_skip hwc] at hw
        have hwmem : w ∈ c.filter (fun lit => lit != -u) := by
          rw [List.mem_filter]; exact ⟨hwc, by simpa using h3⟩
        rw [simplify_clauses_cons_skip hwmem]
        exact ih cur cw hur hw
      · have hnew : c.filter (fun lit => lit != -w) ≠ [] := by
          intro h0
          rw [simplify_clauses_cons_fail hwc h0] at hw
          exact absurd hw (by simp)
        rw [simplify_clauses_cons_keep hwc hnew] at hw
        obtain ⟨cwr, hwr, rfl⟩ := map_eq_some_cons hw
        have hw1 : w ∉ c.filter (fun lit => lit != -u) :=
          fun hx => hwc (List.mem_filter.mp hx).1
        have hu1 : u ∉ c.filter (fun lit => lit != -w) :=
          fun hx => huc (List.mem_filter.mp hx).1
        have hcomm := filter_filter_comm (fun lit => lit != -u) (fun lit => lit != -w) c
        by_cases hemp : (c.filter (fun lit => lit != -u)).filter (fun lit => lit != -w) = []
        · rw [simplify_clauses_cons_fail hw1 hemp,
            simplify_clauses_cons_fail hu1 (by rw [← hcomm]; exact hemp)]
        · rw [simplify_clauses_cons_keep hw1 hemp,
            simplify_clauses_cons_keep hu1 (by rw [← hcomm]; exact hemp),
            ih cur cwr hur hwr, hcomm]

/-- Writes for unit literals on different variables commute. -/
theorem write_interpretation_comm {I Iu Iw Iuw : List Bool} {u w : Int}
    (hne : u.natAbs ≠ w.natAbs)
    (hu : write_interpretation I (|u| - 1) (decide (u > 0)) = .ok Iu)
    (hw : write_interpretation I (|w| - 1) (decide (w > 0)) = .ok Iw)
    (huw : write_interpretation Iu (|w| - 1) (decide (w > 0)) = .ok Iuw) :
    write_interpretation Iw (|u| - 1) (decide (u > 0)) = .ok Iuw := by
  obtain ⟨hu0, hule, rfl⟩ := write_interpretation_ok hu
  obtain ⟨hw0, hwle, rfl⟩ := write_interpretation_ok hw
  obtain ⟨_, _, rfl⟩ := write_interpretation_ok huw
  rw [write_interpretation_of_le _ hu0 (by simpa using hule)]
  rw [List.set_comm _ _ _ (by omega)]

theorem write_interpretation_length {I I1 : List Bool} {u : Int} {b : Bool}
    (h : write_interpretation I (|u| - 1) b = .ok I1) : I1.length = I.length := by
  obtain ⟨_, _, rfl⟩ := write_interpretation_ok h
  simp

theorem write_interpretation_same_length {I J : List Bool} {u : Int} {b : Bool}
    (hlen : J.length = I.length) :
    (∃ e, write_interpretation I (|u| - 1) b = .error e) ↔
      ∃ e, write_interpretation J (|u| - 1) b = .error e := by
  rw [write_interpretation_error_iff, write_interpretation_error_iff, hlen]

theorem propagates_inv {cs : ClauseSet} {I : List Bool} {out : Option (ClauseSet × List Bool)}
    (h : propagates cs I out) :
    ((∀ c ∈ cs, c.length ≠ 1) ∧ out = some (cs, I)) ∨ ∃ u, [u] ∈ cs ∧ first_step u cs I out := by
  cases h with
  | done _ _ hno => exact Or.inl ⟨hno, rfl⟩
  | stop _ _ u hu hstop => exact Or.inr ⟨u, hu, Or.inl ⟨hstop, rfl⟩⟩
  | step _ _ u I1 cs1 _ hu hw hs hrun => exact Or.inr ⟨u, hu, Or.inr ⟨I1, cs1, hw, hs, hrun⟩⟩

theorem propagates_of_first_step {u : Int} {cs : ClauseSet} {I : List Bool}
    {out : Option (ClauseSet × List Bool)} (hu : [u] ∈ cs) (h : first_step u cs I out) :
    propagates cs I out := by
  rcases h with ⟨hstop, rfl⟩ | ⟨I1, cs1, hw, hs, hrun⟩
  · exact propagates.stop cs I u hu hstop
  · exact propagates.step cs I u I1 cs1 out hu hw hs hrun

/-- When the step of `u` stops the run, every run that starts with another unit literal
fails too. -/
theorem diamond_stop {cs : ClauseSet} {I : List Bool} {u w : Int}
    {out : Option (ClauseSet × List Bool)}
    (ih : ∀ (cs0 : ClauseSet) (I0 : List Bool) (a b : Option (ClauseSet × List Bool)),
      cs0.length < cs.length → propagates cs0 I0 a → propagates cs0 I0 b → a = b)
    (hu : [u] ∈ cs) (hw : [w] ∈ cs) (hne : u ≠ w)
    (hstop : (∃ e, write_interpretation I (|u| - 1) (decide (u > 0)) = .error e) ∨
      simplify_clauses u (-u) cs = none)
    (hstep : first_step w cs I out) : out = none := by
  rcases hstep with ⟨_, rfl⟩ | ⟨Iw, csw, hww, hsw, hrun⟩
  · rfl
  · obtain ⟨hw0, hwle, _⟩ := write_interpretation_ok hww
    have hlt := simplify_clauses_length_lt hsw ⟨[w], hw, by simp⟩
    have hnone : propagates csw Iw none := by
      rcases hstop with hfault | hconf
      · have hneg : u ≠ -w := by
          intro h0
          rw [write_interpretation_error_iff] at hfault
          apply hfault
          subst h0
          rw [Int.natAbs_neg]
          exact ⟨by omega, hwle⟩
        have hmem := unit_clause_persists hu hsw hne hneg
        exact propagates.stop csw Iw u hmem
          (Or.inl ((write_interpretation_same_length (write_interpretation_length hww)).mp
            hfault))
      · have hneg : u ≠ -w := by
          intro h0
          subst h0
          rw [opposite_units_conflict hw0 hu] at hsw
          exact absurd hsw (by simp)
        have hmem := unit_clause_persists hu hsw hne hneg
        exact propagates.stop csw Iw u hmem
          (Or.inr (conflict_persists hconf hsw (by omega)))
    exact ih csw Iw out none hlt hrun hnone

/-- Two runs that start with different unit literals have the same outcome, when runs on
shorter clause sets have a unique outcome. -/
theorem diamond {cs : ClauseSet} {I : List Bool} {u w : Int}
    {o1 o2 : Option (ClauseSet × List Bool)}
    (ih : ∀ (cs0 : ClauseSet) (I0 : List Bool) (a b : Option (ClauseSet × List Bool)),
      cs0.length < cs.length → propagates cs0 I0 a → propagates cs0 I0 b → a = b)
    (hu : [u] ∈ cs) (hw : [w] ∈ cs)
    (h1 : first_step u cs I o1) (h2 : first_step w cs I o2) : o1 = o2 := by
  by_cases hne : u = w
  · subst hne
    rcases h1 with ⟨hstop1, rfl⟩ | ⟨I1, cs1, hw1, hs1, hrun1⟩
    · rcases h2 with ⟨_, rfl⟩ | ⟨I2, cs2, hw2, hs2, _⟩
      · rfl
      · rcases hstop1 with ⟨e, he⟩ | hc
        · rw [he] at hw2; exact absurd hw2 (by simp)
        · rw [hc] at hs2; exact absurd hs2 (by simp)
    · rcases h2 with ⟨hstop2, rfl⟩ | ⟨I2, cs2, hw2, hs2, hrun2⟩
      · rcases hstop2 with ⟨e, he⟩ | hc
        · rw [he] at hw1; exact absurd hw1 (by simp)
        · rw [hc] at hs1; exact absurd hs1 (by simp)
      · rw [hw1] at hw2
        rw [hs1] at hs2
        simp only [Except.ok.injEq] at hw2
        simp only [Option.some.injEq] at hs2
        subst hw2 hs2
        exact ih cs1 I1 o1 o2 (simplify_clauses_length_lt hs1 ⟨[u], hu, by simp⟩) hrun1 hrun2
  · rcases h1 with ⟨hstop1, rfl⟩ | ⟨Iu, csu, hwu, hsu, hrun1⟩
    · exact (diamond_stop ih hu hw hne hstop1 h2).symm
    · rcases h2 with ⟨hstop2, rfl⟩ | ⟨Iw, csw, hww, hsw, hrun2⟩
      · exact diamond_stop ih hw hu (fun h0 => hne h0.symm) hstop2
          (Or.inr ⟨Iu, csu, hwu, hsu, hrun1⟩)
      · obtain ⟨hu0, hule, _⟩ := write_interpretation_ok hwu
        obtain ⟨hw0, hwle, _⟩ := write_interpretation_ok hww
        have hneg : w ≠ -u := by
          intro h0
          subst h0
          rw [opposite_units_conflict hu0 hw] at hsu
          exact absurd hsu (by simp)
        have hltu := simplify_clauses_length_lt hsu ⟨[u], hu, by simp⟩
        have hltw := simplify_clauses_length_lt hsw ⟨[w], hw, by simp⟩
        have hmemw : [w] ∈ csu := unit_clause_persists hw hsu (fun h0 => hne h0.symm) hneg
        have hmemu : [u] ∈ csw := unit_clause_persists hu hsw hne (by omega)
        have hcomm := simplify_clauses_comm (by omega : u ≠ -w) cs csu csw hsu hsw
        have hlenu := write_interpretation_length hwu
        have hwuw : write_interpretation Iu (|w| - 1) (decide (w > 0)) =
            .ok (Iu.set (w.natAbs - 1) (decide (w > 0))) :=
          write_interpretation_of_le _ hw0 (by rw [hlenu]; exact hwle)
        have hnat : u.natAbs ≠ w.natAbs := by omega
        have hwwu := write_interpretation_comm hnat hwu hww hwuw
        cases hX : simplify_clauses w (-w) csu with
        | none =>
          have e1 := ih csu Iu o1 none hltu hrun1 (propagates.stop csu Iu w hmemw (Or.inr hX))
          have e2 := ih csw Iw o2 none hltw hrun2
            (propagates.stop csw Iw u hmemu (Or.inr (by rw [← hcomm]; exact hX)))
          rw [e1, e2]
        | some csuw =>
          obtain ⟨o, ho⟩ := propagates_exists csuw (Iu.set (w.natAbs - 1) (decide (w > 0)))
          have e1 := ih csu Iu o1 o hltu hrun1
            (propagates.step csu Iu w _ csuw o hmemw hwuw hX ho)
          have e2 := ih csw Iw o2 o hltw hrun2
            (propagates.step csw Iw u _ csuw o hmemu hwwu (by rw [← hcomm]; exact hX) ho)
          rw [e1, e2]

/-- Confluence: whatever unit clauses are picked, the outcome is the same. -/
theorem propagates_unique : ∀ (n : Nat) (cs : ClauseSet) (I : List Bool)
    (o1 o2 : Option (ClauseSet × List Bool)), cs.length < n →
    propagates cs I o1 → propagates cs I o2 → o1 = o2 := by
  intro n
  induction n with
  | zero => intro cs I o1 o2 h; omega
  | succ n ih =>
    intro cs I o1 o2 hlen h1 h2
    have ih1 : ∀ (cs0 : ClauseSet) (I0 : List Bool) (a b : Option (ClauseSet × List Bool)),
        cs0.length < cs.length → propagates cs0 I0 a → propagates cs0 I0 b → a = b :=
      fun cs0 I0 a b hlt ha hb => ih cs0 I0 a b (by omega) ha hb
    rcases propagates_inv h1 with ⟨hno1, rfl⟩ | ⟨u, hu, hs1⟩
    · rcases propagates_inv h2 with ⟨_, rfl⟩ | ⟨w, hw, _⟩
      · rfl
      · exact absurd rfl (hno1 [w] hw)
    · rcases propagates_inv h2 with ⟨hno2, rfl⟩ | ⟨w, hw, hs2⟩
      · exact absurd rfl (hno2 [u] hu)
      · exact diamond ih1 hu hw hs1 hs2

/-- A successful pass of the clause loop is a clause-wise map. -/
theorem simplify_clauses_eq_filterMap {s f : Int} : ∀ (cs a : ClauseSet),
    simplify_clauses s f cs = some a →
    a = cs.filterMap
      (fun c => if c.contains s then none else some (c.filter (fun lit => lit != f))) := by
  intro cs
  induction cs with
  | nil =>
    intro a h
    simp only [simplify_clauses, Option.some.injEq] at h
    subst h
    rfl
  | cons c rest ih =>
    intro a h
    by_cases hsc : s ∈ c
    · rw [simplify_clauses_cons_skip hsc] at h
      have hc : c.contains s = true := by simpa using hsc
      rw [List.filterMap_cons]
      simp only [hc, if_true]
      exact ih a h
    · have hne : c.filter (fun lit => lit != f) ≠ [] := by
        intro h0
        rw [simplify_clauses_cons_fail hsc h0] at h
        exact absurd h (by simp)
      rw [simplify_clauses_cons_keep hsc hne] at h
      obtain ⟨rest1, hr, rfl⟩ := map_eq_some_cons h
      have hc : c.contains s = false := by simpa using hsc
      rw [List.filterMap_cons]
      simp only [hc, Bool.false_eq_true, if_false]
      rw [← ih rest1 hr]

theorem simplify_clauses_perm_none {s f : Int} {cs cs1 : ClauseSet} (hp : cs.Perm cs1)
    (h : simplify_clauses s f cs = none) : simplify_clauses s f cs1 = none := by
  obtain ⟨c, hc, h1, h2⟩ := simplify_clauses_none.mp h
  exact simplify_clauses_none.mpr ⟨c, hp.mem_iff.mp hc, h1, h2⟩

theorem simplify_clauses_perm {s f : Int} {cs cs1 a : ClauseSet} (hp : cs.Perm cs1)
    (h : simplify_clauses s f cs = some a) :
    simplify_clauses s f cs1 = some (cs1.filterMap
      (fun c => if c.contains s then none else some (c.filter (fun lit => lit != f)))) := by
  cases h1 : simplify_clauses s f cs1 with
  | none =>
    rw [simplify_clauses_perm_none hp.symm h1] at h
    exact absurd h (by simp)
  | some b => rw [← simplify_clauses_eq_filterMap cs1 b h1]

/-- A run on a reordered clause set is matched by a run on the original one that
processes the same unit literals. -/
theorem propagates_perm {cs1 : ClauseSet} {I : List Bool}
    {o1 : Option (ClauseSet × List Bool)} (h : propagates cs1 I o1) :
    ∀ (cs : ClauseSet), cs.Perm cs1 → ∃ o, propagates cs I o ∧ same_outcome cs cs1 o o1 := by
  induction h with
  | done cs1 I hno =>
    intro cs hp
    refine ⟨some (cs, I), propagates.done cs I (fun c hc => hno c (hp.mem_iff.mp hc)), ?_⟩
    exact ⟨⟨some, by simp, by simp⟩, rfl⟩
  | stop cs1 I u hu hstop =>
    intro cs hp
    refine ⟨none, propagates.stop cs I u (hp.mem_iff.mpr hu) ?_, trivial⟩
    rcases hstop with hf | hc
    · exact Or.inl hf
    · exact Or.inr (simplify_clauses_perm_none hp.symm hc)
  | step cs1 I u I1 cs2 out hu hw hs _ ih =>
    intro cs hp
    have hs0 := simplify_clauses_perm hp.symm hs
    have hs2 := simplify_clauses_eq_filterMap cs1 cs2 hs
    obtain ⟨o, ho, hsame⟩ := ih (cs.filterMap
      (fun c => if c.contains u then none else some (c.filter (fun lit => lit != -u))))
      (hs2 ▸ hp.filterMap _)
    refine ⟨o, propagates.step cs I u I1 _ o (hp.mem_iff.mpr hu) hw hs0 ho, ?_⟩
    cases o with
    | none =>
      cases out with
      | none => trivial
      | some y => exact absurd hsame (by simp [same_outcome])
    | some x =>
      cases out with
      | none => exact absurd hsame (by simp [same_outcome])
      | some y =>
        obtain ⟨a, Ia⟩ := x
        obtain ⟨b, Ib⟩ := y
        obtain ⟨⟨g, hga, hgb⟩, hI⟩ := hsame
        refine ⟨⟨fun c => ((if c.contains u then none
            else some (c.filter (fun lit => lit != -u))) : Option Clause).bind g, ?_, ?_⟩, hI⟩
        · rw [hga, List.filterMap_filterMap]
        · rw [hgb, hs2, List.filterMap_filterMap]

theorem run_outcome_eq_some {x : Except Fault (Bool × ClauseSet × result)}
    {a : ClauseSet} {I : List Bool} (h : run_outcome x = some (a, I)) :
    ∃ r2, x = .ok (true, a, r2) ∧ r2.interpretation = I := by
  cases x with
  | error e => simp [run_outcome] at h
  | ok out =>
    obtain ⟨b, cs2, r2⟩ := out
    cases b with
    | false => simp [run_outcome] at h
    | true =>
      simp only [run_outcome, Option.some.injEq, Prod.mk.injEq] at h
      obtain ⟨h1, h2⟩ := h
      subst h1
      exact ⟨r2, rfl, h2⟩

/-- The outcomes of `unit_propagation` on a clause set and on a reordering of it agree up
to the order of the clauses. -/
theorem unit_propagation_same_outcome (cs cs1 : ClauseSet) (r : result) (hp : cs.Perm cs1) :
    same_outcome cs cs1 (run_outcome (unit_propagation cs r))
      (run_outcome (unit_propagation cs1 r)) := by
  have hA := unit_propagation_loop_propagates (cs.length + 1) cs r (Nat.lt_succ_self _)
  have hB := unit_propagation_loop_propagates (cs1.length + 1) cs1 r (Nat.lt_succ_self _)
  obtain ⟨o, ho, hsame⟩ := propagates_perm hB cs hp
  have := propagates_unique (cs.length + 1) cs r.interpretation _ _ (Nat.lt_succ_self _) hA ho
  unfold unit_propagation
  rw [this]
  exact hsame

/-- Claim C17 (confluence): for a clause set and any reordering of its clauses,
`unit_propagation` succeeds on one exactly when it succeeds on the other, and then the
two simplified clause sets are the images of the two orders under one clause-wise
map, so they are equal up to the reordering, and the two interpretations are equal. -/
theorem unit_propagation_confluent (cs cs1 : ClauseSet) (r : result)
    (_hnz : nonzero_literals cs) (hp : cs.Perm cs1) :
    ((∃ cs2 r2, unit_propagation cs r = .ok (true, cs2, r2)) ↔
      ∃ cs3 r3, unit_propagation cs1 r = .ok (true, cs3, r3)) ∧
    ∀ cs2 r2 cs3 r3, unit_propagation cs r = .ok (true, cs2, r2) →
      unit_propagation cs1 r = .ok (true, cs3, r3) →
      cs2.Perm cs3 ∧
      (∃ g : Clause → Option Clause, cs2 = cs.filterMap g ∧ cs3 = cs1.filterMap g) ∧
      r2.interpretation = r3.interpretation := by
  have hsame := unit_propagation_same_outcome cs cs1 r hp
  refine ⟨⟨?_, ?_⟩, ?_⟩
  · rintro ⟨cs2, r2, h⟩
    rw [h] at hsame
    cases hB : run_outcome (unit_propagation cs1 r) with
    | none => rw [hB] at hsame; exact absurd hsame (by simp [run_outcome, same_outcome])
    | some y =>
      obtain ⟨b, J⟩ := y
      obtain ⟨r3, h3, _⟩ := run_outcome_eq_some hB
      exact ⟨b, r3, h3⟩
  · rintro ⟨cs3, r3, h⟩
    rw [h] at hsame
    cases hA : run_outcome (unit_propagation cs r) with
    | none => rw [hA] at hsame; exact absurd hsame (by simp [run_outcome, same_outcome])
    | some y =>
      obtain ⟨a, J⟩ := y
      obtain ⟨r2, h2, _⟩ := run_outcome_eq_some hA
      exact ⟨a, r2, h2⟩
  · intro cs2 r2 cs3 r3 h2 h3
    rw [h2, h3] at hsame
    obtain ⟨⟨g, hga, hgb⟩, hI⟩ := hsame
    refine ⟨?_, ⟨g, hga, hgb⟩, hI⟩
    rw [hga, hgb]
    exact hp.filterMap g

theorem unit_propagation_confluent_witness :
    nonzero_literals [[1], [-1, 2], [-3], [3, 4, 5]] ∧
    List.Perm ([[1], [-1, 2], [-3], [3, 4, 5]] : ClauseSet) [[3, 4, 5], [-3], [-1, 2], [1]] ∧
    unit_propagation [[1], [-1, 2], [-3], [3, 4, 5]] (solver [[1], [-1, 2], [-3], [3, 4, 5]]) =
      .ok (true, [[4, 5]],
        { satisfiable := true, timed_out := false, num_variables := 5,
          interpretation := [true, true, false, false, false], calculation_time := 0,
          clause_set := [[1], [-1, 2], [-3], [3, 4, 5]] }) ∧
    unit_propagation [[3, 4, 5], [-3], [-1, 2], [1]] (solver [[1], [-1, 2], [-3], [3, 4, 5]]) =
      .ok (true, [[4, 5]],
        { satisfiable := true, timed_out := false, num_variables := 5,
          interpretation := [true, true, false, false, false], calculation_time := 0,
          clause_set := [[1], [-1, 2], [-3], [3, 4, 5]] }) ∧
    (((∃ cs2 r2, unit_propagation [[1], [-1, 2], [-3], [3, 4, 5]]
          (solver [[1], [-1, 2], [-3], [3, 4, 5]]) = .ok (true, cs2, r2)) ↔
        ∃ cs3 r3, unit_propagation [[3, 4, 5], [-3], [-1, 2], [1]]
          (solver [[1], [-1, 2], [-3], [3, 4, 5]]) = .ok (true, cs3, r3)) ∧
      ∀ cs2 r2 cs3 r3,
        unit_propagation [[1], [-1, 2], [-3], [3, 4, 5]]
          (solver [[1], [-1, 2], [-3], [3, 4, 5]]) = .ok (true, cs2, r2) →
        unit_propagation [[3, 4, 5], [-3], [-1, 2], [1]]
          (solver [[1], [-1, 2], [-3], [3, 4, 5]]) = .ok (true, cs3, r3) →
        cs2.Perm cs3 ∧
        (∃ g : Clause → Option Clause,
          cs2 = List.filterMap g [[1], [-1, 2], [-3], [3, 4, 5]] ∧
          cs3 = List.filterMap g [[3, 4, 5], [-3], [-1, 2], [1]]) ∧
        r2.interpretation = r3.interpretation) :=
  ⟨by decide, by decide, rfl, rfl,
    unit_propagation_confluent [[1], [-1, 2], [-3], [3, 4, 5]] [[3, 4, 5], [-3], [-1, 2], [1]]
      (solver [[1], [-1, 2], [-3], [3, 4, 5]]) (by decide) (by decide)⟩

end PicoSat
